import Mathlib

/-!
Verification of the markdown-liquid parsing engine of GitStuffServer.

This file gives a shallow embedding, in Lean 4, of the engine found under
src/parsers/markdownLiquid: the tokenizer of the remark plugin
(remarkLiquidPlugin.ts), the tag classifier (tagClassifier.ts), the
expression and tag processors (expressionProcessor.ts, tagProcessor.ts),
the block associator (blockAssociator.ts) and the orchestrating pass with
its validation step (liquidAstProcessor.ts).  JavaScript strings are
modelled as Lean strings or lists of characters with explicit index
arithmetic; in-place mutation of the shared node objects is modelled by
indices into a list of node records that is threaded through every phase;
the opaque parse result of the embedded liquidjs engine is modelled as an
oracle of type String to Except String Nat, absorbing engine exceptions
into the error case; the time-and-randomness based block-identifier
minting is modelled by a supply function from mint counters to strings.
-/

namespace GitStuffServer

/-! ## Generic character-list helpers -/

/-- The opening curly brace character. -/
def lbrace : Char := '\x7b'

/-- The closing curly brace character. -/
def rbrace : Char := '\x7d'

/-- Slice of a character list: the characters at indices a, a+1, ..., b-1. -/
def sliceList (l : List Char) (a b : Nat) : List Char := (l.take b).drop a

/-- Worker for findSub: scan the remaining characters, tracking the absolute
index of the head, and return the first index at which pat occurs. -/
def findSubGo (pat : List Char) : List Char → Nat → Option Nat
  | [], _ => none
  | c :: rest, i =>
    if pat.isPrefixOf (c :: rest) then some i else findSubGo pat rest (i + 1)

/-- Model of JavaScript String.prototype.indexOf restricted to a nonempty
pattern: the least index at or after start where pat occurs in l, if any. -/
def findSub (pat l : List Char) (start : Nat) : Option Nat :=
  findSubGo pat (l.drop start) start

/-- Model of JavaScript String.prototype.startsWith. -/
def strStartsWith (s p : String) : Bool := p.data.isPrefixOf s.data

/-- Model of JavaScript String.prototype.substring with only a start index:
drop the first n characters. -/
def strDropChars (s : String) (n : Nat) : String := String.mk (s.data.drop n)

/-- A word character in the sense of the regex class backslash-w. -/
def isWordChar (c : Char) : Bool := c.isAlphanum || c == '_'

/-- Model of JavaScript String.prototype.trim. -/
def trimChars (l : List Char) : List Char :=
  ((l.dropWhile Char.isWhitespace).reverse.dropWhile Char.isWhitespace).reverse

/-- The leading word run of a character list, as matched by the regex
caret-backslash-w-plus. -/
def takeWordRun (l : List Char) : List Char := l.takeWhile isWordChar

/-- Strip a two-character opening delimiter together with the whitespace
following it, if the list starts with that delimiter; the model of the
leading half of the delimiter-stripping regexes. -/
def dropLeadingDelim (open2 : List Char) (l : List Char) : List Char :=
  if open2.isPrefixOf l then (l.drop 2).dropWhile Char.isWhitespace else l

/-- Strip a two-character closing delimiter together with the whitespace
preceding it, if the list ends with that delimiter; the model of the
trailing half of the delimiter-stripping regexes. -/
def dropTrailingDelim (close2 : List Char) (l : List Char) : List Char :=
  let r := l.reverse
  if close2.reverse.isPrefixOf r then
    ((r.drop 2).dropWhile Char.isWhitespace).reverse
  else l

/-- Truthiness of an optional string under JavaScript rules: present and
nonempty. -/
def optStrTruthy : Option String → Bool
  | some s => s ≠ ""
  | none => false

/-! ## Data model: positions, liquidjs AST records, liquid nodes

These mirror the interfaces of types.ts.  Optional record fields model
properties that may be absent on the JavaScript objects; the list of
indices in relatedBlockNodes models the list of references to sibling
node objects.  The parsedAST payload of the opaque engine result is
modelled by a bare natural number handle. -/

/-- A point in the source: line, column and character offset, as in the
Position interface of types.ts. -/
structure Pos where
  line : Nat
  column : Nat
  offset : Nat
deriving DecidableEq, Inhabited

/-- A source range; the field named end in types.ts is called stop here
because end is a Lean keyword. -/
structure Position where
  start : Pos
  stop : Pos
deriving DecidableEq, Inhabited

/-- The dynamic record stored in the liquidAST property of a node.  Each
field is optional because the JavaScript code tests property presence;
parsedAST holds the opaque engine parse tree on success. -/
structure LiquidAST where
  type : Option String := none
  tagName : Option String := none
  isBlockStart : Option Bool := none
  isBlockEnd : Option Bool := none
  isContinuation : Option Bool := none
  content : Option String := none
  parsedAST : Option Nat := none
  error : Option String := none
deriving DecidableEq, Inhabited

/-- A node of the host document tree, as in the LiquidNode interface of
types.ts, together with the value field of plain text nodes.  The
relatedBlockNodes field holds indices into the ambient node list. -/
structure LiquidNode where
  type : String := ""
  value : String := ""
  liquidContent : String := ""
  originalContent : Option String := none
  liquidInnerContent : Option String := none
  parseSuccess : Option Bool := none
  parseError : Option String := none
  blockId : Option String := none
  matchingBlockId : Option String := none
  relatedBlockNodes : Option (List Nat) := none
  position : Option Position := none
  liquidAST : Option LiquidAST := none
  lineNumber : Option Nat := none
  columnNumber : Option Nat := none
deriving DecidableEq, Inhabited

/-- Read the tagName stored in the liquidAST record of a node, defaulting
to the empty string, as the destructuring reads of the source do. -/
def astGetTagName (n : LiquidNode) : String :=
  (n.liquidAST.bind (fun a => a.tagName)).getD ""

/-- Read the isBlockStart flag of the liquidAST record, absent meaning
false, as JavaScript truthiness does. -/
def astFlagStart (n : LiquidNode) : Bool :=
  (n.liquidAST.bind (fun a => a.isBlockStart)).getD false

/-- Read the isBlockEnd flag of the liquidAST record, absent meaning
false. -/
def astFlagEnd (n : LiquidNode) : Bool :=
  (n.liquidAST.bind (fun a => a.isBlockEnd)).getD false

/-- Read the isContinuation flag of the liquidAST record, absent meaning
false. -/
def astFlagCont (n : LiquidNode) : Bool :=
  (n.liquidAST.bind (fun a => a.isContinuation)).getD false

/-! ## Tag classifier (tagClassifier.ts) -/

namespace tagClassifier

/-- The static table of block tags that require an end tag. -/
def BLOCK_TAGS : List String :=
  ["if", "unless", "for", "case", "capture", "tablerow",
   "raw", "block", "paginate", "schema", "style", "form"]

/-- The static table of continuation tags of tagClassifier.ts; note that
it lists endcase, endform, endpaginate and endblock in addition to the
genuine continuations. -/
def CONTINUATION_TAGS : List String :=
  ["else", "elsif", "when", "endcase", "endform", "endpaginate", "endblock"]

/-- Extract the tag name: the leading word run of the trimmed content,
with the sentinel unknown when the content is empty or starts with a
non-word character. -/
def extractTagName (content : String) : String :=
  if content = "" then "unknown"
  else
    let w := takeWordRun (trimChars content.data)
    if w = [] then "unknown" else String.mk w

/-- Membership in the block-tag table. -/
def isBlockStartTag (tagName : String) : Bool := BLOCK_TAGS.contains tagName

/-- The name starts with the prefix end and the remainder is a block
tag. -/
def isBlockEndTag (tagName : String) : Bool :=
  strStartsWith tagName "end" && BLOCK_TAGS.contains (strDropChars tagName 3)

/-- Membership in the continuation-tag table. -/
def isContinuationTag (tagName : String) : Bool := CONTINUATION_TAGS.contains tagName

/-- Either a block end tag or a continuation tag. -/
def isContinuationOrEndTag (tagName : String) : Bool :=
  isBlockEndTag tagName || isContinuationTag tagName

end tagClassifier

/-! ## Tag processor (tagProcessor.ts) -/

namespace tagProcessor

/-- The local block-tag table of tagProcessor.ts, identical to the
classifier table. -/
def BLOCK_TAGS : List String :=
  ["if", "unless", "for", "case", "capture", "tablerow",
   "raw", "block", "paginate", "schema", "style", "form"]

/-- The local continuation-tag table of tagProcessor.ts, which adds
elseif and empty to the classifier table. -/
def CONTINUATION_TAGS : List String :=
  ["else", "elsif", "elseif", "when", "empty",
   "endcase", "endform", "endpaginate", "endblock"]

/-- Local copy of the block-start predicate. -/
def isBlockStartTag (tagName : String) : Bool := BLOCK_TAGS.contains tagName

/-- Local copy of the block-end predicate. -/
def isBlockEndTag (tagName : String) : Bool :=
  strStartsWith tagName "end" && BLOCK_TAGS.contains (strDropChars tagName 3)

/-- Local continuation predicate over the extended table. -/
def isContinuationTag (tagName : String) : Bool := CONTINUATION_TAGS.contains tagName

/-- Strip the tag delimiters and adjacent whitespace from a raw tag, as
the two successive regex replacements of processTag do. -/
def stripTagDelims (s : String) : String :=
  String.mk (dropTrailingDelim ['%', rbrace] (dropLeadingDelim [lbrace, '%'] s.data))

/-- Model of processTag: set originalContent and liquidInnerContent,
build the liquidAST record with the tag name and the three role flags,
and for tags with no role flag attempt an engine parse through the
oracle, recording success or failure; tags with a role flag are
provisionally marked successful. -/
def processTag (oracle : String → Except String Nat) (node : LiquidNode) : LiquidNode :=
  if node.liquidContent = "" then node
  else
    let innerContent := stripTagDelims node.liquidContent
    let tagName := tagClassifier.extractTagName innerContent
    let ast : LiquidAST :=
      { type := some "tag"
        tagName := some tagName
        isBlockStart := some (isBlockStartTag tagName)
        isBlockEnd := some (isBlockEndTag tagName)
        isContinuation := some (isContinuationTag tagName)
        content := some innerContent }
    let base := { node with
      originalContent := some node.liquidContent
      liquidInnerContent := some innerContent
      liquidAST := some ast }
    if !isBlockStartTag tagName && !isBlockEndTag tagName && !isContinuationTag tagName then
      match oracle (String.mk ([lbrace, '%', ' '] ++ innerContent.data ++ [' ', '%', rbrace])) with
      | Except.ok parsed =>
          { base with
              liquidAST := some { ast with parsedAST := some parsed }
              parseSuccess := some true }
      | Except.error msg =>
          { base with parseSuccess := some false, parseError := some msg }
    else
      { base with parseSuccess := some true }

end tagProcessor

/-! ## Expression processor (expressionProcessor.ts) -/

namespace expressionProcessor

/-- Strip the expression delimiters and adjacent whitespace from a raw
expression, as the two regex replacements of processExpression do. -/
def stripExprDelims (s : String) : String :=
  String.mk (dropTrailingDelim [rbrace, rbrace] (dropLeadingDelim [lbrace, lbrace] s.data))

/-- Model of processExpression: set originalContent and
liquidInnerContent, then attempt an engine parse of the full raw content
through the oracle; on success store the opaque parse tree, on failure
record the message and a diagnostic stub record. -/
def processExpression (oracle : String → Except String Nat) (node : LiquidNode) : LiquidNode :=
  if node.liquidContent = "" then node
  else
    let innerContent := stripExprDelims node.liquidContent
    let base := { node with
      originalContent := some node.liquidContent
      liquidInnerContent := some innerContent }
    match oracle node.liquidContent with
    | Except.ok parsed =>
        { base with liquidAST := some { parsedAST := some parsed }, parseSuccess := some true }
    | Except.error msg =>
        { base with
            parseSuccess := some false
            parseError := some msg
            liquidAST := some { type := some "expression"
                                content := some innerContent
                                error := some msg } }

end expressionProcessor

/-! ## Tokenizer (remarkLiquidPlugin.ts)

The visitor of the remark plugin splits one text node at a time.  The
model below works on the character list of one text span together with
the document-absolute offset recorded for the span by
calculateAbsolutePositions; it produces the replacement node sequence.
Positions are computed by the model of calculatePosition, which derives
line and column from the characters of the current span only; the
document-absolute adjustment of the source touches the offset fields
alone, exactly as lines 142 to 151 and 197 to 206 of the source do. -/

namespace remarkLiquid

/-- Offsets of the line starts of a character list after the first, in
order: one entry just past each newline character. -/
def lineStartsGo : List Char → Nat → List Nat
  | [], _ => []
  | c :: rest, i =>
    (if c = '\n' then [i + 1] else []) ++ lineStartsGo rest (i + 1)

/-- The line-start offsets of a character list, beginning with 0, as the
lines array of calculatePosition. -/
def lineStarts (text : List Char) : List Nat := 0 :: lineStartsGo text 0

/-- The while loops of calculatePosition: starting from line cur, advance
while the next line start is at or before the offset. -/
def lineForGo : List Nat → Nat → Nat → Nat
  | [], cur, _ => cur
  | next :: rest, cur, offset =>
    if next ≤ offset then lineForGo rest (cur + 1) offset else cur

/-- Model of calculatePosition: line and column of the two offsets,
relative to the given character list. -/
def calculatePosition (text : List Char) (startOffset endOffset : Nat) : Position :=
  let lines := lineStarts text
  let startLine := lineForGo (lines.drop 1) 0 startOffset
  let startColumn := startOffset - lines.getD startLine 0
  let endLine := lineForGo (lines.drop (startLine + 1)) startLine endOffset
  let endColumn := endOffset - lines.getD endLine 0
  { start := { line := startLine, column := startColumn, offset := startOffset }
    stop := { line := endLine, column := endColumn, offset := endOffset } }

/-- A plain text replacement node covering characters a to b of the span;
its position is not adjusted to document-absolute offsets, matching the
source. -/
def textNodeOf (text : List Char) (a b : Nat) : LiquidNode :=
  { type := "text"
    value := String.mk (sliceList text a b)
    position := some (calculatePosition text a b) }

/-- Adjust a position to document-absolute offsets: only the offset
fields receive the absolute base; line and column stay span-local. -/
def absAdjust (p : Position) (absOffset : Nat) : Position :=
  { start := { p.start with offset := p.start.offset + absOffset }
    stop := { p.stop with offset := p.stop.offset + absOffset } }

/-- An expression replacement node covering characters a to b of the
span. -/
def exprNodeOf (text : List Char) (absOffset a b : Nat) : LiquidNode :=
  let ap := absAdjust (calculatePosition text a b) absOffset
  { type := "liquidExpression"
    liquidContent := String.mk (sliceList text a b)
    position := some ap
    lineNumber := some ap.start.line
    columnNumber := some ap.start.column }

/-- A tag replacement node covering characters a to b of the span; the
source takes just the opening tag and its content here. -/
def tagNodeOf (text : List Char) (absOffset a b : Nat) : LiquidNode :=
  let ap := absAdjust (calculatePosition text a b) absOffset
  { type := "liquidTag"
    liquidContent := String.mk (sliceList text a b)
    position := some ap
    lineNumber := some ap.start.line
    columnNumber := some ap.start.column }

/-- The choice of the next construct at lines 81 to 86 of the source: the
expression opener wins when present and strictly earlier than any tag
opener; the boolean is true for a tag. -/
def nextConstructChoice (exprPos tagPos : Option Nat) : Option (Nat × Bool) :=
  match exprPos, tagPos with
  | some e, some t => if e < t then some (e, false) else some (t, true)
  | some e, none => some (e, false)
  | none, some t => some (t, true)
  | none, none => none

/-- The scanning loop of the visitor, with explicit fuel; each iteration
advances the cursor, and the top-level entry point supplies enough fuel
for the whole span. -/
def tokenizeLoop (text : List Char) (absOffset : Nat) : Nat → Nat → List LiquidNode
  | _, 0 => []
  | cursor, fuel + 1 =>
    if cursor < text.length then
      let openExpressionPos := findSub [lbrace, lbrace] text cursor
      let openTagPos := findSub [lbrace, '%'] text cursor
      match nextConstructChoice openExpressionPos openTagPos with
      | none => [textNodeOf text cursor text.length]
      | some (firstOpenPos, isTag) =>
        let pre := if firstOpenPos > cursor then [textNodeOf text cursor firstOpenPos] else []
        if isTag = false then
          match findSub [rbrace, rbrace] text (firstOpenPos + 2) with
          | none => pre ++ [textNodeOf text firstOpenPos text.length]
          | some closeExpressionPos =>
            let expressionEndPos := closeExpressionPos + 2
            pre ++ exprNodeOf text absOffset firstOpenPos expressionEndPos ::
              tokenizeLoop text absOffset expressionEndPos fuel
        else
          match findSub ['%', rbrace] text (firstOpenPos + 2) with
          | none => pre ++ [textNodeOf text firstOpenPos text.length]
          | some closeTagInitialPos =>
            let tagEndPos := closeTagInitialPos + 2
            pre ++ tagNodeOf text absOffset firstOpenPos tagEndPos ::
              tokenizeLoop text absOffset tagEndPos fuel
    else []

/-- Tokenize one text span given its document-absolute start offset. -/
def tokenizeText (text : List Char) (absOffset : Nat) : List LiquidNode :=
  tokenizeLoop text absOffset 0 (text.length + 1)

/-- The raw source text carried by a replacement node: the value of a
text node, the liquidContent of a construct node. -/
def rawOf (n : LiquidNode) : List Char :=
  if n.type = "text" then n.value.data else n.liquidContent.data

/-- Concatenation of the raw text of a node sequence, in order. -/
def rawConcat (ns : List LiquidNode) : List Char := (ns.map rawOf).flatten

end remarkLiquid

/-! ## Block associator (blockAssociator.ts)

In-place mutation of the shared node objects is modelled by updating a
list of node records at the index of the mutated node; the member lists
of the blockNodes map and the relatedBlockNodes lists hold such indices.
The open-frame stack stores triples of block type, start index and block
identifier; its head is the most recently pushed frame, and the backward
search of the source over the array corresponds to a head-first search
here.  The identifier minting from the current time and a random suffix
is modelled by a supply function applied to a strictly increasing mint
counter, and the result records the sequence of minted identifiers and
of matched start-end pairs so that theorems can speak about them. -/

namespace blockAssociator

/-- The local block-tag table at the bottom of blockAssociator.ts. -/
def BLOCK_TAGS : List String :=
  ["if", "unless", "for", "case", "capture", "tablerow",
   "raw", "block", "paginate", "schema", "style", "form"]

/-- The local continuation-tag table of blockAssociator.ts. -/
def CONTINUATION_TAGS : List String :=
  ["else", "elsif", "elseif", "when", "empty"]

/-- Local copy of the block-start predicate. -/
def isBlockStartTag (tagName : String) : Bool := BLOCK_TAGS.contains tagName

/-- Local copy of the block-end predicate. -/
def isBlockEndTag (tagName : String) : Bool :=
  strStartsWith tagName "end" && BLOCK_TAGS.contains (strDropChars tagName 3)

/-- Local continuation predicate. -/
def isContinuationTag (tagName : String) : Bool := CONTINUATION_TAGS.contains tagName

/-- The fixed mapping from continuation tags to the block type they
require. -/
def findCompatibleBlockType (tagName : String) : Option String :=
  if tagName = "else" ∨ tagName = "elsif" ∨ tagName = "elseif" then some "if"
  else if tagName = "when" then some "case"
  else if tagName = "empty" then some "for"
  else none

/-- The validity filter at the top of associateBlockTags: a tag node with
nonempty liquid content. -/
def isValidNode (n : LiquidNode) : Bool :=
  n.type == "liquidTag" && n.liquidContent != ""

/-- Reset the association fields of one node, as the reset loop does. -/
def resetNode (n : LiquidNode) : LiquidNode :=
  { n with
      parseError := none
      parseSuccess := none
      blockId := none
      matchingBlockId := none
      relatedBlockNodes := none }

/-- The delimiter stripping used by ensureTagClassification. -/
def stripInner (s : String) : String :=
  String.mk (dropTrailingDelim ['%', rbrace] (dropLeadingDelim [lbrace, '%'] s.data))

/-- Model of one node of ensureTagClassification: create the liquidAST
record when missing, fill in the inner content when absent or empty,
derive the tag name when absent, and set each classification flag only
when the property is not already present. -/
def classifyNode (n : LiquidNode) : LiquidNode :=
  let ast0 := n.liquidAST.getD {}
  let innerContent :=
    match n.liquidInnerContent with
    | some s => if s = "" then stripInner n.liquidContent else s
    | none => stripInner n.liquidContent
  let tagName0 : Option String :=
    if (ast0.tagName.getD "") = "" ∧ innerContent ≠ "" then
      some (tagClassifier.extractTagName innerContent)
    else ast0.tagName
  let tagName := tagName0.getD ""
  let ast1 : LiquidAST :=
    { ast0 with
        tagName := tagName0
        isBlockStart := some (ast0.isBlockStart.getD (isBlockStartTag tagName))
        isBlockEnd := some (ast0.isBlockEnd.getD (isBlockEndTag tagName))
        isContinuation := some (ast0.isContinuation.getD (isContinuationTag tagName)) }
  { n with liquidAST := some ast1, liquidInnerContent := some innerContent }

/-- The start line of a node position, defaulting to 0 as the comparator
of sortNodesByPosition does. -/
def posLine (n : LiquidNode) : Nat := (n.position.map (fun p => p.start.line)).getD 0

/-- The start column of a node position, defaulting to 0. -/
def posColumn (n : LiquidNode) : Nat := (n.position.map (fun p => p.start.column)).getD 0

/-- The start offset of a node position, defaulting to 0. -/
def posOffset (n : LiquidNode) : Nat := (n.position.map (fun p => p.start.offset)).getD 0

/-- The comparator of sortNodesByPosition as a total boolean order: first
by start line, then by start column, then by start offset. -/
def cmpLe (a b : LiquidNode) : Bool :=
  if posLine a ≠ posLine b then decide (posLine a < posLine b)
  else if posColumn a ≠ posColumn b then decide (posColumn a < posColumn b)
  else decide (posOffset a ≤ posOffset b)

/-- The synthetic position that ensurePositionInfo assigns to the node at
position k of the valid-node list when it has none. -/
def syntheticPosition (k : Nat) : Position :=
  { start := { line := k, column := 0, offset := k * 1000 }
    stop := { line := k, column := 10, offset := k * 1000 + 10 } }

/-- The indices of the nodes that pass the validity filter, in input
order. -/
def validIndices (ns : List LiquidNode) : List Nat :=
  (List.range ns.length).filter (fun i => isValidNode (ns.getD i default))

/-- Reset the association data of every valid node. -/
def resetPhase (ns : List LiquidNode) (validIdx : List Nat) : List LiquidNode :=
  validIdx.foldl (fun acc i => acc.set i (resetNode (acc.getD i default))) ns

/-- Model of ensurePositionInfo: assign a synthetic position, derived
from the index within the valid-node list, to each valid node that lacks
one. -/
def ensurePositionList (ns : List LiquidNode) (validIdx : List Nat) : List LiquidNode :=
  validIdx.enum.foldl
    (fun acc kv =>
      if (acc.getD kv.2 default).position = none then
        acc.set kv.2 { acc.getD kv.2 default with position := some (syntheticPosition kv.1) }
      else acc)
    ns

/-- Model of ensureTagClassification over a list of node indices. -/
def classifyPhase (ns : List LiquidNode) (idxs : List Nat) : List LiquidNode :=
  idxs.foldl (fun acc i => acc.set i (classifyNode (acc.getD i default))) ns

/-- Model of sortNodesByPosition on indices: a stable sort by the
comparator, as the ECMAScript specification requires of Array sort; the
stable insertion sort of Mathlib is used so that the definition reduces
by computation. -/
def sortIdx (ns : List LiquidNode) (idxs : List Nat) : List Nat :=
  idxs.insertionSort (fun i j => cmpLe (ns.getD i default) (ns.getD j default) = true)

/-- Lookup in the blockNodes map, modelled as an insertion-ordered
association list. -/
def mapGetKey (m : List (String × List Nat)) (k : String) : Option (List Nat) :=
  (m.find? (fun e => e.1 == k)).map (fun e => e.2)

/-- Key-presence test of the blockNodes map. -/
def mapHasKey (m : List (String × List Nat)) (k : String) : Bool :=
  (mapGetKey m k).isSome

/-- Model of Map.prototype.set: replace the value in place when the key
exists, otherwise append a new entry, preserving insertion order. -/
def mapSetKey : List (String × List Nat) → String → List Nat → List (String × List Nat)
  | [], k, v => [(k, v)]
  | e :: rest, k, v => if e.1 = k then (k, v) :: rest else e :: mapSetKey rest k v

/-- Model of pushing a member index onto the array stored under a key,
guarded by the key-presence test as in the source. -/
def mapPushMember (m : List (String × List Nat)) (k : String) (i : Nat) :
    List (String × List Nat) :=
  match mapGetKey m k with
  | some v => mapSetKey m k (v ++ [i])
  | none => m

/-- Remove and return the most recently pushed frame of the given block
type: the backward search and splice of the block-end case. -/
def popFrame : List (String × Nat × String) → String →
    Option ((String × Nat × String) × List (String × Nat × String))
  | [], _ => none
  | f :: rest, t =>
    if f.1 = t then some (f, rest)
    else
      match popFrame rest t with
      | some (g, rest2) => some (g, f :: rest2)
      | none => none

/-- Find the most recently pushed frame of the given block type without
removing it: the backward search of the continuation case. -/
def findFrame : List (String × Nat × String) → String → Option (String × Nat × String)
  | [], _ => none
  | f :: rest, t => if f.1 = t then some f else findFrame rest t

/-- Error message for an end tag with no open block of its type. -/
def orphanEndMsg (tagName : String) : String :=
  "End tag \x27" ++ tagName ++ "\x27 without a matching start tag"

/-- Error message for a continuation tag with no compatible open block. -/
def orphanContMsg (tagName : String) : String :=
  "Continuation tag \x27" ++ tagName ++ "\x27 without a matching block start"

/-- Error message for a continuation tag missing from the compatibility
table. -/
def unknownContMsg (tagName : String) : String :=
  "Unknown continuation tag type: \x27" ++ tagName ++ "\x27"

/-- Error message for a block start that is never closed. -/
def unclosedMsg (blockType : String) : String :=
  "Unclosed block tag \x27" ++ blockType ++ "\x27"

/-- The mutable state of the association scan: the node list, the
open-frame stack with the newest frame first, the blockNodes map, the
mint counter, and two histories recorded for the theorems, namely the
minted identifiers and the matched start-end pairs. -/
structure AState where
  nodes : List LiquidNode
  blockStack : List (String × Nat × String) := []
  blockNodes : List (String × List Nat) := []
  counter : Nat := 0
  minted : List String := []
  matched : List (Nat × Nat × String) := []

/-- One iteration of the association scan over the node at the given
index: dispatch on the classification flags to the block-start,
block-end and continuation transitions of associateBlockTags. -/
def stepNode (supply : Nat → String) (st : AState) (idx : Nat) : AState :=
  let n := st.nodes.getD idx default
  let tagName := astGetTagName n
  if tagName = "" then st
  else if astFlagStart n then
    let blockId := tagName ++ "-" ++ supply st.counter
    { st with
        nodes := st.nodes.set idx { n with blockId := some blockId, parseSuccess := some true }
        blockStack := (tagName, idx, blockId) :: st.blockStack
        blockNodes := mapSetKey st.blockNodes blockId [idx]
        counter := st.counter + 1
        minted := st.minted ++ [blockId] }
  else if astFlagEnd n then
    let blockType := strDropChars tagName 3
    match popFrame st.blockStack blockType with
    | some (fr, stack2) =>
      { st with
          nodes := st.nodes.set idx
            { n with
                blockId := some fr.2.2
                matchingBlockId := some fr.2.2
                parseSuccess := some true }
          blockStack := stack2
          blockNodes := mapPushMember st.blockNodes fr.2.2 idx
          matched := st.matched ++ [(fr.2.1, idx, fr.2.2)] }
    | none =>
      { st with
          nodes := st.nodes.set idx
            { n with parseError := some (orphanEndMsg tagName), parseSuccess := some false } }
  else if astFlagCont n then
    match findCompatibleBlockType tagName with
    | some compatible =>
      match findFrame st.blockStack compatible with
      | some fr =>
        { st with
            nodes := st.nodes.set idx
              { n with
                  blockId := some fr.2.2
                  matchingBlockId := some fr.2.2
                  parseSuccess := some true }
            blockNodes := mapPushMember st.blockNodes fr.2.2 idx }
      | none =>
        { st with
            nodes := st.nodes.set idx
              { n with parseError := some (orphanContMsg tagName), parseSuccess := some false } }
    | none =>
      { st with
          nodes := st.nodes.set idx
            { n with parseError := some (unknownContMsg tagName), parseSuccess := some false } }
  else st

/-- Mark the start node of every frame left on the stack as an unclosed
block; the source iterates the stack array from its oldest entry. -/
def markUnclosed (ns : List LiquidNode) (stack : List (String × Nat × String)) :
    List LiquidNode :=
  stack.reverse.foldl
    (fun acc fr =>
      acc.set fr.2.1
        { acc.getD fr.2.1 default with
            parseError := some (unclosedMsg fr.1)
            parseSuccess := some false })
    ns

/-- Model of the body of setupBlockRelationships for one member list:
find the start and end members by their flags, collect the continuation
members, and populate the bidirectional relatedBlockNodes lists in the
order of the source mutations. -/
def setupEntry (ns : List LiquidNode) (mems : List Nat) : List LiquidNode :=
  if mems.length ≤ 1 then ns
  else
    match mems.find? (fun i => astFlagStart (ns.getD i default)) with
    | none => ns
    | some s =>
      let endIdx := mems.find? (fun i => astFlagEnd (ns.getD i default))
      let conts := mems.filter
        (fun i => (i != s) && !(endIdx == some i) && astFlagCont (ns.getD i default))
      let ns1 := ns.set s { ns.getD s default with relatedBlockNodes := some [] }
      let ns2 :=
        if conts.length > 0 then
          let withC := ns1.set s
            { ns1.getD s default with
                relatedBlockNodes :=
                  some (((ns1.getD s default).relatedBlockNodes.getD []) ++ conts) }
          conts.foldl
            (fun acc c => acc.set c { acc.getD c default with relatedBlockNodes := some [s] })
            withC
        else ns1
      match endIdx with
      | some e =>
        let withE := ns2.set s
          { ns2.getD s default with
              relatedBlockNodes :=
                some (((ns2.getD s default).relatedBlockNodes.getD []) ++ [e]) }
        withE.set e { withE.getD e default with relatedBlockNodes := some [s] }
      | none => ns2

/-- Model of setupBlockRelationships: process the blockNodes entries in
insertion order. -/
def setupBlockRelationships (ns : List LiquidNode) (bns : List (String × List Nat)) :
    List LiquidNode :=
  bns.foldl (fun acc e => setupEntry acc e.2) ns

/-- The nodes of the pre-scan phases of associateBlockTags: association
data reset and synthetic positions assigned, for every valid node. -/
def abtPositioned (input : List LiquidNode) : List LiquidNode :=
  ensurePositionList (resetPhase input (validIndices input)) (validIndices input)

/-- The processing order of the association scan: the valid indices
sorted by the position comparator. -/
def abtSorted (input : List LiquidNode) : List Nat :=
  sortIdx (abtPositioned input) (validIndices input)

/-- The nodes as the association scan first sees them: reset, positioned
and classified. -/
def abtClassified (input : List LiquidNode) : List LiquidNode :=
  classifyPhase (abtPositioned input) (abtSorted input)

/-- The result of associateBlockTags: the updated node list, the final
mint counter, and the recorded histories. -/
structure AResult where
  nodes : List LiquidNode
  counter : Nat
  minted : List String := []
  matched : List (Nat × Nat × String) := []

/-- Model of associateBlockTags: return the input untouched when no node
passes the validity filter, otherwise run the reset, position, sort and
classification phases, the association scan in sorted order, the
unclosed-block marking, and the relationship setup. -/
def associateBlockTags (supply : Nat → String) (counter0 : Nat)
    (input : List LiquidNode) : AResult :=
  if validIndices input = [] then
    { nodes := input, counter := counter0 }
  else
    let fin := (abtSorted input).foldl (stepNode supply)
      { nodes := abtClassified input, counter := counter0 }
    let ns3 := markUnclosed fin.nodes fin.blockStack
    { nodes := setupBlockRelationships ns3 fin.blockNodes
      counter := fin.counter
      minted := fin.minted
      matched := fin.matched }

end blockAssociator

/-! ## Orchestrator and validation pass (liquidAstProcessor.ts) -/

namespace liquidAstProcessor

/-- Append a member index under a key, creating the entry at the end
when the key is new: the collection pattern of the two maps of
validateBlockAssociations. -/
def mapAppendMember (m : List (String × List Nat)) (k : String) (i : Nat) :
    List (String × List Nat) :=
  match blockAssociator.mapGetKey m k with
  | some v => blockAssociator.mapSetKey m k (v ++ [i])
  | none => m ++ [(k, [i])]

/-- First pass of validateBlockAssociations: collect the block-start and
block-end node indices per block type, keyed by tag name for starts and
by the tag name without its end prefix for ends.  Only tag nodes with a
liquidAST record participate. -/
def vbaMaps (ns : List LiquidNode) : List (String × List Nat) × List (String × List Nat) :=
  (List.range ns.length).foldl
    (fun acc i =>
      let n := ns.getD i default
      if n.type == "liquidTag" && n.liquidAST.isSome then
        if astFlagStart n then
          (mapAppendMember acc.1 (astGetTagName n) i, acc.2)
        else if astFlagEnd n then
          (acc.1, mapAppendMember acc.2 (strDropChars (astGetTagName n) 3) i)
        else acc
      else acc)
    ([], [])

/-- The truthiness of the parseSuccess property, absent meaning false. -/
def psTruthy (n : LiquidNode) : Bool := n.parseSuccess.getD false

/-- The unmatched filter for start nodes: no success, or no truthy block
identifier, or no related node that is a block end. -/
def startUnmatched (ns : List LiquidNode) (i : Nat) : Bool :=
  let n := ns.getD i default
  !psTruthy n || !optStrTruthy n.blockId ||
    !((n.relatedBlockNodes.getD []).any (fun r => astFlagEnd (ns.getD r default)))

/-- The unmatched filter for end nodes: no success, or no truthy matching
block identifier, or no related node that is a block start. -/
def endUnmatched (ns : List LiquidNode) (i : Nat) : Bool :=
  let n := ns.getD i default
  !psTruthy n || !optStrTruthy n.matchingBlockId ||
    !((n.relatedBlockNodes.getD []).any (fun r => astFlagStart (ns.getD r default)))

/-- Mark a node as a failed unclosed block start. -/
def markStartUnclosed (ns : List LiquidNode) (blockType : String) (i : Nat) :
    List LiquidNode :=
  ns.set i
    { ns.getD i default with
        parseError := some (blockAssociator.unclosedMsg blockType)
        parseSuccess := some false }

/-- Mark a node as a failed orphaned block end. -/
def markEndOrphaned (ns : List LiquidNode) (blockType : String) (i : Nat) :
    List LiquidNode :=
  ns.set i
    { ns.getD i default with
        parseError := some (blockAssociator.orphanEndMsg ("end" ++ blockType))
        parseSuccess := some false }

/-- Second pass of validateBlockAssociations for one start-map entry:
compare the start and end counts of the block type and mark the excess
unmatched nodes. -/
def vbaCheckEntry (em : List (String × List Nat)) (ns : List LiquidNode)
    (entry : String × List Nat) : List LiquidNode :=
  let blockType := entry.1
  let startIdxs := entry.2
  let endIdxs := (blockAssociator.mapGetKey em blockType).getD []
  if startIdxs.length ≠ endIdxs.length then
    if startIdxs.length > endIdxs.length then
      let unclosedCount := startIdxs.length - endIdxs.length
      let unmatched := startIdxs.filter (startUnmatched ns)
      (unmatched.take unclosedCount).foldl
        (fun acc i => markStartUnclosed acc blockType i) ns
    else
      let orphanedCount := endIdxs.length - startIdxs.length
      let unmatched := endIdxs.filter (endUnmatched ns)
      (unmatched.take orphanedCount).foldl
        (fun acc i => markEndOrphaned acc blockType i) ns
  else ns

/-- Model of validateBlockAssociations: collect the maps, then walk the
start-map entries in insertion order, threading the node list through
the markings. -/
def validateBlockAssociations (ns : List LiquidNode) : List LiquidNode :=
  let maps := vbaMaps ns
  maps.1.foldl (fun acc e => vbaCheckEntry maps.2 acc e) ns

/-- Model of processLiquidNodes over the liquid nodes of the tree in
visit order: process expression nodes, process tag nodes, and when at
least one tag node exists run the block association and the validation
pass. -/
def processLiquidNodes (oracle : String → Except String Nat) (supply : Nat → String)
    (counter0 : Nat) (ns : List LiquidNode) : List LiquidNode :=
  let step1 := ns.map
    (fun n => if n.type == "liquidExpression" then expressionProcessor.processExpression oracle n else n)
  let step2 := step1.map
    (fun n => if n.type == "liquidTag" then tagProcessor.processTag oracle n else n)
  if step2.any (fun n => n.type == "liquidTag") then
    validateBlockAssociations (blockAssociator.associateBlockTags supply counter0 step2).nodes
  else step2

end liquidAstProcessor

/-! ## Concrete sample inputs used by the theorems below -/

/-- A deterministic stand-in for the engine parse: every input parses. -/
def okOracle : String → Except String Nat := fun _ => Except.ok 0

/-- A deterministic identifier supply standing in for the time-and-random
suffix of the minted block identifiers: the decimal representation of the
mint counter.  Successive counters give distinct suffixes, which models
the collision resistance the source relies on. -/
def natSupply : Nat → String := fun k => toString k

/-- A colliding identifier supply: every minted block identifier gets
the same suffix, modelling a collision of the time-and-random suffixes
the source relies on for uniqueness. -/
def constSupply : Nat → String := fun _ => "X"

/-- The text span with a block tag, intervening text and its matching end
tag, written with escaped braces. -/
def blockSpanText : List Char := "\x7b% if a %\x7dx\x7b% endif %\x7d".data

/-- The node sequence the tokenizer emits for blockSpanText. -/
def blockSpanNodes : List LiquidNode := remarkLiquid.tokenizeText blockSpanText 0

/-- The text span of the nested same-type blocks example. -/
def nestedIfText : List Char :=
  "\x7b% if a %\x7d\x7b% if b %\x7d\x7b% endif %\x7d\x7b% endif %\x7d".data

/-- The tokenized nested-blocks example. -/
def nestedIfNodes : List LiquidNode := remarkLiquid.tokenizeText nestedIfText 0

/-- The full pass over the nested-blocks example. -/
def nestedIfOut : List LiquidNode :=
  liquidAstProcessor.processLiquidNodes okOracle natSupply 0 nestedIfNodes

/-- The association result of the nested-blocks example, on the tag nodes
as the tag processor leaves them. -/
def nestedIfAssoc : blockAssociator.AResult :=
  blockAssociator.associateBlockTags natSupply 0
    (nestedIfNodes.map (tagProcessor.processTag okOracle))

/-- The text span of the mismatched block-type example. -/
def mismatchText : List Char := "\x7b% if a %\x7dx\x7b% endfor %\x7d".data

/-- The tokenized mismatched example. -/
def mismatchNodes : List LiquidNode := remarkLiquid.tokenizeText mismatchText 0

/-- The full pass over the mismatched example. -/
def mismatchOut : List LiquidNode :=
  liquidAstProcessor.processLiquidNodes okOracle natSupply 0 mismatchNodes

/-- The association result of the mismatched example. -/
def mismatchAssoc : blockAssociator.AResult :=
  blockAssociator.associateBlockTags natSupply 0
    (mismatchNodes.map (tagProcessor.processTag okOracle))

/-- Two text spans of one document: the first span holds a newline and
then a block start, the second span holds the matching end.  The second
span starts at document offset 12, just after the 12 characters of the
first span, as calculateAbsolutePositions computes. -/
def crossSpanInput : List LiquidNode :=
  remarkLiquid.tokenizeText "x\n\x7b% if a %\x7d".data 0 ++
    remarkLiquid.tokenizeText "\x7b% endif %\x7d".data 12

/-- The cross-span nodes after tag processing, as the association phase
of the pipeline receives them. -/
def crossSpanProcessed : List LiquidNode :=
  (crossSpanInput.map
    (fun n => if n.type == "liquidExpression" then expressionProcessor.processExpression okOracle n else n)).map
    (fun n => if n.type == "liquidTag" then tagProcessor.processTag okOracle n else n)

/-- The full pass over the cross-span document. -/
def crossSpanOut : List LiquidNode :=
  liquidAstProcessor.processLiquidNodes okOracle natSupply 0 crossSpanInput

/-- The tokenized block-with-continuation example used as a witness for
the matched-pair theorem. -/
def ifElseNodes : List LiquidNode :=
  (remarkLiquid.tokenizeText "\x7b% if a %\x7d\x7b% else %\x7d\x7b% endif %\x7d".data 0).map
    (tagProcessor.processTag okOracle)

/-- The association result of the block-with-continuation example. -/
def ifElseAssoc : blockAssociator.AResult :=
  blockAssociator.associateBlockTags natSupply 0 ifElseNodes

/-- The tokenized minimal block example used by the re-run
counterexample. -/
def ifEndNodes : List LiquidNode :=
  (remarkLiquid.tokenizeText "\x7b% if a %\x7d\x7b% endif %\x7d".data 0).map
    (tagProcessor.processTag okOracle)

/-- First association run over the minimal block example, starting the
mint counter at 0. -/
def ifEndRun1 : blockAssociator.AResult :=
  blockAssociator.associateBlockTags natSupply 0 ifEndNodes

/-- Second association run over the nodes the first run produced; the
mint counter continues from the first run, as the strictly growing clock
behind the minted identifiers does. -/
def ifEndRun2 : blockAssociator.AResult :=
  blockAssociator.associateBlockTags natSupply ifEndRun1.counter ifEndRun1.nodes

/-! ## Invariant of the association scan

The predicates below describe the state of the association scan relative
to the classified node list it started from; they are the induction
vehicle for the matched-pair theorem. -/

/-- The continuation members of a block entry: no start or end flag, and
the continuation flag set, in the classified reference list. -/
def ContsShape (C : List LiquidNode) (conts : List Nat) : Prop :=
  ∀ c ∈ conts, astFlagStart (C.getD c default) = false ∧
    astFlagEnd (C.getD c default) = false ∧ astFlagCont (C.getD c default) = true

/-- A block entry still open: its start node carries the block
identifier, its continuation members are well shaped, and its frame sits
on the stack. -/
def OpenEntry (C : List LiquidNode) (st : blockAssociator.AState) (k : String)
    (s : Nat) (conts : List Nat) : Prop :=
  astFlagStart (C.getD s default) = true ∧
  (st.nodes.getD s default).blockId = some k ∧
  ContsShape C conts ∧
  (s :: conts).Nodup ∧
  (∃ t, (t, s, k) ∈ st.blockStack)

/-- A block entry already closed: start, continuations and end are well
shaped and annotated, the pair is recorded in the matched history, and
no frame for the block remains on the stack. -/
def ClosedEntry (C : List LiquidNode) (st : blockAssociator.AState) (k : String)
    (s : Nat) (conts : List Nat) (e : Nat) : Prop :=
  astFlagStart (C.getD s default) = true ∧
  (st.nodes.getD s default).blockId = some k ∧
  ContsShape C conts ∧
  (s :: conts ++ [e]).Nodup ∧
  astFlagStart (C.getD e default) = false ∧
  astFlagEnd (C.getD e default) = true ∧
  (st.nodes.getD e default).matchingBlockId = some k ∧
  (s, e, k) ∈ st.matched ∧
  (∀ fr ∈ st.blockStack, fr.2.2 ≠ k)

/-- The invariant of the association scan over a classified reference
list: the entry keys match the minted history, every node agrees with
the reference outside the association fields, every entry is an open or
closed block of the right shape, every stack frame has an entry, the
stack identifiers are distinct, every matched pair has a closed entry,
and distinct entries have disjoint members. -/
def ScanInv (C : List LiquidNode) (st : blockAssociator.AState) : Prop :=
  (st.blockNodes.map (fun ent => ent.1) = st.minted) ∧
  (∀ i, blockAssociator.resetNode (st.nodes.getD i default) =
    blockAssociator.resetNode (C.getD i default)) ∧
  (∀ ent ∈ st.blockNodes,
    (∃ s conts, ent.2 = s :: conts ∧ OpenEntry C st ent.1 s conts) ∨
    (∃ s conts e, ent.2 = s :: conts ++ [e] ∧ ClosedEntry C st ent.1 s conts e)) ∧
  (∀ fr ∈ st.blockStack, ∃ v, blockAssociator.mapGetKey st.blockNodes fr.2.2 = some v) ∧
  ((st.blockStack.map (fun fr => fr.2.2)).Nodup) ∧
  (∀ p ∈ st.matched, ∃ conts,
    blockAssociator.mapGetKey st.blockNodes p.2.2 = some (p.1 :: conts ++ [p.2.1]) ∧
    ClosedEntry C st p.2.2 p.1 conts p.2.1) ∧
  (∀ ent1 ∈ st.blockNodes, ∀ ent2 ∈ st.blockNodes, ent1.1 ≠ ent2.1 →
    ∀ m ∈ ent1.2, m ∉ ent2.2)

/-! ## Theorems -/

/-- C1, counterexample.  On a span holding a terminated block tag whose
matching end tag follows, the tokenizer does not emit one tag node whose
raw content spans the whole block: it emits the opening tag node, a text
node and the end tag node, and no emitted node carries the whole block
text. -/
theorem tokenizer_no_block_scan_counterexample :
    (blockSpanNodes.map remarkLiquid.rawOf) =
      ["\x7b% if a %\x7d".data, "x".data, "\x7b% endif %\x7d".data] ∧
    (blockSpanNodes.map (fun n => n.type)) = ["liquidTag", "text", "liquidTag"] ∧
    ¬ ∃ n ∈ blockSpanNodes, remarkLiquid.rawOf n = blockSpanText := by
  decide

/-- C4.  For the tag sequence of the nested same-type blocks example,
the associator pairs each end tag with the most recently opened if: the
first end joins the inner block and the second end joins the outer
block, the two minted block identifiers are distinct, and all four nodes
finish the full pass successfully with no error. -/
theorem associator_nested_same_type_innermost :
    nestedIfAssoc.matched = [(1, 2, "if-1"), (0, 3, "if-0")] ∧
    (nestedIfOut.getD 0 default).blockId = some "if-0" ∧
    (nestedIfOut.getD 1 default).blockId = some "if-1" ∧
    (nestedIfOut.getD 2 default).matchingBlockId = some "if-1" ∧
    (nestedIfOut.getD 3 default).matchingBlockId = some "if-0" ∧
    ("if-0" : String) ≠ "if-1" ∧
    nestedIfOut.all (fun n => n.parseSuccess == some true && n.parseError == none) = true := by
  decide

/-- C5.  For the mismatched block-type example, after the full pass the
end tag carries the orphaned-end message and a failed outcome, the start
tag carries the unclosed-block message and a failed outcome, and the
association run records no matched pair, so no frame was consumed by the
mismatched end tag. -/
theorem associator_mismatched_types_errors :
    (mismatchOut.getD 2 default).parseError =
      some "End tag \x27endfor\x27 without a matching start tag" ∧
    (mismatchOut.getD 2 default).parseSuccess = some false ∧
    (mismatchOut.getD 0 default).parseError = some "Unclosed block tag \x27if\x27" ∧
    (mismatchOut.getD 0 default).parseSuccess = some false ∧
    mismatchAssoc.matched = [] := by
  decide

/-- C6, demonstration of the divergence.  In the cross-span document the
start tag sits at document-absolute offset 2 and its end tag at offset
12, yet the associator sorts the end tag first, because the comparator
ranks the span-local line and column fields before the absolute offset;
the scan therefore runs against document order and wrongly marks the end
tag orphaned and the start tag unclosed. -/
theorem associator_cross_span_order_bug :
    blockAssociator.posOffset (crossSpanProcessed.getD 1 default) = 2 ∧
    blockAssociator.posOffset (crossSpanProcessed.getD 2 default) = 12 ∧
    blockAssociator.abtSorted crossSpanProcessed = [2, 1] ∧
    (crossSpanOut.getD 1 default).parseError = some "Unclosed block tag \x27if\x27" ∧
    (crossSpanOut.getD 2 default).parseError =
      some "End tag \x27endif\x27 without a matching start tag" := by
  decide

/-- C7, counterexample.  The tag name endcase satisfies both the
block-end predicate and the continuation predicate, in the classifier
tables and in the processor tables alike, and a tag node built from it
has the isBlockEnd and isContinuation flags set simultaneously. -/
theorem classifier_endcase_both_flags_counterexample :
    tagProcessor.isBlockEndTag "endcase" = true ∧
    tagProcessor.isContinuationTag "endcase" = true ∧
    tagClassifier.isBlockEndTag "endcase" = true ∧
    tagClassifier.isContinuationTag "endcase" = true ∧
    astFlagEnd (tagProcessor.processTag okOracle
      { type := "liquidTag", liquidContent := "\x7b% endcase %\x7d" }) = true ∧
    astFlagCont (tagProcessor.processTag okOracle
      { type := "liquidTag", liquidContent := "\x7b% endcase %\x7d" }) = true := by
  decide

/-- Helper: a name in the processor block-tag table is not a block end. -/
theorem tagProcessor_block_not_end (t : String) (h : t ∈ tagProcessor.BLOCK_TAGS) :
    tagProcessor.isBlockEndTag t = false := by
  fin_cases h <;> decide

/-- Helper: a name in the processor block-tag table is not a
continuation. -/
theorem tagProcessor_block_not_cont (t : String) (h : t ∈ tagProcessor.BLOCK_TAGS) :
    tagProcessor.isContinuationTag t = false := by
  fin_cases h <;> decide

/-- Helper: a name in the classifier block-tag table is not a block
end. -/
theorem tagClassifier_block_not_end (t : String) (h : t ∈ tagClassifier.BLOCK_TAGS) :
    tagClassifier.isBlockEndTag t = false := by
  fin_cases h <;> decide

/-- Helper: a name in the classifier block-tag table is not a
continuation. -/
theorem tagClassifier_block_not_cont (t : String) (h : t ∈ tagClassifier.BLOCK_TAGS) :
    tagClassifier.isContinuationTag t = false := by
  fin_cases h <;> decide

/-- C7, amended.  The block-start predicate excludes the block-end and
continuation predicates, in the processor tables and in the classifier
tables alike; the block-end and continuation predicates, however, are
exclusive only outside the four names endcase, endform, endpaginate and
endblock, which satisfy both. -/
theorem classifier_flags_near_exclusive (tagName : String) :
    (tagProcessor.isBlockStartTag tagName && tagProcessor.isBlockEndTag tagName) = false ∧
    (tagProcessor.isBlockStartTag tagName && tagProcessor.isContinuationTag tagName) = false ∧
    (tagProcessor.isBlockEndTag tagName && tagProcessor.isContinuationTag tagName &&
      !(["endcase", "endform", "endpaginate", "endblock"].contains tagName)) = false ∧
    (tagClassifier.isBlockStartTag tagName && tagClassifier.isBlockEndTag tagName) = false ∧
    (tagClassifier.isBlockStartTag tagName && tagClassifier.isContinuationTag tagName) = false ∧
    (tagClassifier.isBlockEndTag tagName && tagClassifier.isContinuationTag tagName &&
      !(["endcase", "endform", "endpaginate", "endblock"].contains tagName)) = false := by
  refine ⟨?_, ?_, ?_, ?_, ?_, ?_⟩
  · cases hs : tagProcessor.isBlockStartTag tagName with
    | false => simp
    | true =>
      have hm : tagName ∈ tagProcessor.BLOCK_TAGS := by
        unfold tagProcessor.isBlockStartTag at hs
        simpa using hs
      simp [tagProcessor_block_not_end tagName hm]
  · cases hs : tagProcessor.isBlockStartTag tagName with
    | false => simp
    | true =>
      have hm : tagName ∈ tagProcessor.BLOCK_TAGS := by
        unfold tagProcessor.isBlockStartTag at hs
        simpa using hs
      simp [tagProcessor_block_not_cont tagName hm]
  · cases hc : tagProcessor.isContinuationTag tagName with
    | false => simp [hc]
    | true =>
      have hm : tagName ∈ tagProcessor.CONTINUATION_TAGS := by
        unfold tagProcessor.isContinuationTag at hc
        simpa using hc
      fin_cases hm <;> simp_all <;> decide
  · cases hs : tagClassifier.isBlockStartTag tagName with
    | false => simp
    | true =>
      have hm : tagName ∈ tagClassifier.BLOCK_TAGS := by
        unfold tagClassifier.isBlockStartTag at hs
        simpa using hs
      simp [tagClassifier_block_not_end tagName hm]
  · cases hs : tagClassifier.isBlockStartTag tagName with
    | false => simp
    | true =>
      have hm : tagName ∈ tagClassifier.BLOCK_TAGS := by
        unfold tagClassifier.isBlockStartTag at hs
        simpa using hs
      simp [tagClassifier_block_not_cont tagName hm]
  · cases hc : tagClassifier.isContinuationTag tagName with
    | false => simp [hc]
    | true =>
      have hm : tagName ∈ tagClassifier.CONTINUATION_TAGS := by
        unfold tagClassifier.isContinuationTag at hc
        simpa using hc
      fin_cases hm <;> simp_all <;> decide

/-- C9, counterexample.  Re-running the associator on an
already-associated node list mints fresh block identifiers, because the
identifier supply has moved on, so the block identifier and the matching
block identifier of the second run differ from those of the first run
even though the association structure is the same. -/
theorem associator_rerun_fresh_ids_counterexample :
    (ifEndRun1.nodes.getD 0 default).blockId = some "if-0" ∧
    (ifEndRun2.nodes.getD 0 default).blockId = some "if-1" ∧
    (ifEndRun2.nodes.getD 0 default).blockId ≠ (ifEndRun1.nodes.getD 0 default).blockId ∧
    (ifEndRun2.nodes.getD 1 default).matchingBlockId ≠
      (ifEndRun1.nodes.getD 1 default).matchingBlockId := by
  decide

/-- Helper: a position found by the scan worker is at or after the
starting index. -/
theorem findSubGo_ge (pat : List Char) :
    ∀ (rem : List Char) (i j : Nat), findSubGo pat rem i = some j → i ≤ j := by
  intro rem
  induction rem with
  | nil => intro i j h; simp [findSubGo] at h
  | cons c rest ih =>
    intro i j h
    by_cases hpre : pat.isPrefixOf (c :: rest) = true
    · simp only [findSubGo, hpre, if_true] at h
      cases h; omega
    · simp only [findSubGo, hpre, if_false, Bool.false_eq_true] at h
      have := ih (i + 1) j h
      omega

/-- Helper: the scan worker finds a genuine occurrence of the pattern. -/
theorem findSubGo_prefix (pat : List Char) :
    ∀ (rem : List Char) (i j : Nat), findSubGo pat rem i = some j →
      pat.isPrefixOf (rem.drop (j - i)) = true := by
  intro rem
  induction rem with
  | nil => intro i j h; simp [findSubGo] at h
  | cons c rest ih =>
    intro i j h
    by_cases hpre : pat.isPrefixOf (c :: rest) = true
    · simp only [findSubGo, hpre, if_true] at h
      cases h
      simpa using hpre
    · simp only [findSubGo, hpre, if_false, Bool.false_eq_true] at h
      have hge2 := findSubGo_ge pat rest (i + 1) j h
      have hrec := ih (i + 1) j h
      have hidx : j - i = (j - (i + 1)) + 1 := by omega
      rw [hidx]
      simpa using hrec

/-- Helper: the scan worker finds the first occurrence: every earlier
position at or after the start is not an occurrence. -/
theorem findSubGo_min (pat : List Char) :
    ∀ (rem : List Char) (i j : Nat), findSubGo pat rem i = some j →
      ∀ k, i ≤ k → k < j → pat.isPrefixOf (rem.drop (k - i)) = false := by
  intro rem
  induction rem with
  | nil => intro i j h; simp [findSubGo] at h
  | cons c rest ih =>
    intro i j h k hik hkj
    by_cases hpre : pat.isPrefixOf (c :: rest) = true
    · simp only [findSubGo, hpre, if_true] at h
      cases h; omega
    · simp only [findSubGo, hpre, if_false, Bool.false_eq_true] at h
      rcases eq_or_lt_of_le hik with heq | hlt
      · subst heq
        simp only [Nat.sub_self, List.drop_zero]
        simp only [Bool.not_eq_true] at hpre
        exact hpre
      · have hrec := ih (i + 1) j h k hlt hkj
        have hidx : k - i = (k - (i + 1)) + 1 := by omega
        rw [hidx]
        simpa using hrec

/-- Helper: when the scan worker fails, no position at or after the
start is an occurrence of the nonempty pattern. -/
theorem findSubGo_none (pat : List Char) (hp : pat ≠ []) :
    ∀ (rem : List Char) (i : Nat), findSubGo pat rem i = none →
      ∀ k, i ≤ k → pat.isPrefixOf (rem.drop (k - i)) = false := by
  intro rem
  induction rem with
  | nil =>
    intro i h k hik
    match pat, hp with
    | p :: ps, _ => simp [List.isPrefixOf]
  | cons c rest ih =>
    intro i h k hik
    by_cases hpre : pat.isPrefixOf (c :: rest) = true
    · simp only [findSubGo, hpre, if_true] at h
      cases h
    · simp only [findSubGo, hpre, if_false, Bool.false_eq_true] at h
      rcases eq_or_lt_of_le hik with heq | hlt
      · subst heq
        simp only [Nat.sub_self, List.drop_zero]
        simp only [Bool.not_eq_true] at hpre
        exact hpre
      · have hrec := ih (i + 1) h k hlt
        have hidx : k - i = (k - (i + 1)) + 1 := by omega
        rw [hidx]
        simpa using hrec

/-- Helper: the scan worker succeeds at the first occurrence. -/
theorem findSubGo_intro (pat : List Char) (hp : pat ≠ []) :
    ∀ (rem : List Char) (i j : Nat), i ≤ j →
      pat.isPrefixOf (rem.drop (j - i)) = true →
      (∀ k, i ≤ k → k < j → pat.isPrefixOf (rem.drop (k - i)) = false) →
      findSubGo pat rem i = some j := by
  intro rem
  induction rem with
  | nil =>
    intro i j hij hpre hmin
    match pat, hp with
    | p :: ps, _ => simp at hpre
  | cons c rest ih =>
    intro i j hij hpre hmin
    rw [findSubGo]
    rcases eq_or_lt_of_le hij with heq | hlt
    · subst heq
      simp only [Nat.sub_self, List.drop_zero] at hpre
      simp [hpre]
    · have hnot := hmin i (le_refl i) hlt
      simp only [Nat.sub_self, List.drop_zero] at hnot
      rw [if_neg (by simp [hnot])]
      apply ih (i + 1) j (by omega)
      · have hidx : j - i = (j - (i + 1)) + 1 := by omega
        rw [hidx] at hpre
        simpa using hpre
      · intro k hk1 hk2
        have := hmin k (by omega) hk2
        have hidx : k - i = (k - (i + 1)) + 1 := by omega
        rw [hidx] at this
        simpa using this

/-- A position returned by findSub is at or after the start. -/
theorem findSub_ge (pat l : List Char) (s j : Nat) (h : findSub pat l s = some j) :
    s ≤ j :=
  findSubGo_ge pat (l.drop s) s j h

/-- A position returned by findSub carries an occurrence of the
pattern. -/
theorem findSub_prefix (pat l : List Char) (s j : Nat) (h : findSub pat l s = some j) :
    pat.isPrefixOf (l.drop j) = true := by
  have hge := findSub_ge pat l s j h
  have := findSubGo_prefix pat (l.drop s) s j h
  rwa [List.drop_drop, Nat.add_comm, Nat.sub_add_cancel hge] at this

/-- A position returned by findSub is the first occurrence at or after
the start. -/
theorem findSub_min (pat l : List Char) (s j : Nat) (h : findSub pat l s = some j)
    (k : Nat) (hk1 : s ≤ k) (hk2 : k < j) : pat.isPrefixOf (l.drop k) = false := by
  have := findSubGo_min pat (l.drop s) s j h k hk1 hk2
  rwa [List.drop_drop, Nat.add_comm, Nat.sub_add_cancel hk1] at this

/-- When findSub fails there is no occurrence of the nonempty pattern at
or after the start. -/
theorem findSub_none (pat l : List Char) (hp : pat ≠ []) (s : Nat)
    (h : findSub pat l s = none) (k : Nat) (hk : s ≤ k) :
    pat.isPrefixOf (l.drop k) = false := by
  have := findSubGo_none pat hp (l.drop s) s h k hk
  rwa [List.drop_drop, Nat.add_comm, Nat.sub_add_cancel hk] at this

/-- findSub succeeds at the first occurrence at or after the start. -/
theorem findSub_intro (pat l : List Char) (hp : pat ≠ []) (s j : Nat) (hsj : s ≤ j)
    (hpre : pat.isPrefixOf (l.drop j) = true)
    (hmin : ∀ k, s ≤ k → k < j → pat.isPrefixOf (l.drop k) = false) :
    findSub pat l s = some j := by
  apply findSubGo_intro pat hp (l.drop s) s j hsj
  · rw [List.drop_drop, Nat.add_comm, Nat.sub_add_cancel hsj]
    exact hpre
  · intro k hk1 hk2
    rw [List.drop_drop, Nat.add_comm, Nat.sub_add_cancel hk1]
    exact hmin k hk1 hk2

/-- A successful occurrence of a nonempty pattern fits inside the
text. -/
theorem findSub_le_length (pat l : List Char) (s j : Nat)
    (h : findSub pat l s = some j) (hp : pat ≠ []) : j + pat.length ≤ l.length := by
  have hpre := findSub_prefix pat l s j h
  rw [List.isPrefixOf_iff_prefix] at hpre
  have hlen := hpre.length_le
  rw [List.length_drop] at hlen
  have hpat : 1 ≤ pat.length := by
    cases pat with
    | nil => simp at hp
    | cons a as => simp
  omega

/-- A slice followed by the rest of the list is a tail of the list. -/
theorem slice_append_drop (l : List Char) (a b : Nat) (hab : a ≤ b) :
    sliceList l a b ++ l.drop b = l.drop a := by
  by_cases hl : a ≤ l.length
  · conv_rhs => rw [← List.take_append_drop b l]
    rw [List.drop_append_eq_append_drop]
    have hlen : (List.take b l).length = min b l.length := List.length_take b l
    have hmin : a ≤ min b l.length := le_min hab hl
    have hz : a - (List.take b l).length = 0 := by rw [hlen]; omega
    rw [hz]
    simp [sliceList]
  · have hlen : (List.take b l).length ≤ l.length := by
      rw [List.length_take]
      exact Nat.min_le_right _ _
    have h1 : sliceList l a b = [] := List.drop_eq_nil_of_le (by omega)
    have h2 : l.drop b = [] := List.drop_eq_nil_of_le (by omega)
    have h3 : l.drop a = [] := List.drop_eq_nil_of_le (by omega)
    simp [sliceList] at h1
    simp [sliceList, h1, h2, h3]

/-- Adjacent slices concatenate. -/
theorem slice_split (l : List Char) (a b c : Nat) (h1 : a ≤ b) (h2 : b ≤ c) :
    sliceList l a b ++ sliceList l b c = sliceList l a c := by
  have hkey := slice_append_drop (l.take c) a b h1
  have e1 : sliceList (l.take c) a b = sliceList l a b := by
    unfold sliceList
    rw [List.take_take, Nat.min_eq_left h2]
  have e2 : (l.take c).drop b = sliceList l b c := rfl
  have e3 : (l.take c).drop a = sliceList l a c := rfl
  rw [e1, e2, e3] at hkey
  exact hkey

/-- The slice to the end of the list is a tail. -/
theorem slice_to_end (l : List Char) (a : Nat) : sliceList l a l.length = l.drop a := by
  unfold sliceList
  rw [List.take_length]

/-- rawConcat distributes over cons. -/
theorem rawConcat_cons (n : LiquidNode) (ns : List LiquidNode) :
    remarkLiquid.rawConcat (n :: ns) = remarkLiquid.rawOf n ++ remarkLiquid.rawConcat ns := by
  simp [remarkLiquid.rawConcat]

/-- rawConcat distributes over append. -/
theorem rawConcat_append (xs ys : List LiquidNode) :
    remarkLiquid.rawConcat (xs ++ ys) = remarkLiquid.rawConcat xs ++ remarkLiquid.rawConcat ys := by
  simp [remarkLiquid.rawConcat]

/-- The raw text of a text replacement node is its slice. -/
theorem rawOf_textNodeOf (text : List Char) (a b : Nat) :
    remarkLiquid.rawOf (remarkLiquid.textNodeOf text a b) = sliceList text a b := by
  simp [remarkLiquid.rawOf, remarkLiquid.textNodeOf]

/-- The raw text of an expression replacement node is its slice. -/
theorem rawOf_exprNodeOf (text : List Char) (absOffset a b : Nat) :
    remarkLiquid.rawOf (remarkLiquid.exprNodeOf text absOffset a b) = sliceList text a b := by
  simp [remarkLiquid.rawOf, remarkLiquid.exprNodeOf]

/-- The raw text of a tag replacement node is its slice. -/
theorem rawOf_tagNodeOf (text : List Char) (absOffset a b : Nat) :
    remarkLiquid.rawOf (remarkLiquid.tagNodeOf text absOffset a b) = sliceList text a b := by
  simp [remarkLiquid.rawOf, remarkLiquid.tagNodeOf]

/-- The raw text of the optional leading text node of one iteration. -/
theorem rawConcat_pre (text : List Char) (cursor p : Nat) (hcp : cursor ≤ p) :
    remarkLiquid.rawConcat
      (if p > cursor then [remarkLiquid.textNodeOf text cursor p] else []) =
      sliceList text cursor p := by
  by_cases hgt : p > cursor
  · simp [hgt, remarkLiquid.rawConcat, rawOf_textNodeOf]
  · have heq : p = cursor := by omega
    subst heq
    have hz : sliceList text p p = [] := by
      apply List.drop_eq_nil_of_le
      rw [List.length_take]
      exact Nat.min_le_left _ _
    simp [hgt, remarkLiquid.rawConcat, hz]

/-- An expression choice comes from the expression search. -/
theorem nextConstructChoice_false (e t : Option Nat) (p : Nat)
    (h : remarkLiquid.nextConstructChoice e t = some (p, false)) : e = some p := by
  cases e with
  | some ev =>
    cases t with
    | some tv =>
      by_cases hlt : ev < tv
      · simp [remarkLiquid.nextConstructChoice, hlt] at h
        simp [h]
      · simp [remarkLiquid.nextConstructChoice, hlt] at h
    | none =>
      simp [remarkLiquid.nextConstructChoice] at h
      simp [h]
  | none =>
    cases t with
    | some tv => simp [remarkLiquid.nextConstructChoice] at h
    | none => simp [remarkLiquid.nextConstructChoice] at h

/-- A tag choice comes from the tag search. -/
theorem nextConstructChoice_true (e t : Option Nat) (p : Nat)
    (h : remarkLiquid.nextConstructChoice e t = some (p, true)) : t = some p := by
  cases e with
  | some ev =>
    cases t with
    | some tv =>
      by_cases hlt : ev < tv
      · simp [remarkLiquid.nextConstructChoice, hlt] at h
      · simp [remarkLiquid.nextConstructChoice, hlt] at h
        simp [h]
    | none => simp [remarkLiquid.nextConstructChoice] at h
  | none =>
    cases t with
    | some tv =>
      simp [remarkLiquid.nextConstructChoice] at h
      simp [h]
    | none => simp [remarkLiquid.nextConstructChoice] at h

/-- The scanning loop loses no text: the concatenated raw text of the
nodes it emits from any cursor is the remaining text, provided the fuel
covers the remaining length. -/
theorem rawConcat_tokenizeLoop (text : List Char) (absOffset : Nat) :
    ∀ (fuel cursor : Nat), text.length - cursor ≤ fuel →
      remarkLiquid.rawConcat (remarkLiquid.tokenizeLoop text absOffset cursor fuel) =
        text.drop cursor := by
  intro fuel
  induction fuel with
  | zero =>
    intro cursor h
    rw [remarkLiquid.tokenizeLoop]
    simp [remarkLiquid.rawConcat, List.drop_eq_nil_of_le (by omega : text.length ≤ cursor)]
  | succ fuel ih =>
    intro cursor h
    simp only [remarkLiquid.tokenizeLoop]
    by_cases hc : cursor < text.length
    · rw [if_pos hc]
      cases hch : remarkLiquid.nextConstructChoice
          (findSub [lbrace, lbrace] text cursor) (findSub [lbrace, '%'] text cursor) with
      | none =>
        simp only [hch]
        rw [rawConcat_cons, rawOf_textNodeOf, slice_to_end]
        simp [remarkLiquid.rawConcat]
      | some pb =>
        rcases pb with ⟨p, b⟩
        simp only [hch]
        cases b with
        | false =>
          rw [if_pos rfl]
          have hfind := nextConstructChoice_false _ _ p hch
          have hp : cursor ≤ p := findSub_ge _ _ _ _ hfind
          cases hclose : findSub [rbrace, rbrace] text (p + 2) with
          | none =>
            simp only [hclose]
            rw [rawConcat_append, rawConcat_pre text cursor p hp,
              rawConcat_cons, rawOf_textNodeOf, slice_to_end]
            simp only [remarkLiquid.rawConcat, List.map_nil, List.flatten_nil, List.append_nil]
            exact slice_append_drop text cursor p hp
          | some close =>
            simp only [hclose]
            have hcl : p + 2 ≤ close := findSub_ge _ _ _ _ hclose
            rw [rawConcat_append, rawConcat_pre text cursor p hp, rawConcat_cons,
              rawOf_exprNodeOf]
            rw [ih (close + 2) (by omega)]
            rw [slice_append_drop text p (close + 2) (by omega),
              slice_append_drop text cursor p hp]
        | true =>
          rw [if_neg (by decide : ¬((true : Bool) = false))]
          have hfind := nextConstructChoice_true _ _ p hch
          have hp : cursor ≤ p := findSub_ge _ _ _ _ hfind
          cases hclose : findSub ['%', rbrace] text (p + 2) with
          | none =>
            simp only [hclose]
            rw [rawConcat_append, rawConcat_pre text cursor p hp,
              rawConcat_cons, rawOf_textNodeOf, slice_to_end]
            simp only [remarkLiquid.rawConcat, List.map_nil, List.flatten_nil, List.append_nil]
            exact slice_append_drop text cursor p hp
          | some close =>
            simp only [hclose]
            have hcl : p + 2 ≤ close := findSub_ge _ _ _ _ hclose
            rw [rawConcat_append, rawConcat_pre text cursor p hp, rawConcat_cons,
              rawOf_tagNodeOf]
            rw [ih (close + 2) (by omega)]
            rw [slice_append_drop text p (close + 2) (by omega),
              slice_append_drop text cursor p hp]
    · rw [if_neg hc]
      simp [remarkLiquid.rawConcat, List.drop_eq_nil_of_le (by omega : text.length ≤ cursor)]


/-- C2.  For every text span and document-absolute offset, concatenating
in order the text value of each emitted text node and the raw liquid
content of each emitted expression or tag node reproduces the original
span exactly; unterminated constructs are covered because they degrade
to text nodes carrying the remaining characters. -/
theorem tokenizer_round_trip (text : List Char) (absOffset : Nat) :
    remarkLiquid.rawConcat (remarkLiquid.tokenizeText text absOffset) = text := by
  unfold remarkLiquid.tokenizeText
  rw [rawConcat_tokenizeLoop text absOffset (text.length + 1) 0 (by omega)]
  simp

/-- Dropping from a slice moves the start of the slice. -/
theorem sliceList_drop (l : List Char) (a b k : Nat) :
    (sliceList l a b).drop k = sliceList l (a + k) b := by
  unfold sliceList
  rw [List.drop_drop]

/-- The length of a slice whose bound fits the list. -/
theorem sliceList_length (l : List Char) (a b : Nat) (hb : b ≤ l.length) :
    (sliceList l a b).length = b - a := by
  unfold sliceList
  rw [List.length_drop, List.length_take, Nat.min_eq_left hb]

/-- A prefix match inside a slice is a prefix match in the list. -/
theorem isPrefixOf_of_slice (pat l : List Char) (c b : Nat)
    (h : pat.isPrefixOf (sliceList l c b) = true) :
    pat.isPrefixOf (l.drop c) = true := by
  rw [List.isPrefixOf_iff_prefix] at h ⊢
  apply h.trans
  have htake : l.take b <+: l := List.take_prefix b l
  obtain ⟨w, hw⟩ := htake
  unfold sliceList
  refine ⟨w.drop (c - (l.take b).length), ?_⟩
  rw [← List.drop_append_eq_append_drop, hw]

/-- A prefix match in the list transfers into a slice with enough
room. -/
theorem isPrefixOf_into_slice (pat l : List Char) (c b : Nat)
    (h : pat.isPrefixOf (l.drop c) = true) (hroom : c + pat.length ≤ b) :
    pat.isPrefixOf (sliceList l c b) = true := by
  rw [List.isPrefixOf_iff_prefix] at h ⊢
  unfold sliceList
  rw [List.drop_take]
  exact List.prefix_take_iff.mpr ⟨h, by omega⟩

/-- The raw content of an emitted tag node closes at its own first
closing delimiter: inside the slice from the opening position through
the first close found in the text, the first occurrence of the closing
delimiter at or after index 2 sits exactly two characters before the
end. -/
theorem tagSlice_first_close (text : List Char) (p close : Nat)
    (hclose : findSub ['%', rbrace] text (p + 2) = some close) :
    findSub ['%', rbrace] (sliceList text p (close + 2)) 2 = some (close - p) := by
  have hge : p + 2 ≤ close := findSub_ge _ _ _ _ hclose
  apply findSub_intro _ _ (by decide) 2 (close - p) (by omega)
  · rw [sliceList_drop]
    have hpe : p + (close - p) = close := by omega
    rw [hpe]
    apply isPrefixOf_into_slice
    · exact findSub_prefix _ _ _ _ hclose
    · simp
  · intro k hk2 hkc
    rw [sliceList_drop]
    cases hcontra : List.isPrefixOf ['%', rbrace] (sliceList text (p + k) (close + 2)) with
    | false => rfl
    | true =>
      have := isPrefixOf_of_slice _ text (p + k) (close + 2) hcontra
      have hmin := findSub_min _ text (p + 2) close hclose (p + k) (by omega) (by omega)
      rw [hmin] at this
      cases this

/-- Worker statement for the amended tokenizer claim, by induction over
the scanning loop. -/
theorem tokenizeLoop_tag_first_close (text : List Char) (absOffset : Nat) :
    ∀ (fuel cursor : Nat) (n : LiquidNode),
      n ∈ remarkLiquid.tokenizeLoop text absOffset cursor fuel →
      n.type = "liquidTag" →
      4 ≤ n.liquidContent.data.length ∧
      findSub ['%', rbrace] n.liquidContent.data 2 =
        some (n.liquidContent.data.length - 2) := by
  intro fuel
  induction fuel with
  | zero =>
    intro cursor n hn ht
    simp [remarkLiquid.tokenizeLoop] at hn
  | succ fuel ih =>
    intro cursor n hn ht
    simp only [remarkLiquid.tokenizeLoop] at hn
    by_cases hc : cursor < text.length
    · rw [if_pos hc] at hn
      cases hch : remarkLiquid.nextConstructChoice
          (findSub [lbrace, lbrace] text cursor) (findSub [lbrace, '%'] text cursor) with
      | none =>
        simp only [hch] at hn
        simp at hn
        rw [hn] at ht
        simp [remarkLiquid.textNodeOf] at ht
      | some pb =>
        rcases pb with ⟨p, b⟩
        cases b with
        | false =>
          cases hclose : findSub [rbrace, rbrace] text (p + 2) with
          | none =>
            simp only [hch, hclose] at hn
            rcases List.mem_append.mp hn with hpre | hrest
            · by_cases hgt : p > cursor
              · simp [hgt] at hpre
                rw [hpre] at ht
                simp [remarkLiquid.textNodeOf] at ht
              · simp [hgt] at hpre
            · simp at hrest
              rw [hrest] at ht
              simp [remarkLiquid.textNodeOf] at ht
          | some close =>
            simp only [hch, hclose] at hn
            rcases List.mem_append.mp hn with hpre | hrest
            · by_cases hgt : p > cursor
              · simp [hgt] at hpre
                rw [hpre] at ht
                simp [remarkLiquid.textNodeOf] at ht
              · simp [hgt] at hpre
            · rcases List.mem_cons.mp hrest with hhd | htl
              · rw [hhd] at ht
                simp [remarkLiquid.exprNodeOf] at ht
              · exact ih (close + 2) n htl ht
        | true =>
          cases hclose : findSub ['%', rbrace] text (p + 2) with
          | none =>
            simp only [hch, hclose] at hn
            rcases List.mem_append.mp hn with hpre | hrest
            · by_cases hgt : p > cursor
              · simp [hgt] at hpre
                rw [hpre] at ht
                simp [remarkLiquid.textNodeOf] at ht
              · simp [hgt] at hpre
            · simp at hrest
              rw [hrest] at ht
              simp [remarkLiquid.textNodeOf] at ht
          | some close =>
            simp only [hch, hclose] at hn
            rcases List.mem_append.mp hn with hpre | hrest
            · by_cases hgt : p > cursor
              · simp [hgt] at hpre
                rw [hpre] at ht
                simp [remarkLiquid.textNodeOf] at ht
              · simp [hgt] at hpre
            · rcases List.mem_cons.mp hrest with hhd | htl
              · subst hhd
                have hge : p + 2 ≤ close := findSub_ge _ _ _ _ hclose
                have hfit : close + 2 ≤ text.length :=
                  findSub_le_length _ _ _ _ hclose (by decide)
                have hdata : (remarkLiquid.tagNodeOf text absOffset p (close + 2)).liquidContent.data =
                    sliceList text p (close + 2) := rfl
                have hlen : (sliceList text p (close + 2)).length = close + 2 - p :=
                  sliceList_length text p (close + 2) hfit
                constructor
                · rw [hdata, hlen]; omega
                · rw [hdata, hlen]
                  have := tagSlice_first_close text p close hclose
                  have harith : close + 2 - p - 2 = close - p := by omega
                  rw [harith]
                  exact this
              · exact ih (close + 2) n htl ht
    · rw [if_neg hc] at hn
      simp at hn

/-- C1, amended.  Every tag node the tokenizer emits has a raw content
of at least four characters whose first closing tag delimiter at or
after index 2 sits exactly at its end: the tokenizer always stops a tag
node at the first closing delimiter after the opening, so it never emits
a node spanning a whole block, whatever the tag name. -/
theorem tokenizer_tag_stops_at_first_close (text : List Char) (absOffset : Nat)
    (n : LiquidNode) (hn : n ∈ remarkLiquid.tokenizeText text absOffset)
    (ht : n.type = "liquidTag") :
    4 ≤ n.liquidContent.data.length ∧
    findSub ['%', rbrace] n.liquidContent.data 2 =
      some (n.liquidContent.data.length - 2) :=
  tokenizeLoop_tag_first_close text absOffset (text.length + 1) 0 n hn ht

/-- Witness for the amended tokenizer claim at the block-span example:
its first emitted node is a tag node, and the theorem applies to it. -/
theorem tokenizer_tag_stops_at_first_close_witness :
    4 ≤ ((blockSpanNodes.getD 0 default).liquidContent.data).length ∧
    findSub ['%', rbrace] (blockSpanNodes.getD 0 default).liquidContent.data 2 =
      some ((blockSpanNodes.getD 0 default).liquidContent.data.length - 2) :=
  tokenizer_tag_stops_at_first_close blockSpanText 0
    (blockSpanNodes.getD 0 default) (by decide) (by decide)

/-- Setting one index leaves the others unchanged. -/
theorem getD_set_ne {α : Type} [Inhabited α] (l : List α) (j i : Nat) (v : α)
    (h : j ≠ i) : (l.set j v).getD i default = l.getD i default := by
  rw [List.getD_eq_getElem?_getD, List.getD_eq_getElem?_getD, List.getElem?_set]
  simp [h]

/-- Setting an index in range stores the value there. -/
theorem getD_set_self {α : Type} [Inhabited α] (l : List α) (j : Nat) (v : α)
    (h : j < l.length) : (l.set j v).getD j default = v := by
  rw [List.getD_eq_getElem?_getD, List.getElem?_set]
  simp [h]

/-- A fold whose steps only set the node at a projected index leaves
every other index unchanged. -/
theorem foldl_set_getD_notmem {β : Type} (f : List LiquidNode → β → List LiquidNode)
    (tgt : β → Nat)
    (hf : ∀ ns b, f ns b = ns ∨ ∃ v, f ns b = ns.set (tgt b) v) :
    ∀ (l : List β) (ns : List LiquidNode) (i : Nat), (∀ b ∈ l, tgt b ≠ i) →
      (l.foldl f ns).getD i default = ns.getD i default := by
  intro l
  induction l with
  | nil => intro ns i _; rfl
  | cons b rest ih =>
    intro ns i hne
    rw [List.foldl_cons]
    rw [ih (f ns b) i (fun x hx => hne x (List.mem_cons_of_mem b hx))]
    rcases hf ns b with heq | ⟨v, heq⟩
    · rw [heq]
    · rw [heq, getD_set_ne _ _ _ _ (hne b (List.mem_cons_self b rest))]

/-- A fold whose steps only set the node at a projected index preserves
the length. -/
theorem foldl_set_length {β : Type} (f : List LiquidNode → β → List LiquidNode)
    (tgt : β → Nat)
    (hf : ∀ ns b, f ns b = ns ∨ ∃ v, f ns b = ns.set (tgt b) v) :
    ∀ (l : List β) (ns : List LiquidNode), (l.foldl f ns).length = ns.length := by
  intro l
  induction l with
  | nil => intro ns; rfl
  | cons b rest ih =>
    intro ns
    rw [List.foldl_cons, ih (f ns b)]
    rcases hf ns b with heq | ⟨v, heq⟩ <;> simp [heq]

/-- One association step either leaves the node list unchanged or sets
only the node being processed. -/
theorem stepNode_nodes (supply : Nat → String) (st : blockAssociator.AState) (idx : Nat) :
    (blockAssociator.stepNode supply st idx).nodes = st.nodes ∨
      ∃ v, (blockAssociator.stepNode supply st idx).nodes = st.nodes.set idx v := by
  dsimp only [blockAssociator.stepNode]
  split
  · left; rfl
  · split
    · right; exact ⟨_, rfl⟩
    · split
      · split
        · right; exact ⟨_, rfl⟩
        · right; exact ⟨_, rfl⟩
      · split
        · split
          · split
            · right; exact ⟨_, rfl⟩
            · right; exact ⟨_, rfl⟩
          · right; exact ⟨_, rfl⟩
        · left; rfl

/-- One association step leaves every frame of the stack except possibly
a removed one, and pushes frames only for the processed index. -/
theorem popFrame_mem : ∀ (stack : List (String × Nat × String)) (t : String)
    (fr : String × Nat × String) (rest : List (String × Nat × String)),
    blockAssociator.popFrame stack t = some (fr, rest) →
    fr ∈ stack ∧ ∀ x ∈ rest, x ∈ stack := by
  intro stack
  induction stack with
  | nil => intro t fr rest h; simp [blockAssociator.popFrame] at h
  | cons f rest0 ih =>
    intro t fr rest h
    by_cases heq : f.1 = t
    · simp only [blockAssociator.popFrame, heq, if_true] at h
      cases h
      exact ⟨List.mem_cons_self _ _, fun x hx => List.mem_cons_of_mem _ hx⟩
    · simp only [blockAssociator.popFrame, heq, if_false] at h
      cases hrec : blockAssociator.popFrame rest0 t with
      | none => rw [hrec] at h; simp at h
      | some pr =>
        rw [hrec] at h
        rcases pr with ⟨g, rest2⟩
        simp at h
        rcases h with ⟨hfr, hrest⟩
        have hmem := ih t g rest2 hrec
        subst hfr
        subst hrest
        constructor
        · exact List.mem_cons_of_mem _ hmem.1
        · intro x hx
          rcases List.mem_cons.mp hx with hx1 | hx2
          · rw [hx1]; exact List.mem_cons_self _ _
          · exact List.mem_cons_of_mem _ (hmem.2 x hx2)

/-- A found frame is on the stack. -/
theorem findFrame_mem : ∀ (stack : List (String × Nat × String)) (t : String)
    (fr : String × Nat × String),
    blockAssociator.findFrame stack t = some fr → fr ∈ stack := by
  intro stack
  induction stack with
  | nil => intro t fr h; simp [blockAssociator.findFrame] at h
  | cons f rest ih =>
    intro t fr h
    by_cases heq : f.1 = t
    · simp only [blockAssociator.findFrame, heq, if_true] at h
      cases h
      exact List.mem_cons_self _ _
    · simp only [blockAssociator.findFrame, heq, if_false] at h
      exact List.mem_cons_of_mem _ (ih t fr h)

/-- Entries after a map set come from the map or are the new entry. -/
theorem mapSetKey_mem : ∀ (m : List (String × List Nat)) (k : String) (v : List Nat)
    (e : String × List Nat), e ∈ blockAssociator.mapSetKey m k v → e ∈ m ∨ e = (k, v) := by
  intro m
  induction m with
  | nil =>
    intro k v e h
    simp [blockAssociator.mapSetKey] at h
    right; exact h
  | cons e0 rest ih =>
    intro k v e h
    by_cases heq : e0.1 = k
    · simp only [blockAssociator.mapSetKey, heq, if_true] at h
      rcases List.mem_cons.mp h with h1 | h2
      · right; exact h1
      · left; exact List.mem_cons_of_mem _ h2
    · simp only [blockAssociator.mapSetKey, heq, if_false] at h
      rcases List.mem_cons.mp h with h1 | h2
      · left; rw [h1]; exact List.mem_cons_self _ _
      · rcases ih k v e h2 with h3 | h4
        · left; exact List.mem_cons_of_mem _ h3
        · right; exact h4

/-- A successful map lookup returns the stored list of an entry of the
map. -/
theorem mapGetKey_mem (m : List (String × List Nat)) (k : String) (v : List Nat)
    (h : blockAssociator.mapGetKey m k = some v) : ∃ e ∈ m, e.2 = v := by
  unfold blockAssociator.mapGetKey at h
  cases hf : m.find? (fun e => e.1 == k) with
  | none => rw [hf] at h; simp at h
  | some e =>
    rw [hf] at h
    simp at h
    exact ⟨e, List.mem_of_find?_eq_some hf, h⟩

/-- Member indices after a member push come from the map or are the
pushed index. -/
theorem mapPushMember_mem (m : List (String × List Nat)) (k : String) (i : Nat)
    (e : String × List Nat) (he : e ∈ blockAssociator.mapPushMember m k i)
    (x : Nat) (hx : x ∈ e.2) : (∃ e0 ∈ m, x ∈ e0.2) ∨ x = i := by
  unfold blockAssociator.mapPushMember at he
  cases hg : blockAssociator.mapGetKey m k with
  | none =>
    rw [hg] at he
    exact Or.inl ⟨e, he, hx⟩
  | some v =>
    rw [hg] at he
    rcases mapSetKey_mem m k (v ++ [i]) e he with h1 | h2
    · exact Or.inl ⟨e, h1, hx⟩
    · rw [h2] at hx
      simp at hx
      rcases hx with hx1 | hx2
      · rcases mapGetKey_mem m k v hg with ⟨e0, he0, hev⟩
        exact Or.inl ⟨e0, he0, by rw [hev]; exact hx1⟩
      · exact Or.inr hx2

/-- One association step adds to the stack only frames whose start index
is the processed index. -/
theorem stepNode_stack_mem (supply : Nat → String) (st : blockAssociator.AState) (idx : Nat)
    (fr : String × Nat × String)
    (hfr : fr ∈ (blockAssociator.stepNode supply st idx).blockStack) :
    fr ∈ st.blockStack ∨ fr.2.1 = idx := by
  dsimp only [blockAssociator.stepNode] at hfr
  by_cases h1 : astGetTagName (st.nodes.getD idx default) = ""
  · rw [if_pos h1] at hfr
    exact Or.inl hfr
  · rw [if_neg h1] at hfr
    by_cases h2 : astFlagStart (st.nodes.getD idx default) = true
    · rw [if_pos h2] at hfr
      simp only at hfr
      rcases List.mem_cons.mp hfr with hh | ht
      · right; rw [hh]
      · exact Or.inl ht
    · rw [if_neg h2] at hfr
      by_cases h3 : astFlagEnd (st.nodes.getD idx default) = true
      · rw [if_pos h3] at hfr
        cases hpop : blockAssociator.popFrame st.blockStack
            (strDropChars (astGetTagName (st.nodes.getD idx default)) 3) with
        | none =>
          simp only [hpop] at hfr
          exact Or.inl hfr
        | some pr =>
          rcases pr with ⟨g, stack2⟩
          simp only [hpop] at hfr
          exact Or.inl ((popFrame_mem _ _ g stack2 hpop).2 fr hfr)
      · rw [if_neg h3] at hfr
        by_cases h4 : astFlagCont (st.nodes.getD idx default) = true
        · rw [if_pos h4] at hfr
          cases hcbt : blockAssociator.findCompatibleBlockType
              (astGetTagName (st.nodes.getD idx default)) with
          | none =>
            simp only [hcbt] at hfr
            exact Or.inl hfr
          | some compatible =>
            cases hff : blockAssociator.findFrame st.blockStack compatible with
            | none =>
              simp only [hcbt, hff] at hfr
              exact Or.inl hfr
            | some g =>
              simp only [hcbt, hff] at hfr
              exact Or.inl hfr
        · rw [if_neg h4] at hfr
          exact Or.inl hfr

/-- One association step adds only the processed index to the member
lists of the map. -/
theorem stepNode_entries_mem (supply : Nat → String) (st : blockAssociator.AState) (idx : Nat)
    (e : String × List Nat) (he : e ∈ (blockAssociator.stepNode supply st idx).blockNodes)
    (x : Nat) (hx : x ∈ e.2) :
    (∃ e0 ∈ st.blockNodes, x ∈ e0.2) ∨ x = idx := by
  dsimp only [blockAssociator.stepNode] at he
  by_cases h1 : astGetTagName (st.nodes.getD idx default) = ""
  · rw [if_pos h1] at he
    exact Or.inl ⟨e, he, hx⟩
  · rw [if_neg h1] at he
    by_cases h2 : astFlagStart (st.nodes.getD idx default) = true
    · rw [if_pos h2] at he
      simp only at he
      rcases mapSetKey_mem _ _ _ e he with he1 | he2
      · exact Or.inl ⟨e, he1, hx⟩
      · rw [he2] at hx
        simp at hx
        exact Or.inr hx
    · rw [if_neg h2] at he
      by_cases h3 : astFlagEnd (st.nodes.getD idx default) = true
      · rw [if_pos h3] at he
        cases hpop : blockAssociator.popFrame st.blockStack
            (strDropChars (astGetTagName (st.nodes.getD idx default)) 3) with
        | none =>
          simp only [hpop] at he
          exact Or.inl ⟨e, he, hx⟩
        | some pr =>
          rcases pr with ⟨g, stack2⟩
          simp only [hpop] at he
          exact mapPushMember_mem _ _ _ e he x hx
      · rw [if_neg h3] at he
        by_cases h4 : astFlagCont (st.nodes.getD idx default) = true
        · rw [if_pos h4] at he
          cases hcbt : blockAssociator.findCompatibleBlockType
              (astGetTagName (st.nodes.getD idx default)) with
          | none =>
            simp only [hcbt] at he
            exact Or.inl ⟨e, he, hx⟩
          | some compatible =>
            cases hff : blockAssociator.findFrame st.blockStack compatible with
            | none =>
              simp only [hcbt, hff] at he
              exact Or.inl ⟨e, he, hx⟩
            | some g =>
              simp only [hcbt, hff] at he
              exact mapPushMember_mem _ _ _ e he x hx
        · rw [if_neg h4] at he
          exact Or.inl ⟨e, he, hx⟩

/-- The association scan keeps all frame start indices and all entry
member indices inside any set that contains the processed indices. -/
theorem stepFold_idx_containment (supply : Nat → String) (S : List Nat) :
    ∀ (l : List Nat) (st : blockAssociator.AState),
      (∀ j ∈ l, j ∈ S) →
      (∀ fr ∈ st.blockStack, fr.2.1 ∈ S) →
      (∀ e ∈ st.blockNodes, ∀ m ∈ e.2, m ∈ S) →
      (∀ fr ∈ (l.foldl (blockAssociator.stepNode supply) st).blockStack, fr.2.1 ∈ S) ∧
      (∀ e ∈ (l.foldl (blockAssociator.stepNode supply) st).blockNodes, ∀ m ∈ e.2, m ∈ S) := by
  intro l
  induction l with
  | nil => intro st _ h1 h2; exact ⟨h1, h2⟩
  | cons j rest ih =>
    intro st hl h1 h2
    rw [List.foldl_cons]
    have hj : j ∈ S := hl j (List.mem_cons_self _ _)
    apply ih
    · intro x hx; exact hl x (List.mem_cons_of_mem _ hx)
    · intro fr hfr
      rcases stepNode_stack_mem supply st j fr hfr with hin | heq
      · exact h1 fr hin
      · rw [heq]; exact hj
    · intro e he m hm
      rcases stepNode_entries_mem supply st j e he m hm with ⟨e0, he0, hm0⟩ | heq
      · exact h2 e0 he0 m hm0
      · rw [heq]; exact hj

/-- The association scan leaves unprocessed node indices unchanged. -/
theorem stepFold_nodes_notmem (supply : Nat → String) :
    ∀ (l : List Nat) (st : blockAssociator.AState) (i : Nat), i ∉ l →
      ((l.foldl (blockAssociator.stepNode supply) st).nodes).getD i default =
        st.nodes.getD i default := by
  intro l
  induction l with
  | nil => intro st i _; rfl
  | cons j rest ih =>
    intro st i hni
    rw [List.foldl_cons]
    rw [ih _ i (fun hx => hni (List.mem_cons_of_mem _ hx))]
    have hne : j ≠ i := by
      intro hji
      apply hni
      rw [← hji]
      exact List.mem_cons_self _ _
    rcases stepNode_nodes supply st j with heq | ⟨v, heq⟩
    · rw [heq]
    · rw [heq, getD_set_ne _ _ _ _ hne]

/-- The association scan preserves the node-list length. -/
theorem stepFold_nodes_length (supply : Nat → String) :
    ∀ (l : List Nat) (st : blockAssociator.AState),
      (l.foldl (blockAssociator.stepNode supply) st).nodes.length = st.nodes.length := by
  intro l
  induction l with
  | nil => intro st; rfl
  | cons j rest ih =>
    intro st
    rw [List.foldl_cons, ih]
    rcases stepNode_nodes supply st j with heq | ⟨v, heq⟩ <;> simp [heq]

/-- The unclosed marking touches only frame start indices. -/
theorem markUnclosed_getD_notmem (ns : List LiquidNode)
    (stack : List (String × Nat × String)) (i : Nat)
    (h : ∀ fr ∈ stack, fr.2.1 ≠ i) :
    (blockAssociator.markUnclosed ns stack).getD i default = ns.getD i default := by
  unfold blockAssociator.markUnclosed
  apply foldl_set_getD_notmem _ (fun fr => fr.2.1)
  · intro ns0 fr; right; exact ⟨_, rfl⟩
  · intro fr hfr
    exact h fr (List.mem_reverse.mp hfr)

/-- The unclosed marking preserves the length. -/
theorem markUnclosed_length (ns : List LiquidNode)
    (stack : List (String × Nat × String)) :
    (blockAssociator.markUnclosed ns stack).length = ns.length := by
  unfold blockAssociator.markUnclosed
  apply foldl_set_length _ (fun fr => fr.2.1)
  intro ns0 fr; right; exact ⟨_, rfl⟩

/-- The relationship setup of one entry touches only its member
indices. -/
theorem setupEntry_getD_notmem (ns : List LiquidNode) (mems : List Nat) (i : Nat)
    (h : i ∉ mems) :
    (blockAssociator.setupEntry ns mems).getD i default = ns.getD i default := by
  unfold blockAssociator.setupEntry
  split
  · rfl
  · cases hfind : mems.find? (fun j => astFlagStart (ns.getD j default)) with
    | none => rfl
    | some s =>
      have hs : s ∈ mems := List.mem_of_find?_eq_some hfind
      have hsi : s ≠ i := fun hc => h (hc ▸ hs)
      dsimp only
      cases hend : mems.find? (fun j => astFlagEnd (ns.getD j default)) with
      | none =>
        simp only [hend]
        split
        · rw [foldl_set_getD_notmem _ (fun c => c) (by intro a b; right; exact ⟨_, rfl⟩)]
          · rw [getD_set_ne _ _ _ _ hsi, getD_set_ne _ _ _ _ hsi]
          · intro c hc hci
            exact h (hci ▸ (List.mem_filter.mp hc).1)
        · rw [getD_set_ne _ _ _ _ hsi]
      | some e =>
        simp only [hend]
        have he : e ∈ mems := List.mem_of_find?_eq_some hend
        have hei : e ≠ i := fun hc => h (hc ▸ he)
        rw [getD_set_ne _ _ _ _ hei, getD_set_ne _ _ _ _ hsi]
        split
        · rw [foldl_set_getD_notmem _ (fun c => c) (by intro a b; right; exact ⟨_, rfl⟩)]
          · rw [getD_set_ne _ _ _ _ hsi, getD_set_ne _ _ _ _ hsi]
          · intro c hc hci
            exact h (hci ▸ (List.mem_filter.mp hc).1)
        · rw [getD_set_ne _ _ _ _ hsi]

/-- The relationship setup of one entry preserves the length. -/
theorem setupEntry_length (ns : List LiquidNode) (mems : List Nat) :
    (blockAssociator.setupEntry ns mems).length = ns.length := by
  unfold blockAssociator.setupEntry
  split
  · rfl
  · cases hfind : mems.find? (fun j => astFlagStart (ns.getD j default)) with
    | none => rfl
    | some s =>
      dsimp only
      cases hend : mems.find? (fun j => astFlagEnd (ns.getD j default)) with
      | none =>
        simp only [hend]
        split
        · rw [foldl_set_length _ (fun c => c) (by intro a b; right; exact ⟨_, rfl⟩)]
          simp
        · simp
      | some e =>
        simp only [hend]
        rw [List.length_set, List.length_set]
        split
        · rw [foldl_set_length _ (fun c => c) (by intro a b; right; exact ⟨_, rfl⟩)]
          simp
        · simp

/-- The relationship setup touches only member indices of the entry
list. -/
theorem setup_getD_notmem (bns : List (String × List Nat)) :
    ∀ (ns : List LiquidNode) (i : Nat), (∀ e ∈ bns, i ∉ e.2) →
      (blockAssociator.setupBlockRelationships ns bns).getD i default = ns.getD i default := by
  induction bns with
  | nil => intro ns i _; rfl
  | cons e rest ih =>
    intro ns i h
    unfold blockAssociator.setupBlockRelationships at ih ⊢
    rw [List.foldl_cons]
    rw [ih _ i (fun x hx => h x (List.mem_cons_of_mem _ hx))]
    exact setupEntry_getD_notmem ns e.2 i (h e (List.mem_cons_self _ _))

/-- The relationship setup preserves the length. -/
theorem setup_length (bns : List (String × List Nat)) :
    ∀ (ns : List LiquidNode),
      (blockAssociator.setupBlockRelationships ns bns).length = ns.length := by
  induction bns with
  | nil => intro ns; rfl
  | cons e rest ih =>
    intro ns
    unfold blockAssociator.setupBlockRelationships at ih ⊢
    rw [List.foldl_cons, ih, setupEntry_length]

/-- Membership in the valid indices means the validity filter holds. -/
theorem mem_validIndices (input : List LiquidNode) (i : Nat)
    (h : i ∈ blockAssociator.validIndices input) :
    blockAssociator.isValidNode (input.getD i default) = true :=
  (List.mem_filter.mp h).2

/-- The sorted processing order is drawn from the valid indices. -/
theorem mem_abtSorted (input : List LiquidNode) (j : Nat)
    (h : j ∈ blockAssociator.abtSorted input) : j ∈ blockAssociator.validIndices input := by
  unfold blockAssociator.abtSorted blockAssociator.sortIdx at h
  exact (List.perm_insertionSort _ _).mem_iff.mp h

/-- C10.  The block associator mutates only nodes that pass its validity
filter, namely tag nodes with nonempty liquid content: at every index
whose node is not a valid tag node, the output node is the input node
with every field unchanged, and the node-list length is preserved. -/
theorem associator_mutates_only_valid_tag_nodes (supply : Nat → String) (counter0 : Nat)
    (input : List LiquidNode) (i : Nat)
    (h : blockAssociator.isValidNode (input.getD i default) = false) :
    (blockAssociator.associateBlockTags supply counter0 input).nodes.getD i default =
      input.getD i default ∧
    (blockAssociator.associateBlockTags supply counter0 input).nodes.length = input.length := by
  have hni : i ∉ blockAssociator.validIndices input := by
    intro hmem
    rw [mem_validIndices input i hmem] at h
    cases h
  have hnsorted : i ∉ blockAssociator.abtSorted input := by
    intro hmem
    exact hni (mem_abtSorted input i hmem)
  unfold blockAssociator.associateBlockTags
  split
  · exact ⟨rfl, rfl⟩
  · have hcontain := stepFold_idx_containment supply (blockAssociator.validIndices input)
      (blockAssociator.abtSorted input)
      { nodes := blockAssociator.abtClassified input, counter := counter0 }
      (fun j hj => mem_abtSorted input j hj)
      (by intro fr hfr; simp at hfr)
      (by intro e he; simp at he)
    constructor
    · rw [setup_getD_notmem _ _ i
        (fun e he hmem => hni (hcontain.2 e he i hmem))]
      rw [markUnclosed_getD_notmem _ _ i
        (fun fr hfr hci => hni (hci ▸ hcontain.1 fr hfr))]
      rw [stepFold_nodes_notmem supply _ _ i hnsorted]
      show (blockAssociator.abtClassified input).getD i default = input.getD i default
      unfold blockAssociator.abtClassified blockAssociator.classifyPhase
      rw [foldl_set_getD_notmem _ (fun j => j) (by intro a b; right; exact ⟨_, rfl⟩) _ _ i
        (fun j hj hji => hnsorted (hji ▸ hj))]
      unfold blockAssociator.abtPositioned blockAssociator.ensurePositionList
      rw [foldl_set_getD_notmem _ (fun kv => kv.2)
        (by
          intro a b
          by_cases hpos : (a.getD b.2 default).position = none
          · right; exact ⟨_, by rw [if_pos hpos]⟩
          · left; rw [if_neg hpos]) _ _ i
        (fun kv hkv hki => hni (hki ▸ List.snd_mem_of_mem_enum hkv))]
      unfold blockAssociator.resetPhase
      rw [foldl_set_getD_notmem _ (fun j => j) (by intro a b; right; exact ⟨_, rfl⟩) _ _ i
        (fun j hj hji => hni (hji ▸ hj))]
    · rw [setup_length, markUnclosed_length, stepFold_nodes_length]
      show (blockAssociator.abtClassified input).length = input.length
      unfold blockAssociator.abtClassified blockAssociator.classifyPhase
      rw [foldl_set_length _ (fun j => j) (by intro a b; right; exact ⟨_, rfl⟩)]
      unfold blockAssociator.abtPositioned blockAssociator.ensurePositionList
      rw [foldl_set_length _ (fun kv => kv.2)
        (by
          intro a b
          by_cases hpos : (a.getD b.2 default).position = none
          · right; exact ⟨_, by rw [if_pos hpos]⟩
          · left; rw [if_neg hpos])]
      unfold blockAssociator.resetPhase
      rw [foldl_set_length _ (fun j => j) (by intro a b; right; exact ⟨_, rfl⟩)]

/-- Witness for the frame condition at the mismatched example: index 1
holds a plain text node, which the associator leaves untouched. -/
theorem associator_mutates_only_valid_tag_nodes_witness :
    (blockAssociator.associateBlockTags natSupply 0 mismatchNodes).nodes.getD 1 default =
      mismatchNodes.getD 1 default ∧
    (blockAssociator.associateBlockTags natSupply 0 mismatchNodes).nodes.length =
      mismatchNodes.length :=
  associator_mutates_only_valid_tag_nodes natSupply 0 mismatchNodes 1 (by decide)

end GitStuffServer
namespace GitStuffServer

/-- General description of setting an index: the stored value when in
range, unchanged otherwise. -/
theorem getD_set_eq_ite {α : Type} [Inhabited α] (l : List α) (j i : Nat) (v : α) :
    (l.set j v).getD i default =
      if j = i ∧ i < l.length then v else l.getD i default := by
  by_cases hj : j = i
  · subst hj
    by_cases hl : j < l.length
    · rw [getD_set_self l j v hl]
      simp [hl]
    · rw [List.set_eq_of_length_le (by omega)]
      simp [hl]
  · rw [getD_set_ne l j i v hj]
    simp [hj]

/-- A fold whose every update preserves a projection of the node
preserves that projection at every index. -/
theorem foldl_set_proj {β γ : Type} (proj : LiquidNode → γ)
    (f : List LiquidNode → β → List LiquidNode) (tgt : β → Nat)
    (hf : ∀ ns b, f ns b = ns ∨
      ∃ v, f ns b = ns.set (tgt b) v ∧ proj v = proj (ns.getD (tgt b) default)) :
    ∀ (l : List β) (ns : List LiquidNode) (i : Nat),
      proj ((l.foldl f ns).getD i default) = proj (ns.getD i default) := by
  intro l
  induction l with
  | nil => intro ns i; rfl
  | cons b rest ih =>
    intro ns i
    rw [List.foldl_cons, ih (f ns b) i]
    rcases hf ns b with heq | ⟨v, heq, hv⟩
    · rw [heq]
    · rw [heq, getD_set_eq_ite]
      split
      · rename_i hcond
        rw [hv, hcond.1]
      · rfl

/-- One association step preserves the reset projection of every node:
the fields the scan writes are exactly the fields the reset erases. -/
theorem stepNode_nodes_resetNode (supply : Nat → String) (st : blockAssociator.AState)
    (idx : Nat) :
    (blockAssociator.stepNode supply st idx).nodes = st.nodes ∨
      ∃ v, (blockAssociator.stepNode supply st idx).nodes = st.nodes.set idx v ∧
        blockAssociator.resetNode v = blockAssociator.resetNode (st.nodes.getD idx default) := by
  dsimp only [blockAssociator.stepNode]
  split
  · left; rfl
  · split
    · right; exact ⟨_, rfl, rfl⟩
    · split
      · split
        · right; exact ⟨_, rfl, rfl⟩
        · right; exact ⟨_, rfl, rfl⟩
      · split
        · split
          · split
            · right; exact ⟨_, rfl, rfl⟩
            · right; exact ⟨_, rfl, rfl⟩
          · right; exact ⟨_, rfl, rfl⟩
        · left; rfl

/-- The association scan preserves the reset projection of every node. -/
theorem stepFold_resetNode (supply : Nat → String) :
    ∀ (l : List Nat) (st : blockAssociator.AState) (i : Nat),
      blockAssociator.resetNode ((l.foldl (blockAssociator.stepNode supply) st).nodes.getD i default) =
        blockAssociator.resetNode (st.nodes.getD i default) := by
  intro l
  induction l with
  | nil => intro st i; rfl
  | cons j rest ih =>
    intro st i
    rw [List.foldl_cons, ih]
    rcases stepNode_nodes_resetNode supply st j with heq | ⟨v, heq, hv⟩
    · rw [heq]
    · rw [heq, getD_set_eq_ite]
      split
      · rename_i hcond
        rw [hv, hcond.1]
      · rfl

/-- The unclosed marking preserves the reset projection of every node. -/
theorem markUnclosed_resetNode (ns : List LiquidNode)
    (stack : List (String × Nat × String)) (i : Nat) :
    blockAssociator.resetNode ((blockAssociator.markUnclosed ns stack).getD i default) =
      blockAssociator.resetNode (ns.getD i default) := by
  unfold blockAssociator.markUnclosed
  rw [foldl_set_proj blockAssociator.resetNode _ (fun fr => fr.2.1)]
  intro ns0 fr
  right
  exact ⟨_, rfl, rfl⟩

/-- The relationship setup of one entry preserves the reset projection
of every node. -/
theorem setupEntry_resetNode (ns : List LiquidNode) (mems : List Nat) (i : Nat) :
    blockAssociator.resetNode ((blockAssociator.setupEntry ns mems).getD i default) =
      blockAssociator.resetNode (ns.getD i default) := by
  have step1 : ∀ (ms : List LiquidNode) (j : Nat) (v : LiquidNode),
      blockAssociator.resetNode v = blockAssociator.resetNode (ms.getD j default) →
      blockAssociator.resetNode ((ms.set j v).getD i default) =
        blockAssociator.resetNode (ms.getD i default) := by
    intro ms j v hv
    rw [getD_set_eq_ite]
    split
    · rename_i hcond
      rw [hv, hcond.1]
    · rfl
  unfold blockAssociator.setupEntry
  split
  · rfl
  · cases hfind : mems.find? (fun j => astFlagStart (ns.getD j default)) with
    | none => rfl
    | some s =>
      dsimp only
      cases hend : mems.find? (fun j => astFlagEnd (ns.getD j default)) with
      | none =>
        simp only [hend]
        split
        · rw [foldl_set_proj blockAssociator.resetNode _ (fun c => c)
            (by intro a b; right; exact ⟨_, rfl, rfl⟩)]
          exact Eq.trans (step1 _ _ _ rfl) (step1 _ _ _ rfl)
        · exact step1 _ _ _ rfl
      | some e =>
        simp only [hend]
        refine Eq.trans (step1 _ _ _ rfl) ?_
        refine Eq.trans (step1 _ _ _ rfl) ?_
        split
        · rw [foldl_set_proj blockAssociator.resetNode _ (fun c => c)
            (by intro a b; right; exact ⟨_, rfl, rfl⟩)]
          exact Eq.trans (step1 _ _ _ rfl) (step1 _ _ _ rfl)
        · exact step1 _ _ _ rfl

/-- The relationship setup preserves the reset projection of every
node. -/
theorem setup_resetNode (bns : List (String × List Nat)) :
    ∀ (ns : List LiquidNode) (i : Nat),
      blockAssociator.resetNode
          ((blockAssociator.setupBlockRelationships ns bns).getD i default) =
        blockAssociator.resetNode (ns.getD i default) := by
  induction bns with
  | nil => intro ns i; rfl
  | cons e rest ih =>
    intro ns i
    unfold blockAssociator.setupBlockRelationships at ih ⊢
    rw [List.foldl_cons, ih, setupEntry_resetNode]

/-- Resetting a node whose association fields are already clear changes
nothing. -/
theorem resetNode_eq_self (x : LiquidNode) (h1 : x.parseError = none)
    (h2 : x.parseSuccess = none) (h3 : x.blockId = none) (h4 : x.matchingBlockId = none)
    (h5 : x.relatedBlockNodes = none) : blockAssociator.resetNode x = x := by
  unfold blockAssociator.resetNode
  cases x
  simp_all

theorem extractTagName_ne_empty (content : String) :
    tagClassifier.extractTagName content ≠ "" := by
  unfold tagClassifier.extractTagName
  split
  · decide
  · dsimp only
    split
    · decide
    · rename_i hw
      intro hc
      apply hw
      have h2 : (String.mk (takeWordRun (trimChars content.data))).data = ("" : String).data := by
        rw [hc]
      simpa using h2

theorem classifyNode_fix (x : LiquidNode) (ast1 : LiquidAST) (inner : String)
    (hast : x.liquidAST = some ast1) (hin : x.liquidInnerContent = some inner)
    (hstrip : inner = "" → blockAssociator.stripInner x.liquidContent = "")
    (htag : (ast1.tagName.getD "") = "" → inner = "")
    (hbs : ∃ b, ast1.isBlockStart = some b)
    (hbe : ∃ b, ast1.isBlockEnd = some b)
    (hbc : ∃ b, ast1.isContinuation = some b) :
    blockAssociator.classifyNode x = x := by
  obtain ⟨bs, hbs⟩ := hbs
  obtain ⟨be, hbe⟩ := hbe
  obtain ⟨bc, hbc⟩ := hbc
  unfold blockAssociator.classifyNode
  rw [hast, hin]
  dsimp only [Option.getD_some]
  by_cases hie : inner = ""
  · subst hie
    rw [if_pos rfl, hstrip rfl]
    have hcond : ¬((ast1.tagName.getD "" = "") ∧ ("" : String) ≠ "") := by simp
    rw [if_neg hcond]
    rw [hbs, hbe, hbc]
    dsimp only [Option.getD_some]
    rw [← hbs, ← hbe, ← hbc]
    conv_rhs => rw [show x = { x with liquidAST := some ast1, liquidInnerContent := some "" } by
      rw [← hast, ← hin]]
  · rw [if_neg hie]
    have hcond : ¬((ast1.tagName.getD "" = "") ∧ inner ≠ "") := by
      intro hc
      exact hie (htag hc.1)
    rw [if_neg hcond]
    rw [hbs, hbe, hbc]
    dsimp only [Option.getD_some]
    rw [← hbs, ← hbe, ← hbc]
    conv_rhs => rw [show x = { x with liquidAST := some ast1, liquidInnerContent := some inner } by
      rw [← hast, ← hin]]

theorem classifyNode_idem (n : LiquidNode) :
    blockAssociator.classifyNode (blockAssociator.classifyNode n) =
      blockAssociator.classifyNode n := by
  apply classifyNode_fix _ _ _ rfl rfl
  · intro h
    show blockAssociator.stripInner n.liquidContent = ""
    revert h
    show (match n.liquidInnerContent with
        | some s => if s = "" then blockAssociator.stripInner n.liquidContent else s
        | none => blockAssociator.stripInner n.liquidContent) = "" → _
    cases hic : n.liquidInnerContent with
    | none => intro h; exact h
    | some s =>
      dsimp only
      by_cases hse : s = ""
      · subst hse
        rw [if_pos rfl]
        intro h; exact h
      · rw [if_neg hse]
        intro h; exact absurd h hse
  · intro h
    dsimp only at h
    by_cases hcond : (((n.liquidAST.getD {}).tagName.getD "") = "") ∧
        (match n.liquidInnerContent with
          | some s => if s = "" then blockAssociator.stripInner n.liquidContent else s
          | none => blockAssociator.stripInner n.liquidContent) ≠ ""
    · rw [if_pos hcond] at h
      dsimp only [Option.getD_some] at h
      exact absurd h (extractTagName_ne_empty _)
    · rw [if_neg hcond] at h
      push_neg at hcond
      exact hcond h
  · exact ⟨_, rfl⟩
  · exact ⟨_, rfl⟩
  · exact ⟨_, rfl⟩

end GitStuffServer
namespace GitStuffServer

/-- A fold applying a function to each listed index once computes that
function at every listed index. -/
theorem foldl_apply_once (g : LiquidNode → LiquidNode) :
    ∀ (idxs : List Nat) (ns : List LiquidNode) (i : Nat), idxs.Nodup → i ∈ idxs →
      i < ns.length →
      ((idxs.foldl (fun acc j => acc.set j (g (acc.getD j default))) ns).getD i default) =
        g (ns.getD i default) := by
  intro idxs
  induction idxs with
  | nil => intro ns i _ hmem _; cases hmem
  | cons j rest ih =>
    intro ns i hnodup hmem hlen
    rw [List.foldl_cons]
    rcases List.nodup_cons.mp hnodup with ⟨hjrest, hrest⟩
    by_cases hij : i = j
    · subst hij
      rw [foldl_set_getD_notmem _ (fun j => j) (by intro a b; right; exact ⟨_, rfl⟩) rest _ i
        (fun b hb hbi => hjrest (hbi ▸ hb))]
      rw [getD_set_self _ _ _ hlen]
    · have hmem2 : i ∈ rest := by
        rcases List.mem_cons.mp hmem with h1 | h2
        · exact absurd h1 hij
        · exact h2
      rw [ih _ i hrest hmem2 (by rw [List.length_set]; exact hlen)]
      rw [getD_set_ne _ _ _ _ (fun hji => hij hji.symm)]

/-- The position-filling fold is a no-op when every listed index already
carries a position. -/
theorem ensureFold_noop :
    ∀ (kvs : List (Nat × Nat)) (ns : List LiquidNode),
      (∀ kv ∈ kvs, ((ns.getD kv.2 default).position).isSome = true) →
      kvs.foldl (fun acc kv =>
        if (acc.getD kv.2 default).position = none then
          acc.set kv.2
            { acc.getD kv.2 default with
                position := some (blockAssociator.syntheticPosition kv.1) }
        else acc) ns = ns := by
  intro kvs
  induction kvs with
  | nil => intro ns _; rfl
  | cons kv rest ih =>
    intro ns h
    rw [List.foldl_cons]
    have hsome := h kv (List.mem_cons_self _ _)
    rw [if_neg (by
      intro hc
      rw [hc] at hsome
      cases hsome)]
    exact ih ns (fun x hx => h x (List.mem_cons_of_mem _ hx))

/-- After the position-filling fold, every index already carrying a
position still carries one. -/
theorem ensureFold_isSome_preserved :
    ∀ (kvs : List (Nat × Nat)) (ns : List LiquidNode) (i : Nat),
      ((ns.getD i default).position).isSome = true →
      (((kvs.foldl (fun acc kv =>
        if (acc.getD kv.2 default).position = none then
          acc.set kv.2
            { acc.getD kv.2 default with
                position := some (blockAssociator.syntheticPosition kv.1) }
        else acc) ns).getD i default).position).isSome = true := by
  intro kvs
  induction kvs with
  | nil => intro ns i h; exact h
  | cons kv rest ih =>
    intro ns i h
    rw [List.foldl_cons]
    apply ih
    split
    · rw [getD_set_eq_ite]
      split
      · simp
      · exact h
    · exact h

/-- After the position-filling fold, every listed index carries a
position. -/
theorem ensureFold_isSome_mem :
    ∀ (kvs : List (Nat × Nat)) (ns : List LiquidNode) (i : Nat),
      (∃ kv ∈ kvs, kv.2 = i) → i < ns.length →
      (((kvs.foldl (fun acc kv =>
        if (acc.getD kv.2 default).position = none then
          acc.set kv.2
            { acc.getD kv.2 default with
                position := some (blockAssociator.syntheticPosition kv.1) }
        else acc) ns).getD i default).position).isSome = true := by
  intro kvs
  induction kvs with
  | nil => intro ns i hex _; rcases hex with ⟨kv, hkv, _⟩; cases hkv
  | cons kv rest ih =>
    intro ns i hex hlen
    rcases hex with ⟨kv0, hkv0, hkv0i⟩
    rcases List.mem_cons.mp hkv0 with h1 | h2
    · subst h1
      rw [List.foldl_cons]
      apply ensureFold_isSome_preserved
      subst hkv0i
      split
      · rw [getD_set_self _ _ _ hlen]
        simp
      · rename_i hcond
        cases hpos : ((ns.getD kv0.2 default).position) with
        | none => exact absurd hpos hcond
        | some p => simp
    · rw [List.foldl_cons]
      apply ih _ i ⟨kv0, h2, hkv0i⟩
      split
      · rw [List.length_set]; exact hlen
      · exact hlen

/-- The position-filling fold changes nothing but the position field. -/
theorem ensureFold_proj {γ : Type} (proj : LiquidNode → γ)
    (hproj : ∀ (n : LiquidNode) (p : Position), proj { n with position := some p } = proj n)
    (kvs : List (Nat × Nat)) (ns : List LiquidNode) (i : Nat) :
    proj ((kvs.foldl (fun acc kv =>
        if (acc.getD kv.2 default).position = none then
          acc.set kv.2
            { acc.getD kv.2 default with
                position := some (blockAssociator.syntheticPosition kv.1) }
        else acc) ns).getD i default) = proj (ns.getD i default) := by
  apply foldl_set_proj proj _ (fun kv => kv.2)
  intro ns0 kv
  split
  · right
    exact ⟨_, rfl, hproj _ _⟩
  · left; rfl

/-- The length of the pre-scan phases. -/
theorem abtPositioned_length (input : List LiquidNode) :
    (blockAssociator.abtPositioned input).length = input.length := by
  unfold blockAssociator.abtPositioned blockAssociator.ensurePositionList
  rw [foldl_set_length _ (fun kv => kv.2) (by
    intro a b
    split
    · right; exact ⟨_, rfl⟩
    · left; rfl)]
  unfold blockAssociator.resetPhase
  rw [foldl_set_length _ (fun j => j) (by intro a b; right; exact ⟨_, rfl⟩)]

/-- The length of the classified pre-scan nodes. -/
theorem abtClassified_length (input : List LiquidNode) :
    (blockAssociator.abtClassified input).length = input.length := by
  unfold blockAssociator.abtClassified blockAssociator.classifyPhase
  rw [foldl_set_length _ (fun j => j) (by intro a b; right; exact ⟨_, rfl⟩)]
  exact abtPositioned_length input

/-- The node-list length is preserved by the whole association. -/
theorem associateBlockTags_length (supply : Nat → String) (counter0 : Nat)
    (input : List LiquidNode) :
    (blockAssociator.associateBlockTags supply counter0 input).nodes.length = input.length := by
  unfold blockAssociator.associateBlockTags
  split
  · rfl
  · rw [setup_length, markUnclosed_length, stepFold_nodes_length]
    exact abtClassified_length input

/-- The classification phases leave every index outside the valid set
untouched. -/
theorem abtClassified_getD_notmem (input : List LiquidNode) (i : Nat)
    (hni : i ∉ blockAssociator.validIndices input) :
    (blockAssociator.abtClassified input).getD i default = input.getD i default := by
  have hnsorted : i ∉ blockAssociator.abtSorted input := by
    intro hmem
    exact hni (mem_abtSorted input i hmem)
  unfold blockAssociator.abtClassified blockAssociator.classifyPhase
  rw [foldl_set_getD_notmem _ (fun j => j) (by intro a b; right; exact ⟨_, rfl⟩) _ _ i
    (fun j hj hji => hnsorted (hji ▸ hj))]
  unfold blockAssociator.abtPositioned blockAssociator.ensurePositionList
  rw [foldl_set_getD_notmem _ (fun kv => kv.2)
    (by
      intro a b
      by_cases hpos : (a.getD b.2 default).position = none
      · right; exact ⟨_, by rw [if_pos hpos]⟩
      · left; rw [if_neg hpos]) _ _ i
    (fun kv hkv hki => hni (hki ▸ List.snd_mem_of_mem_enum hkv))]
  unfold blockAssociator.resetPhase
  rw [foldl_set_getD_notmem _ (fun j => j) (by intro a b; right; exact ⟨_, rfl⟩) _ _ i
    (fun j hj hji => hni (hji ▸ hj))]

/-- The association leaves every node failing the validity filter
untouched. -/
theorem associateBlockTags_invalid_getD (supply : Nat → String) (counter0 : Nat)
    (input : List LiquidNode) (i : Nat)
    (h : blockAssociator.isValidNode (input.getD i default) = false) :
    (blockAssociator.associateBlockTags supply counter0 input).nodes.getD i default =
      input.getD i default := by
  have hni : i ∉ blockAssociator.validIndices input := by
    intro hmem
    rw [mem_validIndices input i hmem] at h
    cases h
  have hnsorted : i ∉ blockAssociator.abtSorted input := by
    intro hmem
    exact hni (mem_abtSorted input i hmem)
  unfold blockAssociator.associateBlockTags
  split
  · rfl
  · have hcontain := stepFold_idx_containment supply (blockAssociator.validIndices input)
      (blockAssociator.abtSorted input)
      { nodes := blockAssociator.abtClassified input, counter := counter0 }
      (fun j hj => mem_abtSorted input j hj)
      (by intro fr hfr; simp at hfr)
      (by intro e he; simp at he)
    rw [setup_getD_notmem _ _ i
      (fun e he hmem => hni (hcontain.2 e he i hmem))]
    rw [markUnclosed_getD_notmem _ _ i
      (fun fr hfr hci => hni (hci ▸ hcontain.1 fr hfr))]
    rw [stepFold_nodes_notmem supply _ _ i hnsorted]
    exact abtClassified_getD_notmem input i hni

end GitStuffServer
namespace GitStuffServer

/-- Two lists of equal length agreeing at every defaulted index are
equal. -/
theorem list_eq_of_getD {α : Type} [Inhabited α] (a b : List α)
    (hlen : a.length = b.length) (h : ∀ i, a.getD i default = b.getD i default) :
    a = b := by
  apply List.ext_getElem hlen
  intro i h1 h2
  have hi := h i
  rwa [List.getD_eq_getElem a default h1, List.getD_eq_getElem b default h2] at hi

/-- The valid-index list has no duplicates. -/
theorem validIndices_nodup (ns : List LiquidNode) :
    (blockAssociator.validIndices ns).Nodup :=
  List.Nodup.filter _ (List.nodup_range _)

/-- Every valid index is in range. -/
theorem validIndices_lt (ns : List LiquidNode) (i : Nat)
    (h : i ∈ blockAssociator.validIndices ns) : i < ns.length :=
  List.mem_range.mp (List.mem_filter.mp h).1

/-- An index outside the valid set names a node failing the validity
filter. -/
theorem not_mem_validIndices (ns : List LiquidNode) (i : Nat)
    (h : i ∉ blockAssociator.validIndices ns) :
    blockAssociator.isValidNode (ns.getD i default) = false := by
  by_cases hlen : i < ns.length
  · cases hv : blockAssociator.isValidNode (ns.getD i default) with
    | false => rfl
    | true =>
      exact absurd (List.mem_filter.mpr ⟨List.mem_range.mpr hlen, hv⟩) h
  · rw [List.getD_eq_default _ _ (by omega)]
    decide

/-- The sorted processing order has no duplicates. -/
theorem abtSorted_nodup (ns : List LiquidNode) :
    (blockAssociator.abtSorted ns).Nodup := by
  unfold blockAssociator.abtSorted blockAssociator.sortIdx
  exact (List.perm_insertionSort _ _).nodup_iff.mpr (validIndices_nodup ns)

/-- Every valid index appears in the sorted processing order. -/
theorem mem_abtSorted_of_valid (ns : List LiquidNode) (i : Nat)
    (h : i ∈ blockAssociator.validIndices ns) : i ∈ blockAssociator.abtSorted ns := by
  unfold blockAssociator.abtSorted blockAssociator.sortIdx
  exact (List.perm_insertionSort _ _).mem_iff.mpr h

/-- After the position phase every valid node carries a position. -/
theorem abtPositioned_position_isSome (ns : List LiquidNode) (i : Nat)
    (h : i ∈ blockAssociator.validIndices ns) :
    (((blockAssociator.abtPositioned ns).getD i default).position).isSome = true := by
  unfold blockAssociator.abtPositioned blockAssociator.ensurePositionList
  apply ensureFold_isSome_mem
  · obtain ⟨n, hn⟩ := List.mem_iff_getElem?.mp h
    exact ⟨(n, i), List.mem_enum_iff_getElem?.mpr hn, rfl⟩
  · unfold blockAssociator.resetPhase
    rw [foldl_set_length _ (fun j => j) (by intro a b; right; exact ⟨_, rfl⟩)]
    exact validIndices_lt ns i h

/-- After the position phase every valid node has cleared association
fields. -/
theorem abtPositioned_assoc_none (ns : List LiquidNode) (i : Nat)
    (h : i ∈ blockAssociator.validIndices ns) :
    ((blockAssociator.abtPositioned ns).getD i default).parseError = none ∧
    ((blockAssociator.abtPositioned ns).getD i default).parseSuccess = none ∧
    ((blockAssociator.abtPositioned ns).getD i default).blockId = none ∧
    ((blockAssociator.abtPositioned ns).getD i default).matchingBlockId = none ∧
    ((blockAssociator.abtPositioned ns).getD i default).relatedBlockNodes = none := by
  have hens : (((blockAssociator.abtPositioned ns).getD i default).parseError,
        ((blockAssociator.abtPositioned ns).getD i default).parseSuccess,
        ((blockAssociator.abtPositioned ns).getD i default).blockId,
        ((blockAssociator.abtPositioned ns).getD i default).matchingBlockId,
        ((blockAssociator.abtPositioned ns).getD i default).relatedBlockNodes) =
      (((blockAssociator.resetPhase ns (blockAssociator.validIndices ns)).getD i default).parseError,
        ((blockAssociator.resetPhase ns (blockAssociator.validIndices ns)).getD i default).parseSuccess,
        ((blockAssociator.resetPhase ns (blockAssociator.validIndices ns)).getD i default).blockId,
        ((blockAssociator.resetPhase ns (blockAssociator.validIndices ns)).getD i default).matchingBlockId,
        ((blockAssociator.resetPhase ns (blockAssociator.validIndices ns)).getD i default).relatedBlockNodes) := by
    unfold blockAssociator.abtPositioned blockAssociator.ensurePositionList
    exact ensureFold_proj (fun n => (n.parseError, n.parseSuccess, n.blockId,
      n.matchingBlockId, n.relatedBlockNodes)) (fun n p => rfl) _ _ i
  have hrst : (blockAssociator.resetPhase ns (blockAssociator.validIndices ns)).getD i default =
      blockAssociator.resetNode (ns.getD i default) := by
    unfold blockAssociator.resetPhase
    exact foldl_apply_once _ _ _ i (validIndices_nodup ns) h (validIndices_lt ns i h)
  rw [hrst] at hens
  have hens2 : ((blockAssociator.abtPositioned ns).getD i default).parseError = (none : Option String) ∧
      ((blockAssociator.abtPositioned ns).getD i default).parseSuccess = (none : Option Bool) ∧
      ((blockAssociator.abtPositioned ns).getD i default).blockId = (none : Option String) ∧
      ((blockAssociator.abtPositioned ns).getD i default).matchingBlockId = (none : Option String) ∧
      ((blockAssociator.abtPositioned ns).getD i default).relatedBlockNodes = (none : Option (List Nat)) := by
    have h5 : (((blockAssociator.abtPositioned ns).getD i default).parseError,
        ((blockAssociator.abtPositioned ns).getD i default).parseSuccess,
        ((blockAssociator.abtPositioned ns).getD i default).blockId,
        ((blockAssociator.abtPositioned ns).getD i default).matchingBlockId,
        ((blockAssociator.abtPositioned ns).getD i default).relatedBlockNodes) =
      ((none : Option String), (none : Option Bool), (none : Option String),
        (none : Option String), (none : Option (List Nat))) := hens
    simp only [Prod.mk.injEq] at h5
    exact ⟨h5.1, h5.2.1, h5.2.2.1, h5.2.2.2.1, h5.2.2.2.2⟩
  exact hens2

/-- The classification phase changes no position. -/
theorem abtClassified_position (ns : List LiquidNode) (i : Nat) :
    ((blockAssociator.abtClassified ns).getD i default).position =
      ((blockAssociator.abtPositioned ns).getD i default).position := by
  unfold blockAssociator.abtClassified blockAssociator.classifyPhase
  exact foldl_set_proj (fun n => n.position) _ (fun j => j)
    (by intro a b; right; exact ⟨_, rfl, rfl⟩) _ _ i

/-- At a valid index the classified node is the classification of the
positioned node. -/
theorem abtClassified_getD_valid (ns : List LiquidNode) (i : Nat)
    (h : i ∈ blockAssociator.validIndices ns) :
    (blockAssociator.abtClassified ns).getD i default =
      blockAssociator.classifyNode ((blockAssociator.abtPositioned ns).getD i default) := by
  unfold blockAssociator.abtClassified blockAssociator.classifyPhase
  exact foldl_apply_once _ _ _ i (abtSorted_nodup ns) (mem_abtSorted_of_valid ns i h)
    (by rw [abtPositioned_length]; exact validIndices_lt ns i h)

/-- At a valid index the classified node is a fixed point of the reset
step. -/
theorem resetNode_abtClassified (ns : List LiquidNode) (i : Nat)
    (h : i ∈ blockAssociator.validIndices ns) :
    blockAssociator.resetNode ((blockAssociator.abtClassified ns).getD i default) =
      (blockAssociator.abtClassified ns).getD i default := by
  have hval := abtClassified_getD_valid ns i h
  have hassoc := abtPositioned_assoc_none ns i h
  rw [hval]
  exact resetNode_eq_self _ hassoc.1 hassoc.2.1 hassoc.2.2.1 hassoc.2.2.2.1 hassoc.2.2.2.2

/-- Resetting does not change the type. -/
theorem resetNode_type (x : LiquidNode) :
    (blockAssociator.resetNode x).type = x.type := rfl

/-- Resetting does not change the liquid content. -/
theorem resetNode_liquidContent (x : LiquidNode) :
    (blockAssociator.resetNode x).liquidContent = x.liquidContent := rfl

/-- The association result, projected through the reset step, agrees
with the classified pre-scan nodes. -/
theorem associateBlockTags_resetNode (supply : Nat → String) (counter0 : Nat)
    (ns : List LiquidNode) (hne : blockAssociator.validIndices ns ≠ []) (i : Nat) :
    blockAssociator.resetNode
        ((blockAssociator.associateBlockTags supply counter0 ns).nodes.getD i default) =
      blockAssociator.resetNode ((blockAssociator.abtClassified ns).getD i default) := by
  unfold blockAssociator.associateBlockTags
  rw [if_neg hne]
  dsimp only
  rw [setup_resetNode, markUnclosed_resetNode, stepFold_resetNode]

/-- The classification phases change neither type nor liquid content. -/
theorem abtClassified_typeContent (ns : List LiquidNode) (i : Nat) :
    ((blockAssociator.abtClassified ns).getD i default).type = (ns.getD i default).type ∧
    ((blockAssociator.abtClassified ns).getD i default).liquidContent =
      (ns.getD i default).liquidContent := by
  have h : (((blockAssociator.abtClassified ns).getD i default).type,
        ((blockAssociator.abtClassified ns).getD i default).liquidContent) =
      ((ns.getD i default).type, (ns.getD i default).liquidContent) := by
    unfold blockAssociator.abtClassified blockAssociator.classifyPhase
    rw [foldl_set_proj (fun n => (n.type, n.liquidContent)) _ (fun j => j)
      (by intro a b; right; exact ⟨_, rfl, rfl⟩)]
    unfold blockAssociator.abtPositioned blockAssociator.ensurePositionList
    rw [ensureFold_proj (fun n => (n.type, n.liquidContent)) (fun n p => rfl)]
    unfold blockAssociator.resetPhase
    rw [foldl_set_proj (fun n => (n.type, n.liquidContent)) _ (fun j => j)
      (by intro a b; right; exact ⟨_, rfl, rfl⟩)]
  simp only [Prod.mk.injEq] at h
  exact h

/-- The validity filter reads only the type and liquid content. -/
theorem isValidNode_congr (a b : LiquidNode) (ht : a.type = b.type)
    (hc : a.liquidContent = b.liquidContent) :
    blockAssociator.isValidNode a = blockAssociator.isValidNode b := by
  unfold blockAssociator.isValidNode
  rw [ht, hc]

/-- The association changes neither type nor liquid content of any
node. -/
theorem associateBlockTags_typeContent (supply : Nat → String) (counter0 : Nat)
    (ns : List LiquidNode) (i : Nat) :
    ((blockAssociator.associateBlockTags supply counter0 ns).nodes.getD i default).type =
      (ns.getD i default).type ∧
    ((blockAssociator.associateBlockTags supply counter0 ns).nodes.getD i default).liquidContent =
      (ns.getD i default).liquidContent := by
  by_cases hne : blockAssociator.validIndices ns = []
  · unfold blockAssociator.associateBlockTags
    rw [if_pos hne]
    exact ⟨rfl, rfl⟩
  · have hr := associateBlockTags_resetNode supply counter0 ns hne i
    have hcl := abtClassified_typeContent ns i
    constructor
    · calc ((blockAssociator.associateBlockTags supply counter0 ns).nodes.getD i default).type
          = (blockAssociator.resetNode
              ((blockAssociator.associateBlockTags supply counter0 ns).nodes.getD i default)).type :=
            (resetNode_type _).symm
        _ = (blockAssociator.resetNode ((blockAssociator.abtClassified ns).getD i default)).type :=
            congrArg LiquidNode.type hr
        _ = ((blockAssociator.abtClassified ns).getD i default).type := resetNode_type _
        _ = (ns.getD i default).type := hcl.1
    · calc ((blockAssociator.associateBlockTags supply counter0 ns).nodes.getD i default).liquidContent
          = (blockAssociator.resetNode
              ((blockAssociator.associateBlockTags supply counter0 ns).nodes.getD i default)).liquidContent :=
            (resetNode_liquidContent _).symm
        _ = (blockAssociator.resetNode ((blockAssociator.abtClassified ns).getD i default)).liquidContent :=
            congrArg LiquidNode.liquidContent hr
        _ = ((blockAssociator.abtClassified ns).getD i default).liquidContent := resetNode_liquidContent _
        _ = (ns.getD i default).liquidContent := hcl.2

/-- The association preserves the valid-index list. -/
theorem associateBlockTags_validIndices (supply : Nat → String) (counter0 : Nat)
    (ns : List LiquidNode) :
    blockAssociator.validIndices (blockAssociator.associateBlockTags supply counter0 ns).nodes =
      blockAssociator.validIndices ns := by
  unfold blockAssociator.validIndices
  rw [associateBlockTags_length]
  apply List.filter_congr
  intro i hi
  have h := associateBlockTags_typeContent supply counter0 ns i
  exact isValidNode_congr _ _ h.1 h.2

/-- Ordered insertion depends only on the truth of the relation. -/
theorem orderedInsert_congr {α : Type} (r s : α → α → Prop) [DecidableRel r]
    [DecidableRel s] (hrs : ∀ a b, r a b ↔ s a b) (x : α) :
    ∀ (l : List α), List.orderedInsert r x l = List.orderedInsert s x l := by
  intro l
  induction l with
  | nil => rfl
  | cons y l ih =>
    simp only [List.orderedInsert]
    exact if_congr (hrs x y) rfl (by rw [ih])

/-- Insertion sort depends only on the truth of the relation. -/
theorem insertionSort_congr {α : Type} (r s : α → α → Prop) [DecidableRel r]
    [DecidableRel s] (hrs : ∀ a b, r a b ↔ s a b) :
    ∀ (l : List α), List.insertionSort r l = List.insertionSort s l := by
  intro l
  induction l with
  | nil => rfl
  | cons y l ih =>
    simp only [List.insertionSort]
    rw [ih]
    exact orderedInsert_congr r s hrs y _

/-- The sort comparator reads only the positions. -/
theorem cmpLe_congr (a a2 b b2 : LiquidNode) (ha : a.position = a2.position)
    (hb : b.position = b2.position) :
    blockAssociator.cmpLe a b = blockAssociator.cmpLe a2 b2 := by
  unfold blockAssociator.cmpLe blockAssociator.posLine blockAssociator.posColumn
    blockAssociator.posOffset
  rw [ha, hb]

/-- Classifying the already classified nodes in the sorted order changes
nothing. -/
theorem classifyPhase_classified_self (ns : List LiquidNode) :
    blockAssociator.classifyPhase (blockAssociator.abtClassified ns)
        (blockAssociator.abtSorted ns) =
      blockAssociator.abtClassified ns := by
  apply list_eq_of_getD
  · unfold blockAssociator.classifyPhase
    rw [foldl_set_length _ (fun j => j) (by intro a b; right; exact ⟨_, rfl⟩)]
  · intro i
    by_cases hmem : i ∈ blockAssociator.abtSorted ns
    · unfold blockAssociator.classifyPhase
      rw [foldl_apply_once _ _ _ i (abtSorted_nodup ns) hmem
        (by rw [abtClassified_length]; exact validIndices_lt ns i (mem_abtSorted ns i hmem))]
      rw [abtClassified_getD_valid ns i (mem_abtSorted ns i hmem)]
      exact classifyNode_idem _
    · unfold blockAssociator.classifyPhase
      rw [foldl_set_getD_notmem _ (fun j => j) (by intro a b; right; exact ⟨_, rfl⟩) _ _ i
        (fun j hj hji => hmem (hji ▸ hj))]

/-- Re-running the pre-scan phases on an association result reproduces
the classified nodes of the original input. -/
theorem abtPositioned_of_assoc (supply : Nat → String) (counter0 : Nat)
    (ns : List LiquidNode) (hne : blockAssociator.validIndices ns ≠ []) :
    blockAssociator.abtPositioned
        (blockAssociator.associateBlockTags supply counter0 ns).nodes =
      blockAssociator.abtClassified ns := by
  have hvalid := associateBlockTags_validIndices supply counter0 ns
  have hreset : ∀ i, (blockAssociator.resetPhase
        (blockAssociator.associateBlockTags supply counter0 ns).nodes
        (blockAssociator.validIndices ns)).getD i default =
      (blockAssociator.abtClassified ns).getD i default := by
    intro i
    by_cases hmem : i ∈ blockAssociator.validIndices ns
    · unfold blockAssociator.resetPhase
      rw [foldl_apply_once _ _ _ i (validIndices_nodup ns) hmem
        (by rw [associateBlockTags_length]; exact validIndices_lt ns i hmem)]
      rw [associateBlockTags_resetNode supply counter0 ns hne i]
      exact resetNode_abtClassified ns i hmem
    · unfold blockAssociator.resetPhase
      rw [foldl_set_getD_notmem _ (fun j => j) (by intro a b; right; exact ⟨_, rfl⟩) _ _ i
        (fun j hj hji => hmem (hji ▸ hj))]
      rw [associateBlockTags_invalid_getD supply counter0 ns i (not_mem_validIndices ns i hmem)]
      exact (abtClassified_getD_notmem ns i hmem).symm
  have hreq : blockAssociator.resetPhase
        (blockAssociator.associateBlockTags supply counter0 ns).nodes
        (blockAssociator.validIndices ns) =
      blockAssociator.abtClassified ns := by
    apply list_eq_of_getD
    · unfold blockAssociator.resetPhase
      rw [foldl_set_length _ (fun j => j) (by intro a b; right; exact ⟨_, rfl⟩)]
      rw [associateBlockTags_length, abtClassified_length]
    · exact hreset
  unfold blockAssociator.abtPositioned
  rw [hvalid, hreq]
  unfold blockAssociator.ensurePositionList
  apply ensureFold_noop
  intro kv hkv
  have hmem : kv.2 ∈ blockAssociator.validIndices ns := List.snd_mem_of_mem_enum hkv
  rw [abtClassified_position ns kv.2]
  exact abtPositioned_position_isSome ns kv.2 hmem

/-- Two inputs with identical phase outputs give identical association
results. -/
theorem associateBlockTags_eq_of_phases (supply : Nat → String) (counter0 : Nat)
    (a b : List LiquidNode) (hne : blockAssociator.validIndices a ≠ [])
    (hv : blockAssociator.validIndices a = blockAssociator.validIndices b)
    (hs : blockAssociator.abtSorted a = blockAssociator.abtSorted b)
    (hc : blockAssociator.abtClassified a = blockAssociator.abtClassified b) :
    blockAssociator.associateBlockTags supply counter0 a =
      blockAssociator.associateBlockTags supply counter0 b := by
  unfold blockAssociator.associateBlockTags
  rw [if_neg hne, if_neg (hv ▸ hne)]
  dsimp only
  rw [hs, hc]

/-- C9, amended.  Re-running the block associator on the node list of a
previous run, with the identifier supply replayed from the same counter
state, reproduces that previous result exactly: the same nodes with the
same block identifiers, the same final counter, and the same minted and
matched histories.  With the wall-clock-and-random identifier minting of
the source, a replay from the same state is impossible, and the
identifier-bearing fields of a second run differ. -/
theorem associator_replay_idempotent (supply : Nat → String) (counter0 : Nat)
    (ns : List LiquidNode) :
    blockAssociator.associateBlockTags supply counter0
        (blockAssociator.associateBlockTags supply counter0 ns).nodes =
      blockAssociator.associateBlockTags supply counter0 ns := by
  by_cases hempty : blockAssociator.validIndices ns = []
  · have h1 : (blockAssociator.associateBlockTags supply counter0 ns).nodes = ns := by
      unfold blockAssociator.associateBlockTags
      rw [if_pos hempty]
    rw [h1]
  · have hvalid := associateBlockTags_validIndices supply counter0 ns
    have hne2 : blockAssociator.validIndices
        (blockAssociator.associateBlockTags supply counter0 ns).nodes ≠ [] := by
      rw [hvalid]; exact hempty
    have hpos2 := abtPositioned_of_assoc supply counter0 ns hempty
    have hsort2 : blockAssociator.abtSorted
        (blockAssociator.associateBlockTags supply counter0 ns).nodes =
        blockAssociator.abtSorted ns := by
      unfold blockAssociator.abtSorted
      rw [hpos2, hvalid]
      unfold blockAssociator.sortIdx
      apply insertionSort_congr
      intro a b
      rw [cmpLe_congr _ _ _ _ (abtClassified_position ns a) (abtClassified_position ns b)]
    have hcl2 : blockAssociator.abtClassified
        (blockAssociator.associateBlockTags supply counter0 ns).nodes =
        blockAssociator.abtClassified ns := by
      unfold blockAssociator.abtClassified
      rw [hpos2, hsort2]
      exact classifyPhase_classified_self ns
    rw [associateBlockTags_eq_of_phases supply counter0 _ ns hne2 hvalid hsort2 hcl2]

end GitStuffServer
namespace GitStuffServer

/-- A fold whose updates either leave the touched value satisfying a
predicate, or preserve the predicate there, preserves the predicate at
every index. -/
theorem foldl_set_pred {β : Type} (P : LiquidNode → Prop)
    (f : List LiquidNode → β → List LiquidNode) (tgt : β → Nat)
    (hf : ∀ ns b, f ns b = ns ∨ ∃ v, f ns b = ns.set (tgt b) v ∧
      (P (ns.getD (tgt b) default) → P v)) :
    ∀ (l : List β) (ns : List LiquidNode), (∀ i, P (ns.getD i default)) →
      ∀ i, P ((l.foldl f ns).getD i default) := by
  intro l
  induction l with
  | nil => intro ns h i; exact h i
  | cons b rest ih =>
    intro ns h i
    rw [List.foldl_cons]
    apply ih
    intro j
    rcases hf ns b with heq | ⟨v, heq, hv⟩
    · rw [heq]; exact h j
    · rw [heq, getD_set_eq_ite]
      split
      · exact hv (h (tgt b))
      · exact h j

/-- A fold whose every step preserves a projection pointwise preserves
it pointwise. -/
theorem foldl_pointwise_proj {β γ : Type} (proj : LiquidNode → γ)
    (g : List LiquidNode → β → List LiquidNode)
    (hg : ∀ ns b i, proj ((g ns b).getD i default) = proj (ns.getD i default)) :
    ∀ (l : List β) (ns : List LiquidNode) (i : Nat),
      proj ((l.foldl g ns).getD i default) = proj (ns.getD i default) := by
  intro l
  induction l with
  | nil => intro ns i; rfl
  | cons b rest ih =>
    intro ns i
    rw [List.foldl_cons, ih, hg]

/-- A fold whose every step preserves a pointwise predicate preserves
it. -/
theorem foldl_pointwise_pred {β : Type} (P : LiquidNode → Prop)
    (g : List LiquidNode → β → List LiquidNode)
    (hg : ∀ ns b, (∀ i, P (ns.getD i default)) → ∀ i, P ((g ns b).getD i default)) :
    ∀ (l : List β) (ns : List LiquidNode), (∀ i, P (ns.getD i default)) →
      ∀ i, P ((l.foldl g ns).getD i default) := by
  intro l
  induction l with
  | nil => intro ns h i; exact h i
  | cons b rest ih =>
    intro ns h i
    rw [List.foldl_cons]
    exact ih _ (hg ns b h) i

/-- A fold whose every step preserves the length preserves it. -/
theorem foldl_pointwise_length {β : Type}
    (g : List LiquidNode → β → List LiquidNode)
    (hg : ∀ ns b, (g ns b).length = ns.length) :
    ∀ (l : List β) (ns : List LiquidNode), (l.foldl g ns).length = ns.length := by
  intro l
  induction l with
  | nil => intro ns; rfl
  | cons b rest ih =>
    intro ns
    rw [List.foldl_cons, ih, hg]

/-- The relationship setup of one entry changes nothing but the related
lists. -/
theorem setupEntry_proj {γ : Type} (proj : LiquidNode → γ)
    (hproj : ∀ (n : LiquidNode) (v : Option (List Nat)),
      proj { n with relatedBlockNodes := v } = proj n)
    (ns : List LiquidNode) (mems : List Nat) (i : Nat) :
    proj ((blockAssociator.setupEntry ns mems).getD i default) = proj (ns.getD i default) := by
  have step1 : ∀ (ms : List LiquidNode) (j : Nat) (v : LiquidNode),
      proj v = proj (ms.getD j default) →
      proj ((ms.set j v).getD i default) = proj (ms.getD i default) := by
    intro ms j v hv
    rw [getD_set_eq_ite]
    split
    · rename_i hcond
      rw [hv, hcond.1]
    · rfl
  unfold blockAssociator.setupEntry
  split
  · rfl
  · cases hfind : mems.find? (fun j => astFlagStart (ns.getD j default)) with
    | none => rfl
    | some s =>
      dsimp only
      cases hend : mems.find? (fun j => astFlagEnd (ns.getD j default)) with
      | none =>
        simp only [hend]
        split
        · rw [foldl_set_proj proj _ (fun c => c)
            (by intro a b; right; exact ⟨_, rfl, hproj _ _⟩)]
          exact Eq.trans (step1 _ _ _ (hproj _ _)) (step1 _ _ _ (hproj _ _))
        · exact step1 _ _ _ (hproj _ _)
      | some e =>
        simp only [hend]
        refine Eq.trans (step1 _ _ _ (hproj _ _)) ?_
        refine Eq.trans (step1 _ _ _ (hproj _ _)) ?_
        split
        · rw [foldl_set_proj proj _ (fun c => c)
            (by intro a b; right; exact ⟨_, rfl, hproj _ _⟩)]
          exact Eq.trans (step1 _ _ _ (hproj _ _)) (step1 _ _ _ (hproj _ _))
        · exact step1 _ _ _ (hproj _ _)

/-- The relationship setup changes nothing but the related lists. -/
theorem setup_proj {γ : Type} (proj : LiquidNode → γ)
    (hproj : ∀ (n : LiquidNode) (v : Option (List Nat)),
      proj { n with relatedBlockNodes := v } = proj n)
    (bns : List (String × List Nat)) :
    ∀ (ns : List LiquidNode) (i : Nat),
      proj ((blockAssociator.setupBlockRelationships ns bns).getD i default) =
        proj (ns.getD i default) := by
  induction bns with
  | nil => intro ns i; rfl
  | cons e rest ih =>
    intro ns i
    unfold blockAssociator.setupBlockRelationships at ih ⊢
    rw [List.foldl_cons, ih, setupEntry_proj proj hproj]

/-- Every node the association scan writes records an error message
whenever it records a failure. -/
theorem stepNode_nodes_errOk (supply : Nat → String) (st : blockAssociator.AState)
    (idx : Nat) :
    (blockAssociator.stepNode supply st idx).nodes = st.nodes ∨
      ∃ v, (blockAssociator.stepNode supply st idx).nodes = st.nodes.set idx v ∧
        (v.parseSuccess = some false → (v.parseError).isSome = true) := by
  dsimp only [blockAssociator.stepNode]
  split
  · left; rfl
  · split
    · right
      exact ⟨_, rfl, fun h => Bool.noConfusion (Option.some.inj h)⟩
    · split
      · split
        · right
          exact ⟨_, rfl, fun h => Bool.noConfusion (Option.some.inj h)⟩
        · right
          exact ⟨_, rfl, fun _ => rfl⟩
      · split
        · split
          · split
            · right
              exact ⟨_, rfl, fun h => Bool.noConfusion (Option.some.inj h)⟩
            · right
              exact ⟨_, rfl, fun _ => rfl⟩
          · right
            exact ⟨_, rfl, fun _ => rfl⟩
        · left; rfl

/-- The association scan preserves error-message coverage of recorded
failures. -/
theorem stepFold_errOk (supply : Nat → String) :
    ∀ (l : List Nat) (st : blockAssociator.AState),
      (∀ i, (st.nodes.getD i default).parseSuccess = some false →
        ((st.nodes.getD i default).parseError).isSome = true) →
      ∀ i, ((l.foldl (blockAssociator.stepNode supply) st).nodes.getD i default).parseSuccess = some false →
        (((l.foldl (blockAssociator.stepNode supply) st).nodes.getD i default).parseError).isSome = true := by
  intro l
  induction l with
  | nil => intro st h i; exact h i
  | cons j rest ih =>
    intro st h i
    rw [List.foldl_cons]
    apply ih
    intro m
    rcases stepNode_nodes_errOk supply st j with heq | ⟨v, heq, hv⟩
    · rw [heq]; exact h m
    · rw [heq, getD_set_eq_ite]
      split
      · exact hv
      · exact h m

/-- Every failure present after the whole association carries an error
message, provided the input satisfies the same discipline. -/
theorem associateBlockTags_errOk (supply : Nat → String) (counter0 : Nat)
    (ns : List LiquidNode)
    (h : ∀ i, (ns.getD i default).parseSuccess = some false →
      ((ns.getD i default).parseError).isSome = true) (i : Nat) :
    ((blockAssociator.associateBlockTags supply counter0 ns).nodes.getD i default).parseSuccess = some false →
      (((blockAssociator.associateBlockTags supply counter0 ns).nodes.getD i default).parseError).isSome = true := by
  have hclassified : ∀ j, ((blockAssociator.abtClassified ns).getD j default).parseSuccess = some false →
      (((blockAssociator.abtClassified ns).getD j default).parseError).isSome = true := by
    intro j
    by_cases hmem : j ∈ blockAssociator.validIndices ns
    · rw [abtClassified_getD_valid ns j hmem]
      intro hfalse
      have hps : ((blockAssociator.abtPositioned ns).getD j default).parseSuccess = some false := hfalse
      rw [(abtPositioned_assoc_none ns j hmem).2.1] at hps
      exact Option.noConfusion hps
    · rw [abtClassified_getD_notmem ns j hmem]
      exact h j
  unfold blockAssociator.associateBlockTags
  split
  · exact h i
  · dsimp only
    have hpair := setup_proj (fun n => (n.parseSuccess, n.parseError)) (fun n v => rfl)
      (((blockAssociator.abtSorted ns).foldl (blockAssociator.stepNode supply)
          { nodes := blockAssociator.abtClassified ns, counter := counter0 }).blockNodes)
      (blockAssociator.markUnclosed
        (((blockAssociator.abtSorted ns).foldl (blockAssociator.stepNode supply)
            { nodes := blockAssociator.abtClassified ns, counter := counter0 }).nodes)
        (((blockAssociator.abtSorted ns).foldl (blockAssociator.stepNode supply)
            { nodes := blockAssociator.abtClassified ns, counter := counter0 }).blockStack)) i
    have hps := congrArg Prod.fst hpair
    have hpe := congrArg Prod.snd hpair
    dsimp only at hps hpe
    rw [hps, hpe]
    have hmark : ∀ m, ((blockAssociator.markUnclosed
          (((blockAssociator.abtSorted ns).foldl (blockAssociator.stepNode supply)
              { nodes := blockAssociator.abtClassified ns, counter := counter0 }).nodes)
          (((blockAssociator.abtSorted ns).foldl (blockAssociator.stepNode supply)
              { nodes := blockAssociator.abtClassified ns, counter := counter0 }).blockStack)).getD m default).parseSuccess = some false →
        (((blockAssociator.markUnclosed
          (((blockAssociator.abtSorted ns).foldl (blockAssociator.stepNode supply)
              { nodes := blockAssociator.abtClassified ns, counter := counter0 }).nodes)
          (((blockAssociator.abtSorted ns).foldl (blockAssociator.stepNode supply)
              { nodes := blockAssociator.abtClassified ns, counter := counter0 }).blockStack)).getD m default).parseError).isSome = true := by
      unfold blockAssociator.markUnclosed
      apply foldl_set_pred
        (fun n => n.parseSuccess = some false → (n.parseError).isSome = true) _ (fun fr => fr.2.1)
        (by intro ms fr; right; exact ⟨_, rfl, fun _ _ => rfl⟩)
      exact stepFold_errOk supply (blockAssociator.abtSorted ns)
        { nodes := blockAssociator.abtClassified ns, counter := counter0 } hclassified
    exact hmark i

/-- The reset step does not change the node value. -/
theorem resetNode_value (x : LiquidNode) :
    (blockAssociator.resetNode x).value = x.value := rfl

/-- The classification phases change no node value. -/
theorem abtClassified_value (ns : List LiquidNode) (i : Nat) :
    ((blockAssociator.abtClassified ns).getD i default).value = (ns.getD i default).value := by
  have h : ((blockAssociator.abtClassified ns).getD i default).value =
      (ns.getD i default).value := by
    unfold blockAssociator.abtClassified blockAssociator.classifyPhase
    rw [foldl_set_proj (fun n => n.value) _ (fun j => j)
      (by intro a b; right; exact ⟨_, rfl, rfl⟩)]
    unfold blockAssociator.abtPositioned blockAssociator.ensurePositionList
    rw [ensureFold_proj (fun n => n.value) (fun n p => rfl)]
    unfold blockAssociator.resetPhase
    rw [foldl_set_proj (fun n => n.value) _ (fun j => j)
      (by intro a b; right; exact ⟨_, rfl, rfl⟩)]
  exact h

/-- The association changes no node value. -/
theorem associateBlockTags_value (supply : Nat → String) (counter0 : Nat)
    (ns : List LiquidNode) (i : Nat) :
    ((blockAssociator.associateBlockTags supply counter0 ns).nodes.getD i default).value =
      (ns.getD i default).value := by
  by_cases hne : blockAssociator.validIndices ns = []
  · unfold blockAssociator.associateBlockTags
    rw [if_pos hne]
  · have hr := associateBlockTags_resetNode supply counter0 ns hne i
    calc ((blockAssociator.associateBlockTags supply counter0 ns).nodes.getD i default).value
        = (blockAssociator.resetNode
            ((blockAssociator.associateBlockTags supply counter0 ns).nodes.getD i default)).value :=
          (resetNode_value _).symm
      _ = (blockAssociator.resetNode ((blockAssociator.abtClassified ns).getD i default)).value :=
          congrArg LiquidNode.value hr
      _ = ((blockAssociator.abtClassified ns).getD i default).value := resetNode_value _
      _ = (ns.getD i default).value := abtClassified_value ns i

/-- Expression processing changes neither type, value nor raw liquid
content. -/
theorem processExpression_tvc (oracle : String → Except String Nat) (n : LiquidNode) :
    (expressionProcessor.processExpression oracle n).type = n.type ∧
    (expressionProcessor.processExpression oracle n).value = n.value ∧
    (expressionProcessor.processExpression oracle n).liquidContent = n.liquidContent := by
  unfold expressionProcessor.processExpression
  split
  · exact ⟨rfl, rfl, rfl⟩
  · dsimp only
    split
    · exact ⟨rfl, rfl, rfl⟩
    · exact ⟨rfl, rfl, rfl⟩

/-- Tag processing changes neither type, value nor raw liquid content. -/
theorem processTag_tvc (oracle : String → Except String Nat) (n : LiquidNode) :
    (tagProcessor.processTag oracle n).type = n.type ∧
    (tagProcessor.processTag oracle n).value = n.value ∧
    (tagProcessor.processTag oracle n).liquidContent = n.liquidContent := by
  unfold tagProcessor.processTag
  split
  · exact ⟨rfl, rfl, rfl⟩
  · dsimp only
    split
    · split
      · exact ⟨rfl, rfl, rfl⟩
      · exact ⟨rfl, rfl, rfl⟩
    · exact ⟨rfl, rfl, rfl⟩

/-- A failure recorded by expression processing carries an error
message. -/
theorem processExpression_errOk (oracle : String → Except String Nat) (n : LiquidNode)
    (hn : n.parseSuccess = some false → (n.parseError).isSome = true) :
    (expressionProcessor.processExpression oracle n).parseSuccess = some false →
      ((expressionProcessor.processExpression oracle n).parseError).isSome = true := by
  unfold expressionProcessor.processExpression
  split
  · exact hn
  · dsimp only
    split
    · intro hfalse
      exact Bool.noConfusion (Option.some.inj hfalse)
    · intro _
      rfl

/-- A failure recorded by tag processing carries an error message. -/
theorem processTag_errOk (oracle : String → Except String Nat) (n : LiquidNode)
    (hn : n.parseSuccess = some false → (n.parseError).isSome = true) :
    (tagProcessor.processTag oracle n).parseSuccess = some false →
      ((tagProcessor.processTag oracle n).parseError).isSome = true := by
  unfold tagProcessor.processTag
  split
  · exact hn
  · dsimp only
    split
    · split
      · intro hfalse
        exact Bool.noConfusion (Option.some.inj hfalse)
      · intro _
        rfl
    · intro hfalse
      exact Bool.noConfusion (Option.some.inj hfalse)

/-- Reading a mapped list at an in-range index applies the function to
the original element. -/
theorem map_getD_lt {α β : Type} [Inhabited α] [Inhabited β] (f : α → β)
    (l : List α) (i : Nat) (h : i < l.length) :
    (l.map f).getD i default = f (l.getD i default) := by
  rw [List.getD_eq_getElem _ _ (by rw [List.length_map]; exact h),
    List.getD_eq_getElem _ _ h, List.getElem_map]

/-- The two per-node processing steps change neither type, value nor raw
liquid content. -/
theorem mapSteps_tvc (oracle : String → Except String Nat) (n : LiquidNode) :
    ((fun x => if x.type == "liquidTag" then tagProcessor.processTag oracle x else x)
      ((fun x => if x.type == "liquidExpression" then expressionProcessor.processExpression oracle x else x) n)).type = n.type ∧
    ((fun x => if x.type == "liquidTag" then tagProcessor.processTag oracle x else x)
      ((fun x => if x.type == "liquidExpression" then expressionProcessor.processExpression oracle x else x) n)).value = n.value ∧
    ((fun x => if x.type == "liquidTag" then tagProcessor.processTag oracle x else x)
      ((fun x => if x.type == "liquidExpression" then expressionProcessor.processExpression oracle x else x) n)).liquidContent = n.liquidContent := by
  dsimp only
  by_cases he : (n.type == "liquidExpression") = true
  · rw [if_pos he]
    by_cases ht : ((expressionProcessor.processExpression oracle n).type == "liquidTag") = true
    · rw [if_pos ht]
      have h1 := processTag_tvc oracle (expressionProcessor.processExpression oracle n)
      have h2 := processExpression_tvc oracle n
      exact ⟨h1.1.trans h2.1, h1.2.1.trans h2.2.1, h1.2.2.trans h2.2.2⟩
    · rw [if_neg ht]
      exact processExpression_tvc oracle n
  · rw [if_neg he]
    by_cases ht : (n.type == "liquidTag") = true
    · rw [if_pos ht]
      exact processTag_tvc oracle n
    · rw [if_neg ht]
      exact ⟨rfl, rfl, rfl⟩

/-- A failure recorded by the two per-node processing steps carries an
error message. -/
theorem mapSteps_errOk (oracle : String → Except String Nat) (n : LiquidNode)
    (hn : n.parseSuccess = some false → (n.parseError).isSome = true) :
    ((fun x => if x.type == "liquidTag" then tagProcessor.processTag oracle x else x)
      ((fun x => if x.type == "liquidExpression" then expressionProcessor.processExpression oracle x else x) n)).parseSuccess = some false →
    (((fun x => if x.type == "liquidTag" then tagProcessor.processTag oracle x else x)
      ((fun x => if x.type == "liquidExpression" then expressionProcessor.processExpression oracle x else x) n)).parseError).isSome = true := by
  dsimp only
  by_cases he : (n.type == "liquidExpression") = true
  · rw [if_pos he]
    by_cases ht : ((expressionProcessor.processExpression oracle n).type == "liquidTag") = true
    · rw [if_pos ht]
      exact processTag_errOk oracle _ (processExpression_errOk oracle n hn)
    · rw [if_neg ht]
      exact processExpression_errOk oracle n hn
  · rw [if_neg he]
    by_cases ht : (n.type == "liquidTag") = true
    · rw [if_pos ht]
      exact processTag_errOk oracle n hn
    · rw [if_neg ht]
      exact hn

end GitStuffServer
namespace GitStuffServer

/-- One validation entry changes nothing but parse outcome and error. -/
theorem vbaCheckEntry_proj {γ : Type} (proj : LiquidNode → γ)
    (hproj : ∀ (n : LiquidNode) (a : Option String) (b : Option Bool),
      proj { n with parseError := a, parseSuccess := b } = proj n)
    (em : List (String × List Nat)) (entry : String × List Nat)
    (ns : List LiquidNode) (i : Nat) :
    proj ((liquidAstProcessor.vbaCheckEntry em ns entry).getD i default) =
      proj (ns.getD i default) := by
  unfold liquidAstProcessor.vbaCheckEntry
  dsimp only
  split
  · split
    · rw [foldl_set_proj proj _ (fun j => j)
        (by intro a b; right; exact ⟨_, rfl, hproj _ _ _⟩)]
    · rw [foldl_set_proj proj _ (fun j => j)
        (by intro a b; right; exact ⟨_, rfl, hproj _ _ _⟩)]
  · rfl

/-- One validation entry preserves error-message coverage of recorded
failures. -/
theorem vbaCheckEntry_errOk (em : List (String × List Nat))
    (entry : String × List Nat) (ns : List LiquidNode)
    (h : ∀ i, (ns.getD i default).parseSuccess = some false →
      ((ns.getD i default).parseError).isSome = true) (i : Nat) :
    ((liquidAstProcessor.vbaCheckEntry em ns entry).getD i default).parseSuccess = some false →
      (((liquidAstProcessor.vbaCheckEntry em ns entry).getD i default).parseError).isSome = true := by
  unfold liquidAstProcessor.vbaCheckEntry
  dsimp only
  split
  · split
    · exact foldl_set_pred
        (fun n => n.parseSuccess = some false → (n.parseError).isSome = true) _ (fun j => j)
        (by intro a b; right; exact ⟨_, rfl, fun _ _ => rfl⟩) _ _ h i
    · exact foldl_set_pred
        (fun n => n.parseSuccess = some false → (n.parseError).isSome = true) _ (fun j => j)
        (by intro a b; right; exact ⟨_, rfl, fun _ _ => rfl⟩) _ _ h i
  · exact h i

/-- One validation entry preserves the length. -/
theorem vbaCheckEntry_length (em : List (String × List Nat))
    (entry : String × List Nat) (ns : List LiquidNode) :
    (liquidAstProcessor.vbaCheckEntry em ns entry).length = ns.length := by
  unfold liquidAstProcessor.vbaCheckEntry
  dsimp only
  split
  · split
    · rw [foldl_set_length _ (fun j => j) (by intro a b; right; exact ⟨_, rfl⟩)]
    · rw [foldl_set_length _ (fun j => j) (by intro a b; right; exact ⟨_, rfl⟩)]
  · rfl

/-- The validation pass changes nothing but parse outcome and error. -/
theorem validate_proj {γ : Type} (proj : LiquidNode → γ)
    (hproj : ∀ (n : LiquidNode) (a : Option String) (b : Option Bool),
      proj { n with parseError := a, parseSuccess := b } = proj n)
    (ns : List LiquidNode) (i : Nat) :
    proj ((liquidAstProcessor.validateBlockAssociations ns).getD i default) =
      proj (ns.getD i default) := by
  unfold liquidAstProcessor.validateBlockAssociations
  dsimp only
  exact foldl_pointwise_proj proj _
    (fun ms e j => vbaCheckEntry_proj proj hproj _ e ms j) _ _ i

/-- The validation pass preserves error-message coverage of recorded
failures. -/
theorem validate_errOk (ns : List LiquidNode)
    (h : ∀ i, (ns.getD i default).parseSuccess = some false →
      ((ns.getD i default).parseError).isSome = true) (i : Nat) :
    ((liquidAstProcessor.validateBlockAssociations ns).getD i default).parseSuccess = some false →
      (((liquidAstProcessor.validateBlockAssociations ns).getD i default).parseError).isSome = true := by
  unfold liquidAstProcessor.validateBlockAssociations
  dsimp only
  exact foldl_pointwise_pred
    (fun n => n.parseSuccess = some false → (n.parseError).isSome = true) _
    (fun ms e hm j => vbaCheckEntry_errOk _ e ms hm j) _ _ h i

/-- The validation pass preserves the length. -/
theorem validate_length (ns : List LiquidNode) :
    (liquidAstProcessor.validateBlockAssociations ns).length = ns.length := by
  unfold liquidAstProcessor.validateBlockAssociations
  dsimp only
  exact foldl_pointwise_length _ (fun ms e => vbaCheckEntry_length _ e ms) _ _

/-- The full pass preserves the node count. -/
theorem processLiquidNodes_length (oracle : String → Except String Nat)
    (supply : Nat → String) (counter0 : Nat) (ns : List LiquidNode) :
    (liquidAstProcessor.processLiquidNodes oracle supply counter0 ns).length = ns.length := by
  unfold liquidAstProcessor.processLiquidNodes
  dsimp only
  split
  · rw [validate_length, associateBlockTags_length, List.length_map, List.length_map]
  · rw [List.length_map, List.length_map]

/-- The full pass changes neither type, value nor raw liquid content of
any node. -/
theorem processLiquidNodes_tvc (oracle : String → Except String Nat)
    (supply : Nat → String) (counter0 : Nat) (ns : List LiquidNode) (i : Nat) :
    ((liquidAstProcessor.processLiquidNodes oracle supply counter0 ns).getD i default).type =
      (ns.getD i default).type ∧
    ((liquidAstProcessor.processLiquidNodes oracle supply counter0 ns).getD i default).value =
      (ns.getD i default).value ∧
    ((liquidAstProcessor.processLiquidNodes oracle supply counter0 ns).getD i default).liquidContent =
      (ns.getD i default).liquidContent := by
  have hstep2 : ∀ j,
      (((ns.map (fun n => if n.type == "liquidExpression" then expressionProcessor.processExpression oracle n else n)).map
        (fun n => if n.type == "liquidTag" then tagProcessor.processTag oracle n else n)).getD j default).type =
        (ns.getD j default).type ∧
      (((ns.map (fun n => if n.type == "liquidExpression" then expressionProcessor.processExpression oracle n else n)).map
        (fun n => if n.type == "liquidTag" then tagProcessor.processTag oracle n else n)).getD j default).value =
        (ns.getD j default).value ∧
      (((ns.map (fun n => if n.type == "liquidExpression" then expressionProcessor.processExpression oracle n else n)).map
        (fun n => if n.type == "liquidTag" then tagProcessor.processTag oracle n else n)).getD j default).liquidContent =
        (ns.getD j default).liquidContent := by
    intro j
    by_cases hlen : j < ns.length
    · rw [map_getD_lt _ _ j (by rw [List.length_map]; exact hlen), map_getD_lt _ _ j hlen]
      exact mapSteps_tvc oracle (ns.getD j default)
    · rw [List.getD_eq_default _ _ (by rw [List.length_map, List.length_map]; omega),
        List.getD_eq_default _ _ (by omega)]
      exact ⟨rfl, rfl, rfl⟩
  unfold liquidAstProcessor.processLiquidNodes
  dsimp only
  split
  · have hval1 := validate_proj (fun n => n.type) (fun n a b => rfl)
      ((blockAssociator.associateBlockTags supply counter0
        ((ns.map (fun n => if n.type == "liquidExpression" then expressionProcessor.processExpression oracle n else n)).map
          (fun n => if n.type == "liquidTag" then tagProcessor.processTag oracle n else n))).nodes) i
    have hval2 := validate_proj (fun n => n.value) (fun n a b => rfl)
      ((blockAssociator.associateBlockTags supply counter0
        ((ns.map (fun n => if n.type == "liquidExpression" then expressionProcessor.processExpression oracle n else n)).map
          (fun n => if n.type == "liquidTag" then tagProcessor.processTag oracle n else n))).nodes) i
    have hval3 := validate_proj (fun n => n.liquidContent) (fun n a b => rfl)
      ((blockAssociator.associateBlockTags supply counter0
        ((ns.map (fun n => if n.type == "liquidExpression" then expressionProcessor.processExpression oracle n else n)).map
          (fun n => if n.type == "liquidTag" then tagProcessor.processTag oracle n else n))).nodes) i
    have hassoc := associateBlockTags_typeContent supply counter0
      ((ns.map (fun n => if n.type == "liquidExpression" then expressionProcessor.processExpression oracle n else n)).map
        (fun n => if n.type == "liquidTag" then tagProcessor.processTag oracle n else n)) i
    have hassocv := associateBlockTags_value supply counter0
      ((ns.map (fun n => if n.type == "liquidExpression" then expressionProcessor.processExpression oracle n else n)).map
        (fun n => if n.type == "liquidTag" then tagProcessor.processTag oracle n else n)) i
    refine ⟨?_, ?_, ?_⟩
    · rw [hval1, hassoc.1]
      exact (hstep2 i).1
    · rw [hval2, hassocv]
      exact (hstep2 i).2.1
    · rw [hval3, hassoc.2]
      exact (hstep2 i).2.2
  · exact hstep2 i

/-- Every failure the full pass records carries an error message,
provided the input satisfies the same discipline. -/
theorem processLiquidNodes_errOk (oracle : String → Except String Nat)
    (supply : Nat → String) (counter0 : Nat) (ns : List LiquidNode)
    (h : ∀ i, (ns.getD i default).parseSuccess = some false →
      ((ns.getD i default).parseError).isSome = true) (i : Nat) :
    ((liquidAstProcessor.processLiquidNodes oracle supply counter0 ns).getD i default).parseSuccess = some false →
      (((liquidAstProcessor.processLiquidNodes oracle supply counter0 ns).getD i default).parseError).isSome = true := by
  have hstep2 : ∀ j,
      (((ns.map (fun n => if n.type == "liquidExpression" then expressionProcessor.processExpression oracle n else n)).map
        (fun n => if n.type == "liquidTag" then tagProcessor.processTag oracle n else n)).getD j default).parseSuccess = some false →
      ((((ns.map (fun n => if n.type == "liquidExpression" then expressionProcessor.processExpression oracle n else n)).map
        (fun n => if n.type == "liquidTag" then tagProcessor.processTag oracle n else n)).getD j default).parseError).isSome = true := by
    intro j
    by_cases hlen : j < ns.length
    · rw [map_getD_lt _ _ j (by rw [List.length_map]; exact hlen), map_getD_lt _ _ j hlen]
      exact mapSteps_errOk oracle (ns.getD j default) (h j)
    · rw [List.getD_eq_default _ _ (by rw [List.length_map, List.length_map]; omega)]
      intro hfalse
      exact Option.noConfusion hfalse
  unfold liquidAstProcessor.processLiquidNodes
  dsimp only
  split
  · exact validate_errOk _ (associateBlockTags_errOk supply counter0 _ hstep2) i
  · exact hstep2 i

/-- C8.  The full processing pass of the orchestrator is a total
function of the node list: tokenized nodes flow through expression
processing, tag processing, block association and validation, every
engine parse going through the oracle that absorbs engine exceptions
exactly as the try-catch blocks of the source do, so the pass completes
on every input, well formed or not.  On a clean input carrying no prior
parse annotations, the pass preserves the node count and leaves the type,
value and raw liquid content of every node untouched, and every node it
marks as failed carries an error message: failures are recorded only as
per-node annotations on the offending nodes. -/
theorem pipeline_total_errors_annotated (oracle : String → Except String Nat)
    (supply : Nat → String) (counter0 : Nat) (ns : List LiquidNode)
    (hclean : ns.all (fun n => n.parseSuccess == none && n.parseError == none) = true) :
    (liquidAstProcessor.processLiquidNodes oracle supply counter0 ns).length = ns.length ∧
    (∀ i, ((liquidAstProcessor.processLiquidNodes oracle supply counter0 ns).getD i default).type =
        (ns.getD i default).type ∧
      ((liquidAstProcessor.processLiquidNodes oracle supply counter0 ns).getD i default).value =
        (ns.getD i default).value ∧
      ((liquidAstProcessor.processLiquidNodes oracle supply counter0 ns).getD i default).liquidContent =
        (ns.getD i default).liquidContent) ∧
    (∀ i, ((liquidAstProcessor.processLiquidNodes oracle supply counter0 ns).getD i default).parseSuccess = some false →
      (((liquidAstProcessor.processLiquidNodes oracle supply counter0 ns).getD i default).parseError).isSome = true) := by
  have hps : ∀ i, (ns.getD i default).parseSuccess = some false →
      ((ns.getD i default).parseError).isSome = true := by
    intro i
    by_cases hlen : i < ns.length
    · have hm := List.all_eq_true.mp hclean (ns.getD i default)
        (by rw [List.getD_eq_getElem _ _ hlen]; exact List.getElem_mem _)
      simp only [Bool.and_eq_true, beq_iff_eq] at hm
      intro hfalse
      rw [hm.1] at hfalse
      exact Option.noConfusion hfalse
    · rw [List.getD_eq_default _ _ (by omega)]
      intro hfalse
      exact Option.noConfusion hfalse
  exact ⟨processLiquidNodes_length oracle supply counter0 ns,
    fun i => processLiquidNodes_tvc oracle supply counter0 ns i,
    fun i => processLiquidNodes_errOk oracle supply counter0 ns hps i⟩

/-- Witness for the pipeline claim at the malformed mismatched-block
document: the tokenizer output is clean, and the theorem applies. -/
theorem pipeline_total_errors_annotated_witness :
    (mismatchNodes.all (fun n => n.parseSuccess == none && n.parseError == none) = true) ∧
    ((liquidAstProcessor.processLiquidNodes okOracle natSupply 0 mismatchNodes).length =
        mismatchNodes.length ∧
      (∀ i, ((liquidAstProcessor.processLiquidNodes okOracle natSupply 0 mismatchNodes).getD i default).type =
          (mismatchNodes.getD i default).type ∧
        ((liquidAstProcessor.processLiquidNodes okOracle natSupply 0 mismatchNodes).getD i default).value =
          (mismatchNodes.getD i default).value ∧
        ((liquidAstProcessor.processLiquidNodes okOracle natSupply 0 mismatchNodes).getD i default).liquidContent =
          (mismatchNodes.getD i default).liquidContent) ∧
      (∀ i, ((liquidAstProcessor.processLiquidNodes okOracle natSupply 0 mismatchNodes).getD i default).parseSuccess = some false →
        (((liquidAstProcessor.processLiquidNodes okOracle natSupply 0 mismatchNodes).getD i default).parseError).isSome = true)) :=
  ⟨by decide, pipeline_total_errors_annotated okOracle natSupply 0 mismatchNodes (by decide)⟩

end GitStuffServer
namespace GitStuffServer

/-- A key absent from every entry is not found. -/
theorem mapGetKey_eq_none (m : List (String × List Nat)) (k : String)
    (h : ∀ ent ∈ m, ent.1 ≠ k) : blockAssociator.mapGetKey m k = none := by
  unfold blockAssociator.mapGetKey
  rw [List.find?_eq_none.mpr]
  · rfl
  · intro ent hent
    simp only [beq_iff_eq]
    exact h ent hent

/-- A found value comes with its key as a map entry. -/
theorem mapGetKey_mem_kv (m : List (String × List Nat)) (k : String) (v : List Nat)
    (h : blockAssociator.mapGetKey m k = some v) : (k, v) ∈ m := by
  unfold blockAssociator.mapGetKey at h
  cases hf : m.find? (fun e => e.1 == k) with
  | none => rw [hf] at h; cases h
  | some ent =>
    rw [hf] at h
    simp at h
    have hmem := List.mem_of_find?_eq_some hf
    have hkey : ent.1 = k := by
      have := List.find?_some hf
      simpa using this
    have : ent = (k, v) := by
      cases h
      rw [← hkey]
    rw [← this]
    exact hmem

/-- Setting an absent key appends the entry. -/
theorem mapSetKey_append_fresh (m : List (String × List Nat)) (k : String)
    (v : List Nat) (h : ∀ ent ∈ m, ent.1 ≠ k) :
    blockAssociator.mapSetKey m k v = m ++ [(k, v)] := by
  induction m with
  | nil => rfl
  | cons e rest ih =>
    unfold blockAssociator.mapSetKey
    rw [if_neg (h e (List.mem_cons_self _ _))]
    rw [ih (fun ent hent => h ent (List.mem_cons_of_mem _ hent))]
    rfl

/-- Looking up a key past entries that all miss it. -/
theorem mapGetKey_append_right (m : List (String × List Nat)) (k : String)
    (v : List Nat) (h : ∀ ent ∈ m, ent.1 ≠ k) :
    blockAssociator.mapGetKey (m ++ [(k, v)]) k = some v := by
  induction m with
  | nil =>
    unfold blockAssociator.mapGetKey
    rw [List.nil_append, List.find?_cons_of_pos _ (by simp)]
    rfl
  | cons e rest ih =>
    unfold blockAssociator.mapGetKey at ih ⊢
    rw [List.cons_append,
      List.find?_cons_of_neg _ (by simp only [beq_iff_eq]; exact h e (List.mem_cons_self _ _))]
    exact ih (fun ent hent => h ent (List.mem_cons_of_mem _ hent))

/-- Appending entries does not change a successful lookup. -/
theorem mapGetKey_append_left (m l2 : List (String × List Nat)) (k : String)
    (v : List Nat) (h : blockAssociator.mapGetKey m k = some v) :
    blockAssociator.mapGetKey (m ++ l2) k = some v := by
  unfold blockAssociator.mapGetKey at h ⊢
  cases hf : m.find? (fun e => e.1 == k) with
  | none => rw [hf] at h; cases h
  | some ent =>
    rw [hf] at h
    rw [List.find?_append, hf]
    exact h

/-- Setting a key stores its value. -/
theorem mapSetKey_get_self (m : List (String × List Nat)) (k : String)
    (v : List Nat) :
    blockAssociator.mapGetKey (blockAssociator.mapSetKey m k v) k = some v := by
  induction m with
  | nil =>
    unfold blockAssociator.mapSetKey blockAssociator.mapGetKey
    rw [List.find?_cons_of_pos _ (by simp)]
    rfl
  | cons e rest ih =>
    unfold blockAssociator.mapSetKey
    by_cases he : e.1 = k
    · rw [if_pos he]
      unfold blockAssociator.mapGetKey
      rw [List.find?_cons_of_pos _ (by simp)]
      rfl
    · rw [if_neg he]
      unfold blockAssociator.mapGetKey at ih ⊢
      rw [List.find?_cons_of_neg _ (by simp only [beq_iff_eq]; exact he)]
      exact ih

/-- Setting a key leaves other lookups unchanged. -/
theorem mapSetKey_get_ne (m : List (String × List Nat)) (k : String)
    (v : List Nat) (k2 : String) (h : k2 ≠ k) :
    blockAssociator.mapGetKey (blockAssociator.mapSetKey m k v) k2 =
      blockAssociator.mapGetKey m k2 := by
  induction m with
  | nil =>
    unfold blockAssociator.mapSetKey blockAssociator.mapGetKey
    rw [List.find?_cons_of_neg _
      (by simp only [beq_iff_eq]; exact fun hc => h hc.symm)]
  | cons e rest ih =>
    unfold blockAssociator.mapSetKey
    by_cases he : e.1 = k
    · rw [if_pos he]
      unfold blockAssociator.mapGetKey
      rw [List.find?_cons_of_neg _
        (by simp only [beq_iff_eq]; exact fun hc => h hc.symm)]
      rw [List.find?_cons_of_neg _
        (by simp only [beq_iff_eq]; rw [he]; exact fun hc => h hc.symm)]
    · rw [if_neg he]
      unfold blockAssociator.mapGetKey at ih ⊢
      by_cases he2 : e.1 = k2
      · rw [List.find?_cons_of_pos _ (by simp only [beq_iff_eq]; exact he2),
          List.find?_cons_of_pos _ (by simp only [beq_iff_eq]; exact he2)]
      · rw [List.find?_cons_of_neg _ (by simp only [beq_iff_eq]; exact he2),
          List.find?_cons_of_neg _ (by simp only [beq_iff_eq]; exact he2)]
        exact ih

/-- Setting a present key does not change the key list. -/
theorem mapSetKey_keys_of_present (m : List (String × List Nat)) (k : String)
    (v w : List Nat) (h : blockAssociator.mapGetKey m k = some w) :
    (blockAssociator.mapSetKey m k v).map (fun ent => ent.1) =
      m.map (fun ent => ent.1) := by
  induction m with
  | nil => unfold blockAssociator.mapGetKey at h; cases h
  | cons e rest ih =>
    unfold blockAssociator.mapSetKey
    by_cases he : e.1 = k
    · rw [if_pos he]
      simp [he]
    · rw [if_neg he]
      unfold blockAssociator.mapGetKey at h ih
      rw [List.find?_cons_of_neg] at h
      · simp only [List.map_cons]
        rw [ih h]
      · simp only [beq_iff_eq]
        exact he

/-- An entry of a map after a key update with a distinct key was already
present. -/
theorem mem_mapSetKey_elim (m : List (String × List Nat)) (k : String)
    (v : List Nat) (ent : String × List Nat)
    (h : ent ∈ blockAssociator.mapSetKey m k v) (hne : ent.1 ≠ k) : ent ∈ m := by
  induction m with
  | nil =>
    unfold blockAssociator.mapSetKey at h
    rcases List.mem_singleton.mp h with h1
    rw [h1] at hne
    exact absurd rfl hne
  | cons e rest ih =>
    unfold blockAssociator.mapSetKey at h
    by_cases he : e.1 = k
    · rw [if_pos he] at h
      rcases List.mem_cons.mp h with h1 | h2
      · rw [h1] at hne
        exact absurd rfl hne
      · exact List.mem_cons_of_mem _ h2
    · rw [if_neg he] at h
      rcases List.mem_cons.mp h with h1 | h2
      · rw [h1]; exact List.mem_cons_self _ _
      · exact List.mem_cons_of_mem _ (ih h2)

/-- An entry with a distinct key survives a key update. -/
theorem mem_mapSetKey_of_ne (m : List (String × List Nat)) (k : String)
    (v : List Nat) (ent : String × List Nat) (h : ent ∈ m) (hne : ent.1 ≠ k) :
    ent ∈ blockAssociator.mapSetKey m k v := by
  induction m with
  | nil => cases h
  | cons e rest ih =>
    unfold blockAssociator.mapSetKey
    rcases List.mem_cons.mp h with h1 | h2
    · by_cases he : e.1 = k
      · rw [h1] at hne
        exact absurd he hne
      · rw [if_neg he, h1]
        exact List.mem_cons_self _ _
    · by_cases he : e.1 = k
      · rw [if_pos he]
        exact List.mem_cons_of_mem _ h2
      · rw [if_neg he]
        exact List.mem_cons_of_mem _ (ih h2)

/-- The entry written by a key update is a member. -/
theorem mem_mapSetKey_self (m : List (String × List Nat)) (k : String)
    (v : List Nat) : (k, v) ∈ blockAssociator.mapSetKey m k v := by
  induction m with
  | nil => exact List.mem_singleton.mpr rfl
  | cons e rest ih =>
    unfold blockAssociator.mapSetKey
    by_cases he : e.1 = k
    · rw [if_pos he]
      exact List.mem_cons_self _ _
    · rw [if_neg he]
      exact List.mem_cons_of_mem _ ih

/-- A popped frame has the requested type and the stack splits around
it. -/
theorem popFrame_perm : ∀ (stack : List (String × Nat × String)) (t : String)
    (fr : String × Nat × String) (rest : List (String × Nat × String)),
    blockAssociator.popFrame stack t = some (fr, rest) →
    fr.1 = t ∧ stack.Perm (fr :: rest) := by
  intro stack
  induction stack with
  | nil => intro t fr rest h; simp [blockAssociator.popFrame] at h
  | cons f rest0 ih =>
    intro t fr rest h
    by_cases heq : f.1 = t
    · simp only [blockAssociator.popFrame, heq, if_true] at h
      cases h
      exact ⟨heq, List.Perm.refl _⟩
    · simp only [blockAssociator.popFrame, heq, if_false] at h
      cases hrec : blockAssociator.popFrame rest0 t with
      | none => rw [hrec] at h; cases h
      | some pr =>
        rw [hrec] at h
        cases h
        rcases ih t pr.1 pr.2 (by rw [hrec]) with ⟨h1, h2⟩
        refine ⟨h1, ?_⟩
        exact (List.Perm.cons f h2).trans (List.Perm.swap pr.1 f pr.2)

/-- A found frame has the requested type. -/
theorem findFrame_type : ∀ (stack : List (String × Nat × String)) (t : String)
    (fr : String × Nat × String),
    blockAssociator.findFrame stack t = some fr → fr.1 = t := by
  intro stack
  induction stack with
  | nil => intro t fr h; simp [blockAssociator.findFrame] at h
  | cons f rest ih =>
    intro t fr h
    by_cases heq : f.1 = t
    · simp only [blockAssociator.findFrame, heq, if_true] at h
      cases h
      exact heq
    · simp only [blockAssociator.findFrame, heq, if_false] at h
      exact ih t fr h

/-- The minted history only grows along the scan. -/
theorem stepNode_minted_grows (supply : Nat → String)
    (st : blockAssociator.AState) (idx : Nat) :
    st.minted.IsPrefix (blockAssociator.stepNode supply st idx).minted := by
  dsimp only [blockAssociator.stepNode]
  split
  · exact List.prefix_refl _
  · split
    · exact List.prefix_append _ _
    · split
      · split
        · exact List.prefix_refl _
        · exact List.prefix_refl _
      · split
        · split
          · split
            · exact List.prefix_refl _
            · exact List.prefix_refl _
          · exact List.prefix_refl _
        · exact List.prefix_refl _

/-- The minted history only grows along the whole scan. -/
theorem stepFold_minted_grows (supply : Nat → String) :
    ∀ (l : List Nat) (st : blockAssociator.AState),
      st.minted.IsPrefix ((l.foldl (blockAssociator.stepNode supply) st).minted) := by
  intro l
  induction l with
  | nil => intro st; exact List.prefix_refl _
  | cons j rest ih =>
    intro st
    rw [List.foldl_cons]
    exact (stepNode_minted_grows supply st j).trans (ih _)

end GitStuffServer
namespace GitStuffServer

/-- Setup of a well-shaped closed entry populates the bidirectional
related lists: the start gains its continuations and end, and end and
continuations each point back to the start alone. -/
theorem setupEntry_closed (ns : List LiquidNode) (s : Nat) (conts : List Nat) (e : Nat)
    (hlen : ∀ m ∈ s :: conts ++ [e], m < ns.length)
    (hnd : (s :: conts ++ [e]).Nodup)
    (hs : astFlagStart (ns.getD s default) = true)
    (hse : astFlagEnd (ns.getD s default) = false)
    (hc : ∀ c ∈ conts, astFlagEnd (ns.getD c default) = false ∧
      astFlagCont (ns.getD c default) = true)
    (he : astFlagEnd (ns.getD e default) = true) :
    ((blockAssociator.setupEntry ns (s :: conts ++ [e])).getD s default).relatedBlockNodes =
      some (conts ++ [e]) ∧
    ((blockAssociator.setupEntry ns (s :: conts ++ [e])).getD e default).relatedBlockNodes =
      some [s] ∧
    (∀ c ∈ conts,
      ((blockAssociator.setupEntry ns (s :: conts ++ [e])).getD c default).relatedBlockNodes =
        some [s]) := by
  obtain ⟨hsnotin, hnd2⟩ := List.nodup_cons.mp hnd
  have hsc : s ∉ conts := fun h2 => hsnotin (List.mem_append_left _ h2)
  have hsne : s ≠ e := fun h2 => hsnotin (List.mem_append_right _ (h2 ▸ List.mem_singleton_self _))
  have henc : e ∉ conts := fun h2 =>
    (List.disjoint_of_nodup_append hnd2) h2 (List.mem_singleton_self _)
  have hcnd : conts.Nodup := hnd2.of_append_left
  have hslen : s < ns.length := hlen s (List.mem_cons_self _ _)
  have helen : e < ns.length := hlen e (List.mem_cons_of_mem _ (List.mem_append_right _ (List.mem_singleton_self _)))
  have hfs : (s :: (conts ++ [e])).find? (fun i => astFlagStart (ns.getD i default)) = some s :=
    List.find?_cons_of_pos _ hs
  have hfe : (s :: (conts ++ [e])).find? (fun i => astFlagEnd (ns.getD i default)) = some e := by
    have hnegs : ¬ (astFlagEnd (ns.getD s default) = true) := by
      rw [hse]; exact Bool.false_ne_true
    rw [@List.find?_cons_of_neg Nat (fun i => astFlagEnd (ns.getD i default)) s
      (conts ++ [e]) hnegs]
    have haux : ∀ cs : List Nat, (∀ c ∈ cs, astFlagEnd (ns.getD c default) = false) →
        List.find? (fun i => astFlagEnd (ns.getD i default)) (cs ++ [e]) = some e := by
      intro cs
      induction cs with
      | nil =>
        intro _
        rw [List.nil_append]
        exact List.find?_cons_of_pos _ he
      | cons c0 cs2 ih =>
        intro hcs
        have hnegc : ¬ (astFlagEnd (ns.getD c0 default) = true) := by
          rw [hcs c0 (List.mem_cons_self _ _)]; exact Bool.false_ne_true
        rw [List.cons_append, @List.find?_cons_of_neg Nat
          (fun i => astFlagEnd (ns.getD i default)) c0 (cs2 ++ [e]) hnegc]
        exact ih (fun x hx => hcs x (List.mem_cons_of_mem _ hx))
    exact haux conts (fun c h2 => (hc c h2).1)
  have hfilter : (s :: (conts ++ [e])).filter
      (fun i => (i != s) && !((some e : Option Nat) == some i) &&
        astFlagCont (ns.getD i default)) = conts := by
    have hnegs2 : ¬ (((s != s) && !((some e : Option Nat) == some s) &&
        astFlagCont (ns.getD s default)) = true) := by simp
    rw [@List.filter_cons_of_neg Nat
      (fun i => (i != s) && !((some e : Option Nat) == some i) &&
        astFlagCont (ns.getD i default)) s (conts ++ [e]) hnegs2]
    have haux2 : ∀ cs : List Nat, (∀ c ∈ cs, c ≠ s ∧ c ≠ e ∧ astFlagCont (ns.getD c default) = true) →
        List.filter (fun i => (i != s) && !((some e : Option Nat) == some i) &&
          astFlagCont (ns.getD i default)) (cs ++ [e]) = cs := by
      intro cs
      induction cs with
      | nil =>
        intro _
        have hnege : ¬ (((e != s) && !((some e : Option Nat) == some e) &&
            astFlagCont (ns.getD e default)) = true) := by simp
        rw [List.nil_append, @List.filter_cons_of_neg Nat
          (fun i => (i != s) && !((some e : Option Nat) == some i) &&
            astFlagCont (ns.getD i default)) e [] hnege]
        rfl
      | cons c0 cs2 ih =>
        intro hcs
        obtain ⟨h1, h2, h3⟩ := hcs c0 (List.mem_cons_self _ _)
        have hposc : ((c0 != s) && !((some e : Option Nat) == some c0) &&
            astFlagCont (ns.getD c0 default)) = true := by
          rw [h3]
          simp [h1, Ne.symm h2]
        rw [List.cons_append, @List.filter_cons_of_pos Nat
          (fun i => (i != s) && !((some e : Option Nat) == some i) &&
            astFlagCont (ns.getD i default)) c0 (cs2 ++ [e]) hposc]
        rw [ih (fun x hx => hcs x (List.mem_cons_of_mem _ hx))]
    exact haux2 conts (fun c h2 => ⟨fun hcc => hsc (hcc ▸ h2), fun hcc => henc (hcc ▸ h2), (hc c h2).2⟩)
  have hfoldlen : ∀ ms : List LiquidNode,
      (conts.foldl (fun acc c => acc.set c
        { acc.getD c default with relatedBlockNodes := some [s] }) ms).length = ms.length :=
    fun ms => foldl_set_length _ (fun c => c) (by intro a b; right; exact ⟨_, rfl⟩) conts ms
  have hfold_notmem : ∀ (ms : List LiquidNode) (i : Nat), i ∉ conts →
      (conts.foldl (fun acc c => acc.set c
        { acc.getD c default with relatedBlockNodes := some [s] }) ms).getD i default =
      ms.getD i default :=
    fun ms i hi => foldl_set_getD_notmem _ (fun c => c)
      (by intro a b; right; exact ⟨_, rfl⟩) conts ms i (fun b hb hbi => hi (hbi ▸ hb))
  have hfold_mem : ∀ (ms : List LiquidNode) (c : Nat), c ∈ conts → c < ms.length →
      (conts.foldl (fun acc c2 => acc.set c2
        { acc.getD c2 default with relatedBlockNodes := some [s] }) ms).getD c default =
      { ms.getD c default with relatedBlockNodes := some [s] } :=
    fun ms c hc2 hlt => foldl_apply_once
      (fun x => { x with relatedBlockNodes := some [s] }) conts ms c hcnd hc2 hlt
  simp only [List.cons_append]
  unfold blockAssociator.setupEntry
  rw [if_neg (by simp)]
  simp only [hfs]
  simp only [hfe, hfilter]
  by_cases hc0 : conts.length > 0
  · rw [if_pos hc0]
    refine ⟨?_, ?_, ?_⟩
    · rw [getD_set_ne _ _ _ _ (Ne.symm hsne)]
      rw [getD_set_self _ _ _ (by
        rw [hfoldlen, List.length_set, List.length_set]
        exact hslen)]
      rw [hfold_notmem _ s hsc]
      rw [getD_set_self _ _ _ (by rw [List.length_set]; exact hslen)]
      rw [getD_set_self _ _ _ hslen]
      simp
    · rw [getD_set_self _ _ _ (by
        rw [List.length_set, hfoldlen, List.length_set, List.length_set]
        exact helen)]
    · intro c hc2
      have hcs : c ≠ s := fun hcc => hsc (hcc ▸ hc2)
      have hce : c ≠ e := fun hcc => henc (hcc ▸ hc2)
      rw [getD_set_ne _ _ _ _ (Ne.symm hce)]
      rw [getD_set_ne _ _ _ _ (Ne.symm hcs)]
      rw [hfold_mem _ c hc2 (by
        rw [List.length_set, List.length_set]
        exact hlen c (List.mem_cons_of_mem _ (List.mem_append_left _ hc2)))]
  · have hce : conts = [] := List.length_eq_zero.mp (by omega)
    subst hce
    rw [if_neg hc0]
    refine ⟨?_, ?_, fun c hc2 => absurd hc2 (List.not_mem_nil c)⟩
    · rw [getD_set_ne _ _ _ _ (Ne.symm hsne)]
      rw [getD_set_self _ _ _ (by rw [List.length_set]; exact hslen)]
      rw [getD_set_self _ _ _ hslen]
      simp
    · rw [getD_set_self _ _ _ (by
        rw [List.length_set, List.length_set]
        exact helen)]

end GitStuffServer
namespace GitStuffServer

/-- Nodes agreeing after a reset agree on their classification flags. -/
theorem flags_of_resetNode_eq (x y : LiquidNode)
    (h : blockAssociator.resetNode x = blockAssociator.resetNode y) :
    astFlagStart x = astFlagStart y ∧ astFlagEnd x = astFlagEnd y ∧
      astFlagCont x = astFlagCont y := by
  refine ⟨?_, ?_, ?_⟩
  · have h2 := congrArg astFlagStart h
    exact h2
  · have h2 := congrArg astFlagEnd h
    exact h2
  · have h2 := congrArg astFlagCont h
    exact h2

/-- Processing further entries, each sharing our member list or disjoint
from it, preserves the populated related lists of a closed block. -/
theorem setup_post (C0 : List LiquidNode) (s : Nat) (conts : List Nat) (e : Nat)
    (hsC : astFlagStart (C0.getD s default) = true)
    (hseC : astFlagEnd (C0.getD s default) = false)
    (hcC : ∀ c ∈ conts, astFlagEnd (C0.getD c default) = false ∧
      astFlagCont (C0.getD c default) = true)
    (heC : astFlagEnd (C0.getD e default) = true)
    (hnd : (s :: conts ++ [e]).Nodup)
    (hlenC : ∀ m ∈ s :: conts ++ [e], m < C0.length) :
    ∀ (bns : List (String × List Nat)) (ms : List LiquidNode),
      (∀ ent ∈ bns, ent.2 = s :: conts ++ [e] ∨ (∀ m ∈ ent.2, m ∉ s :: conts ++ [e])) →
      (∀ i, blockAssociator.resetNode (ms.getD i default) =
        blockAssociator.resetNode (C0.getD i default)) →
      ms.length = C0.length →
      ((ms.getD s default).relatedBlockNodes = some (conts ++ [e]) ∧
        (ms.getD e default).relatedBlockNodes = some [s] ∧
        (∀ c ∈ conts, (ms.getD c default).relatedBlockNodes = some [s])) →
      ((blockAssociator.setupBlockRelationships ms bns).getD s default).relatedBlockNodes =
          some (conts ++ [e]) ∧
        ((blockAssociator.setupBlockRelationships ms bns).getD e default).relatedBlockNodes =
          some [s] ∧
        (∀ c ∈ conts,
          ((blockAssociator.setupBlockRelationships ms bns).getD c default).relatedBlockNodes =
            some [s]) := by
  intro bns
  induction bns with
  | nil =>
    intro ms _ _ _ hconcl
    exact hconcl
  | cons ent rest ih =>
    intro ms hdisj hres hlen2 hconcl
    unfold blockAssociator.setupBlockRelationships at ih ⊢
    rw [List.foldl_cons]
    apply ih
    · intro ent2 hent2
      exact hdisj ent2 (List.mem_cons_of_mem _ hent2)
    · intro i
      rw [setupEntry_resetNode]
      exact hres i
    · rw [setupEntry_length]
      exact hlen2
    · rcases hdisj ent (List.mem_cons_self _ _) with hent | hent
      · rw [hent]
        have hsM : astFlagStart (ms.getD s default) = true := by
          rw [(flags_of_resetNode_eq _ _ (hres s)).1]
          exact hsC
        have hseM : astFlagEnd (ms.getD s default) = false := by
          rw [(flags_of_resetNode_eq _ _ (hres s)).2.1]
          exact hseC
        have hcM : ∀ c ∈ conts, astFlagEnd (ms.getD c default) = false ∧
            astFlagCont (ms.getD c default) = true := by
          intro c hcmem
          constructor
          · rw [(flags_of_resetNode_eq _ _ (hres c)).2.1]
            exact (hcC c hcmem).1
          · rw [(flags_of_resetNode_eq _ _ (hres c)).2.2]
            exact (hcC c hcmem).2
        have heM : astFlagEnd (ms.getD e default) = true := by
          rw [(flags_of_resetNode_eq _ _ (hres e)).2.1]
          exact heC
        exact setupEntry_closed ms s conts e
          (fun m hm => hlen2 ▸ hlenC m hm) hnd hsM hseM hcM heM
      · have hsne : s ∉ ent.2 := fun hsent =>
          hent s hsent (List.mem_append_left _ (List.mem_cons_self _ _))
        have hene : e ∉ ent.2 := fun heent =>
          hent e heent (List.mem_append_right _ (List.mem_singleton_self _))
        refine ⟨?_, ?_, ?_⟩
        · rw [setupEntry_getD_notmem _ _ s hsne]
          exact hconcl.1
        · rw [setupEntry_getD_notmem _ _ e hene]
          exact hconcl.2.1
        · intro c hcmem
          have hcne : c ∉ ent.2 := fun hcent =>
            hent c hcent (List.mem_append_left _ (List.mem_cons_of_mem _ hcmem))
          rw [setupEntry_getD_notmem _ _ c hcne]
          exact hconcl.2.2 c hcmem

/-- The relationship setup populates the related lists of every closed
block whose entry it processes, however the other entries fall. -/
theorem setup_main (C0 : List LiquidNode) (s : Nat) (conts : List Nat) (e : Nat)
    (hsC : astFlagStart (C0.getD s default) = true)
    (hseC : astFlagEnd (C0.getD s default) = false)
    (hcC : ∀ c ∈ conts, astFlagEnd (C0.getD c default) = false ∧
      astFlagCont (C0.getD c default) = true)
    (heC : astFlagEnd (C0.getD e default) = true)
    (hnd : (s :: conts ++ [e]).Nodup)
    (hlenC : ∀ m ∈ s :: conts ++ [e], m < C0.length) :
    ∀ (bns : List (String × List Nat)) (ms : List LiquidNode),
      (∃ ent ∈ bns, ent.2 = s :: conts ++ [e]) →
      (∀ ent ∈ bns, ent.2 = s :: conts ++ [e] ∨ (∀ m ∈ ent.2, m ∉ s :: conts ++ [e])) →
      (∀ i, blockAssociator.resetNode (ms.getD i default) =
        blockAssociator.resetNode (C0.getD i default)) →
      ms.length = C0.length →
      ((blockAssociator.setupBlockRelationships ms bns).getD s default).relatedBlockNodes =
          some (conts ++ [e]) ∧
        ((blockAssociator.setupBlockRelationships ms bns).getD e default).relatedBlockNodes =
          some [s] ∧
        (∀ c ∈ conts,
          ((blockAssociator.setupBlockRelationships ms bns).getD c default).relatedBlockNodes =
            some [s]) := by
  intro bns
  induction bns with
  | nil =>
    intro ms hex _ _ _
    rcases hex with ⟨ent, hent, _⟩
    cases hent
  | cons ent rest ih =>
    intro ms hex hdisj hres hlen2
    unfold blockAssociator.setupBlockRelationships at ih ⊢
    rw [List.foldl_cons]
    by_cases hent : ent.2 = s :: conts ++ [e]
    · have hsM : astFlagStart (ms.getD s default) = true := by
        rw [(flags_of_resetNode_eq _ _ (hres s)).1]
        exact hsC
      have hseM : astFlagEnd (ms.getD s default) = false := by
        rw [(flags_of_resetNode_eq _ _ (hres s)).2.1]
        exact hseC
      have hcM : ∀ c ∈ conts, astFlagEnd (ms.getD c default) = false ∧
          astFlagCont (ms.getD c default) = true := by
        intro c hcmem
        constructor
        · rw [(flags_of_resetNode_eq _ _ (hres c)).2.1]
          exact (hcC c hcmem).1
        · rw [(flags_of_resetNode_eq _ _ (hres c)).2.2]
          exact (hcC c hcmem).2
      have heM : astFlagEnd (ms.getD e default) = true := by
        rw [(flags_of_resetNode_eq _ _ (hres e)).2.1]
        exact heC
      have hcl := setupEntry_closed ms s conts e
        (fun m hm => hlen2 ▸ hlenC m hm) hnd hsM hseM hcM heM
      rw [hent]
      have hpost := setup_post C0 s conts e hsC hseC hcC heC hnd hlenC rest
        (blockAssociator.setupEntry ms (s :: conts ++ [e]))
        (fun ent2 hent2 => hdisj ent2 (List.mem_cons_of_mem _ hent2))
        (fun i => by rw [setupEntry_resetNode]; exact hres i)
        (by rw [setupEntry_length]; exact hlen2)
        hcl
      exact hpost
    · have hdisj2 : ∀ m ∈ ent.2, m ∉ s :: conts ++ [e] := by
        rcases hdisj ent (List.mem_cons_self _ _) with h1 | h1
        · exact absurd h1 hent
        · exact h1
      have hex2 : ∃ ent2 ∈ rest, ent2.2 = s :: conts ++ [e] := by
        rcases hex with ⟨ent0, hent0, hm0⟩
        rcases List.mem_cons.mp hent0 with h1 | h1
        · rw [h1] at hm0
          exact absurd hm0 hent
        · exact ⟨ent0, h1, hm0⟩
      apply ih _ hex2
      · intro ent2 hent2
        exact hdisj ent2 (List.mem_cons_of_mem _ hent2)
      · intro i
        rw [setupEntry_resetNode]
        exact hres i
      · rw [setupEntry_length]
        exact hlen2

end GitStuffServer
namespace GitStuffServer

/-- The scan step at a node with no tag name is a no-op. -/
theorem stepNode_eq_skip1 (supply : Nat → String) (st : blockAssociator.AState)
    (idx : Nat) (h : astGetTagName (st.nodes.getD idx default) = "") :
    blockAssociator.stepNode supply st idx = st := by
  dsimp only [blockAssociator.stepNode]
  rw [if_pos h]

/-- The scan step at a node with a tag name but no role flag is a
no-op. -/
theorem stepNode_eq_skip2 (supply : Nat → String) (st : blockAssociator.AState)
    (idx : Nat) (h1 : ¬ astGetTagName (st.nodes.getD idx default) = "")
    (h2 : astFlagStart (st.nodes.getD idx default) = false)
    (h3 : astFlagEnd (st.nodes.getD idx default) = false)
    (h4 : astFlagCont (st.nodes.getD idx default) = false) :
    blockAssociator.stepNode supply st idx = st := by
  dsimp only [blockAssociator.stepNode]
  rw [if_neg h1, if_neg (by rw [h2]; exact Bool.false_ne_true),
    if_neg (by rw [h3]; exact Bool.false_ne_true),
    if_neg (by rw [h4]; exact Bool.false_ne_true)]

/-- The scan step at a block start mints an identifier, annotates the
node, pushes a frame and creates the entry. -/
theorem stepNode_eq_open (supply : Nat → String) (st : blockAssociator.AState)
    (idx : Nat) (h1 : ¬ astGetTagName (st.nodes.getD idx default) = "")
    (h2 : astFlagStart (st.nodes.getD idx default) = true) :
    blockAssociator.stepNode supply st idx =
      { st with
          nodes := st.nodes.set idx
            { st.nodes.getD idx default with
                blockId := some (astGetTagName (st.nodes.getD idx default) ++ "-" ++ supply st.counter)
                parseSuccess := some true }
          blockStack := (astGetTagName (st.nodes.getD idx default), idx,
            astGetTagName (st.nodes.getD idx default) ++ "-" ++ supply st.counter) :: st.blockStack
          blockNodes := blockAssociator.mapSetKey st.blockNodes
            (astGetTagName (st.nodes.getD idx default) ++ "-" ++ supply st.counter) [idx]
          counter := st.counter + 1
          minted := st.minted ++
            [astGetTagName (st.nodes.getD idx default) ++ "-" ++ supply st.counter] } := by
  dsimp only [blockAssociator.stepNode]
  rw [if_neg h1, if_pos h2]

/-- The scan step at a block end with a matching open frame closes the
frame, annotates the node and appends it to the entry and the matched
history. -/
theorem stepNode_eq_end_pop (supply : Nat → String) (st : blockAssociator.AState)
    (idx : Nat) (fr : String × Nat × String) (stack2 : List (String × Nat × String))
    (h1 : ¬ astGetTagName (st.nodes.getD idx default) = "")
    (h2 : astFlagStart (st.nodes.getD idx default) = false)
    (h3 : astFlagEnd (st.nodes.getD idx default) = true)
    (hpop : blockAssociator.popFrame st.blockStack
      (strDropChars (astGetTagName (st.nodes.getD idx default)) 3) = some (fr, stack2)) :
    blockAssociator.stepNode supply st idx =
      { st with
          nodes := st.nodes.set idx
            { st.nodes.getD idx default with
                blockId := some fr.2.2
                matchingBlockId := some fr.2.2
                parseSuccess := some true }
          blockStack := stack2
          blockNodes := blockAssociator.mapPushMember st.blockNodes fr.2.2 idx
          matched := st.matched ++ [(fr.2.1, idx, fr.2.2)] } := by
  dsimp only [blockAssociator.stepNode]
  rw [if_neg h1, if_neg (by rw [h2]; exact Bool.false_ne_true), if_pos h3]
  simp only [hpop]

/-- The scan step at an orphaned block end records the error. -/
theorem stepNode_eq_end_orphan (supply : Nat → String) (st : blockAssociator.AState)
    (idx : Nat)
    (h1 : ¬ astGetTagName (st.nodes.getD idx default) = "")
    (h2 : astFlagStart (st.nodes.getD idx default) = false)
    (h3 : astFlagEnd (st.nodes.getD idx default) = true)
    (hpop : blockAssociator.popFrame st.blockStack
      (strDropChars (astGetTagName (st.nodes.getD idx default)) 3) = none) :
    blockAssociator.stepNode supply st idx =
      { st with
          nodes := st.nodes.set idx
            { st.nodes.getD idx default with
                parseError := some (blockAssociator.orphanEndMsg
                  (astGetTagName (st.nodes.getD idx default)))
                parseSuccess := some false } } := by
  dsimp only [blockAssociator.stepNode]
  rw [if_neg h1, if_neg (by rw [h2]; exact Bool.false_ne_true), if_pos h3]
  simp only [hpop]

/-- The scan step at a continuation with a compatible open frame
annotates the node and appends it to the entry. -/
theorem stepNode_eq_cont_found (supply : Nat → String) (st : blockAssociator.AState)
    (idx : Nat) (ct : String) (fr : String × Nat × String)
    (h1 : ¬ astGetTagName (st.nodes.getD idx default) = "")
    (h2 : astFlagStart (st.nodes.getD idx default) = false)
    (h3 : astFlagEnd (st.nodes.getD idx default) = false)
    (h4 : astFlagCont (st.nodes.getD idx default) = true)
    (hfc : blockAssociator.findCompatibleBlockType
      (astGetTagName (st.nodes.getD idx default)) = some ct)
    (hff : blockAssociator.findFrame st.blockStack ct = some fr) :
    blockAssociator.stepNode supply st idx =
      { st with
          nodes := st.nodes.set idx
            { st.nodes.getD idx default with
                blockId := some fr.2.2
                matchingBlockId := some fr.2.2
                parseSuccess := some true }
          blockNodes := blockAssociator.mapPushMember st.blockNodes fr.2.2 idx } := by
  dsimp only [blockAssociator.stepNode]
  rw [if_neg h1, if_neg (by rw [h2]; exact Bool.false_ne_true),
    if_neg (by rw [h3]; exact Bool.false_ne_true), if_pos h4]
  simp only [hfc, hff]

/-- The scan step at a continuation with no compatible open frame
records the error. -/
theorem stepNode_eq_cont_nofr (supply : Nat → String) (st : blockAssociator.AState)
    (idx : Nat) (ct : String)
    (h1 : ¬ astGetTagName (st.nodes.getD idx default) = "")
    (h2 : astFlagStart (st.nodes.getD idx default) = false)
    (h3 : astFlagEnd (st.nodes.getD idx default) = false)
    (h4 : astFlagCont (st.nodes.getD idx default) = true)
    (hfc : blockAssociator.findCompatibleBlockType
      (astGetTagName (st.nodes.getD idx default)) = some ct)
    (hff : blockAssociator.findFrame st.blockStack ct = none) :
    blockAssociator.stepNode supply st idx =
      { st with
          nodes := st.nodes.set idx
            { st.nodes.getD idx default with
                parseError := some (blockAssociator.orphanContMsg
                  (astGetTagName (st.nodes.getD idx default)))
                parseSuccess := some false } } := by
  dsimp only [blockAssociator.stepNode]
  rw [if_neg h1, if_neg (by rw [h2]; exact Bool.false_ne_true),
    if_neg (by rw [h3]; exact Bool.false_ne_true), if_pos h4]
  simp only [hfc, hff]

/-- The scan step at a continuation of unknown type records the error. -/
theorem stepNode_eq_cont_unknown (supply : Nat → String) (st : blockAssociator.AState)
    (idx : Nat)
    (h1 : ¬ astGetTagName (st.nodes.getD idx default) = "")
    (h2 : astFlagStart (st.nodes.getD idx default) = false)
    (h3 : astFlagEnd (st.nodes.getD idx default) = false)
    (h4 : astFlagCont (st.nodes.getD idx default) = true)
    (hfc : blockAssociator.findCompatibleBlockType
      (astGetTagName (st.nodes.getD idx default)) = none) :
    blockAssociator.stepNode supply st idx =
      { st with
          nodes := st.nodes.set idx
            { st.nodes.getD idx default with
                parseError := some (blockAssociator.unknownContMsg
                  (astGetTagName (st.nodes.getD idx default)))
                parseSuccess := some false } } := by
  dsimp only [blockAssociator.stepNode]
  rw [if_neg h1, if_neg (by rw [h2]; exact Bool.false_ne_true),
    if_neg (by rw [h3]; exact Bool.false_ne_true), if_pos h4]
  simp only [hfc]

/-- One scan step preserves the node-list length. -/
theorem stepNode_nodes_length (supply : Nat → String) (st : blockAssociator.AState)
    (idx : Nat) :
    (blockAssociator.stepNode supply st idx).nodes.length = st.nodes.length := by
  rcases stepNode_nodes_resetNode supply st idx with heq | ⟨v, heq, _⟩
  · rw [heq]
  · rw [heq, List.length_set]

/-- A pushed member list keeps present keys and updates only its own. -/
theorem mapPushMember_eq_set (m : List (String × List Nat)) (k : String) (i : Nat)
    (v : List Nat) (h : blockAssociator.mapGetKey m k = some v) :
    blockAssociator.mapPushMember m k i = blockAssociator.mapSetKey m k (v ++ [i]) := by
  unfold blockAssociator.mapPushMember
  rw [h]

/-- With distinct keys, a map entry carrying the updated key is the
updated entry. -/
theorem mem_mapSetKey_key_eq (m : List (String × List Nat)) (k : String)
    (v : List Nat) (hnd : (m.map (fun ent => ent.1)).Nodup)
    (ent : String × List Nat) (h : ent ∈ blockAssociator.mapSetKey m k v)
    (hk : ent.1 = k) : ent = (k, v) := by
  induction m with
  | nil =>
    unfold blockAssociator.mapSetKey at h
    exact List.mem_singleton.mp h
  | cons e0 rest ih =>
    unfold blockAssociator.mapSetKey at h
    simp only [List.map_cons, List.nodup_cons] at hnd
    by_cases he : e0.1 = k
    · rw [if_pos he] at h
      rcases List.mem_cons.mp h with h1 | h2
      · exact h1
      · exfalso
        apply hnd.1
        rw [he, ← hk]
        exact List.mem_map_of_mem _ h2
    · rw [if_neg he] at h
      rcases List.mem_cons.mp h with h1 | h2
      · exfalso
        apply he
        rw [h1] at hk
        exact hk
      · exact ih hnd.2 h2

end GitStuffServer
namespace GitStuffServer

/-- An open entry survives a state change preserving its start
annotation and its frame. -/
theorem openEntry_mono (C : List LiquidNode) (st st2 : blockAssociator.AState)
    (k : String) (s : Nat) (conts : List Nat) (h : OpenEntry C st k s conts)
    (hs : (st2.nodes.getD s default).blockId = (st.nodes.getD s default).blockId)
    (hstk : ∀ t, (t, s, k) ∈ st.blockStack → (t, s, k) ∈ st2.blockStack) :
    OpenEntry C st2 k s conts := by
  obtain ⟨h1, h2, h3, h4, t, h5⟩ := h
  exact ⟨h1, by rw [hs]; exact h2, h3, h4, t, hstk t h5⟩

/-- A closed entry survives a state change preserving its annotations,
its matched record, and the absence of its frame. -/
theorem closedEntry_mono (C : List LiquidNode) (st st2 : blockAssociator.AState)
    (k : String) (s : Nat) (conts : List Nat) (e : Nat)
    (h : ClosedEntry C st k s conts e)
    (hs : (st2.nodes.getD s default).blockId = (st.nodes.getD s default).blockId)
    (he2 : (st2.nodes.getD e default).matchingBlockId =
      (st.nodes.getD e default).matchingBlockId)
    (hm : ∀ p ∈ st.matched, p ∈ st2.matched)
    (hstk : ∀ fr ∈ st2.blockStack, fr ∈ st.blockStack ∨ fr.2.2 ≠ k) :
    ClosedEntry C st2 k s conts e := by
  obtain ⟨h1, h2, h3, h4, h5, h6, h7, h8, h9⟩ := h
  refine ⟨h1, by rw [hs]; exact h2, h3, h4, h5, h6, by rw [he2]; exact h7, hm _ h8, ?_⟩
  intro fr hfr
  rcases hstk fr hfr with hin | hne
  · exact h9 fr hin
  · exact hne

/-- A state write at a non-member index, changing nothing else,
preserves the scan invariant. -/
theorem scanInv_set_only (C : List LiquidNode) (st : blockAssociator.AState)
    (idx : Nat) (v : LiquidNode) (hinv : ScanInv C st)
    (hun : ∀ ent ∈ st.blockNodes, idx ∉ ent.2)
    (hres : blockAssociator.resetNode v =
      blockAssociator.resetNode (st.nodes.getD idx default)) :
    ScanInv C { st with nodes := st.nodes.set idx v } := by
  obtain ⟨hIK, hIP, hIE, hISK, hISD, hIC, hIM2⟩ := hinv
  have hgetD : ∀ (m : Nat), m ≠ idx →
      ((st.nodes.set idx v).getD m default) = st.nodes.getD m default := by
    intro m hm
    exact getD_set_ne _ _ _ _ (fun h2 => hm h2.symm)
  refine ⟨hIK, ?_, ?_, hISK, hISD, ?_, hIM2⟩
  · intro i
    rw [getD_set_eq_ite]
    split
    · rename_i hcond
      rw [← hcond.1]
      rw [hres]
      exact hIP idx
    · exact hIP i
  · intro ent hent
    rcases hIE ent hent with ⟨s, conts, hm, ho⟩ | ⟨s, conts, e, hm, hc⟩
    · have hsmem : s ∈ ent.2 := by rw [hm]; exact List.mem_cons_self _ _
      exact Or.inl ⟨s, conts, hm, openEntry_mono C st _ _ s conts ho
        (hgetD s (fun h2 => hun ent hent (h2 ▸ hsmem)) ▸ rfl) (fun t hf => hf)⟩
    · have hsmem : s ∈ ent.2 := by
        rw [hm]; exact List.mem_append_left _ (List.mem_cons_self _ _)
      have hemem : e ∈ ent.2 := by
        rw [hm]; exact List.mem_append_right _ (List.mem_singleton_self _)
      exact Or.inr ⟨s, conts, e, hm, closedEntry_mono C st _ _ s conts e hc
        (hgetD s (fun h2 => hun ent hent (h2 ▸ hsmem)) ▸ rfl)
        (hgetD e (fun h2 => hun ent hent (h2 ▸ hemem)) ▸ rfl)
        (fun p hp => hp) (fun fr hfr => Or.inl hfr)⟩
  · intro p hp
    obtain ⟨conts, hg, hc⟩ := hIC p hp
    have hentmem := mapGetKey_mem_kv _ _ _ hg
    have hsmem : p.1 ∈ p.1 :: conts ++ [p.2.1] :=
      List.mem_append_left _ (List.mem_cons_self _ _)
    have hemem : p.2.1 ∈ p.1 :: conts ++ [p.2.1] :=
      List.mem_append_right _ (List.mem_singleton_self _)
    exact ⟨conts, hg, closedEntry_mono C st _ _ p.1 conts p.2.1 hc
      (hgetD p.1 (fun h2 => hun _ hentmem (h2 ▸ hsmem)) ▸ rfl)
      (hgetD p.2.1 (fun h2 => hun _ hentmem (h2 ▸ hemem)) ▸ rfl)
      (fun q hq => hq) (fun fr hfr => Or.inl hfr)⟩

end GitStuffServer
namespace GitStuffServer

/-- A scan step opening a block preserves the invariant when the minted
identifier is fresh. -/
theorem scanInv_open (supply : Nat → String) (C : List LiquidNode)
    (st : blockAssociator.AState) (idx : Nat) (hinv : ScanInv C st)
    (hun : ∀ ent ∈ st.blockNodes, idx ∉ ent.2)
    (hlt : idx < st.nodes.length)
    (h1 : ¬ astGetTagName (st.nodes.getD idx default) = "")
    (h2 : astFlagStart (st.nodes.getD idx default) = true)
    (hfresh : (astGetTagName (st.nodes.getD idx default) ++ "-" ++ supply st.counter) ∉
      st.minted) :
    ScanInv C (blockAssociator.stepNode supply st idx) := by
  obtain ⟨hIK, hIP, hIE, hISK, hISD, hIC, hIM2⟩ := hinv
  rw [stepNode_eq_open supply st idx h1 h2]
  have hkeys : ∀ ent ∈ st.blockNodes,
      ent.1 ≠ astGetTagName (st.nodes.getD idx default) ++ "-" ++ supply st.counter := by
    intro ent hent hkeq
    apply hfresh
    rw [← hkeq]
    have hmm := List.mem_map_of_mem (fun ent => ent.1) hent
    rw [hIK] at hmm
    exact hmm
  have hstackmint : ∀ fr ∈ st.blockStack, fr.2.2 ∈ st.minted := by
    intro fr hfr
    obtain ⟨v, hg⟩ := hISK fr hfr
    have hmm := List.mem_map_of_mem (fun ent => ent.1) (mapGetKey_mem_kv _ _ _ hg)
    rw [hIK] at hmm
    exact hmm
  have hstackne : ∀ fr ∈ st.blockStack,
      fr.2.2 ≠ astGetTagName (st.nodes.getD idx default) ++ "-" ++ supply st.counter := by
    intro fr hfr hkeq
    exact hfresh (hkeq ▸ hstackmint fr hfr)
  have hset : blockAssociator.mapSetKey st.blockNodes
      (astGetTagName (st.nodes.getD idx default) ++ "-" ++ supply st.counter) [idx] =
      st.blockNodes ++
        [(astGetTagName (st.nodes.getD idx default) ++ "-" ++ supply st.counter, [idx])] :=
    mapSetKey_append_fresh _ _ _ hkeys
  refine ⟨?_, ?_, ?_, ?_, ?_, ?_, ?_⟩
  · show (blockAssociator.mapSetKey _ _ _).map (fun ent => ent.1) = _
    rw [hset, List.map_append, hIK]
    rfl
  · intro i
    show blockAssociator.resetNode ((st.nodes.set idx _).getD i default) = _
    rw [getD_set_eq_ite]
    split
    · rename_i hcond
      rw [← hcond.1]
      exact hIP idx
    · exact hIP i
  · intro ent hent
    rw [show ((({ st with
          nodes := st.nodes.set idx
            { st.nodes.getD idx default with
                blockId := some (astGetTagName (st.nodes.getD idx default) ++ "-" ++ supply st.counter)
                parseSuccess := some true }
          blockStack := (astGetTagName (st.nodes.getD idx default), idx,
            astGetTagName (st.nodes.getD idx default) ++ "-" ++ supply st.counter) :: st.blockStack
          blockNodes := blockAssociator.mapSetKey st.blockNodes
            (astGetTagName (st.nodes.getD idx default) ++ "-" ++ supply st.counter) [idx]
          counter := st.counter + 1
          minted := st.minted ++
            [astGetTagName (st.nodes.getD idx default) ++ "-" ++ supply st.counter] } :
        blockAssociator.AState).blockNodes) = st.blockNodes ++
        [(astGetTagName (st.nodes.getD idx default) ++ "-" ++ supply st.counter, [idx])]) from hset] at hent
    rcases List.mem_append.mp hent with hold | hnew
    · rcases hIE ent hold with ⟨s, conts, hm, ho⟩ | ⟨s, conts, e, hm, hc⟩
      · have hsmem : s ∈ ent.2 := by rw [hm]; exact List.mem_cons_self _ _
        refine Or.inl ⟨s, conts, hm, openEntry_mono C st _ _ s conts ho ?_ ?_⟩
        · show ((st.nodes.set idx _).getD s default).blockId = _
          rw [getD_set_ne _ _ _ _ (fun h2 => hun ent hold (by rw [h2]; exact hsmem))]
        · intro t hf
          exact List.mem_cons_of_mem _ hf
      · have hsmem : s ∈ ent.2 := by
          rw [hm]; exact List.mem_append_left _ (List.mem_cons_self _ _)
        have hemem : e ∈ ent.2 := by
          rw [hm]; exact List.mem_append_right _ (List.mem_singleton_self _)
        refine Or.inr ⟨s, conts, e, hm, closedEntry_mono C st _ _ s conts e hc ?_ ?_ ?_ ?_⟩
        · show ((st.nodes.set idx _).getD s default).blockId = _
          rw [getD_set_ne _ _ _ _ (fun h2 => hun ent hold (by rw [h2]; exact hsmem))]
        · show ((st.nodes.set idx _).getD e default).matchingBlockId = _
          rw [getD_set_ne _ _ _ _ (fun h2 => hun ent hold (by rw [h2]; exact hemem))]
        · intro p hp
          exact hp
        · intro fr hfr
          rcases List.mem_cons.mp hfr with hfrnew | hfrold
          · right
            rw [hfrnew]
            exact fun hkeq => hkeys ent hold hkeq.symm
          · exact Or.inl hfrold
    · rw [List.mem_singleton.mp hnew]
      refine Or.inl ⟨idx, [], rfl, ?_, ?_, ?_, ?_, ?_⟩
      · rw [← (flags_of_resetNode_eq _ _ (hIP idx)).1]
        exact h2
      · show ((st.nodes.set idx _).getD idx default).blockId = _
        rw [getD_set_self _ _ _ hlt]
      · intro c hcmem
        exact absurd hcmem (List.not_mem_nil c)
      · simp
      · exact ⟨astGetTagName (st.nodes.getD idx default), List.mem_cons_self _ _⟩
  · intro fr hfr
    rcases List.mem_cons.mp hfr with hfrnew | hfrold
    · refine ⟨[idx], ?_⟩
      rw [hfrnew]
      exact mapSetKey_get_self _ _ _
    · obtain ⟨v, hg⟩ := hISK fr hfrold
      refine ⟨v, ?_⟩
      show blockAssociator.mapGetKey (blockAssociator.mapSetKey _ _ _) _ = _
      rw [mapSetKey_get_ne _ _ _ _ (hstackne fr hfrold)]
      exact hg
  · show ((((astGetTagName (st.nodes.getD idx default), idx,
        astGetTagName (st.nodes.getD idx default) ++ "-" ++ supply st.counter)) ::
        st.blockStack).map (fun fr => fr.2.2)).Nodup
    rw [List.map_cons]
    refine List.nodup_cons.mpr ⟨?_, hISD⟩
    intro hmem
    obtain ⟨fr, hfr, hkeq⟩ := List.mem_map.mp hmem
    exact hstackne fr hfr hkeq
  · intro p hp
    obtain ⟨conts, hg, hc⟩ := hIC p hp
    have hentmem := mapGetKey_mem_kv _ _ _ hg
    have hsmem : p.1 ∈ p.1 :: conts ++ [p.2.1] :=
      List.mem_append_left _ (List.mem_cons_self _ _)
    have hemem : p.2.1 ∈ p.1 :: conts ++ [p.2.1] :=
      List.mem_append_right _ (List.mem_singleton_self _)
    refine ⟨conts, ?_, closedEntry_mono C st _ _ p.1 conts p.2.1 hc ?_ ?_ ?_ ?_⟩
    · show blockAssociator.mapGetKey (blockAssociator.mapSetKey _ _ _) _ = _
      rw [mapSetKey_get_ne _ _ _ _ (hkeys _ hentmem)]
      exact hg
    · show ((st.nodes.set idx _).getD p.1 default).blockId = _
      rw [getD_set_ne _ _ _ _ (fun h2 => hun _ hentmem (by rw [h2]; exact hsmem))]
    · show ((st.nodes.set idx _).getD p.2.1 default).matchingBlockId = _
      rw [getD_set_ne _ _ _ _ (fun h2 => hun _ hentmem (by rw [h2]; exact hemem))]
    · intro q hq
      exact hq
    · intro fr hfr
      rcases List.mem_cons.mp hfr with hfrnew | hfrold
      · right
        rw [hfrnew]
        exact fun hkeq => hkeys _ hentmem hkeq.symm
      · exact Or.inl hfrold
  · intro ent1 h1m ent2 h2m hne m hm1
    rw [show ((({ st with
          nodes := st.nodes.set idx
            { st.nodes.getD idx default with
                blockId := some (astGetTagName (st.nodes.getD idx default) ++ "-" ++ supply st.counter)
                parseSuccess := some true }
          blockStack := (astGetTagName (st.nodes.getD idx default), idx,
            astGetTagName (st.nodes.getD idx default) ++ "-" ++ supply st.counter) :: st.blockStack
          blockNodes := blockAssociator.mapSetKey st.blockNodes
            (astGetTagName (st.nodes.getD idx default) ++ "-" ++ supply st.counter) [idx]
          counter := st.counter + 1
          minted := st.minted ++
            [astGetTagName (st.nodes.getD idx default) ++ "-" ++ supply st.counter] } :
        blockAssociator.AState).blockNodes) = st.blockNodes ++
        [(astGetTagName (st.nodes.getD idx default) ++ "-" ++ supply st.counter, [idx])]) from hset]
      at h1m h2m
    rcases List.mem_append.mp h1m with h1old | h1new
    · rcases List.mem_append.mp h2m with h2old | h2new
      · exact hIM2 ent1 h1old ent2 h2old hne m hm1
      · rw [List.mem_singleton.mp h2new]
        intro hm2
        rcases List.mem_singleton.mp hm2 with hmi
        exact hun ent1 h1old (hmi ▸ hm1)
    · rw [List.mem_singleton.mp h1new] at hm1
      rcases List.mem_singleton.mp hm1 with hmi
      rcases List.mem_append.mp h2m with h2old | h2new
      · rw [hmi]
        exact hun ent2 h2old
      · exfalso
        apply hne
        rw [List.mem_singleton.mp h1new, List.mem_singleton.mp h2new]

end GitStuffServer
namespace GitStuffServer

/-- A scan step closing a block preserves the invariant. -/
theorem scanInv_close (supply : Nat → String) (C : List LiquidNode)
    (st : blockAssociator.AState) (idx : Nat) (fr : String × Nat × String)
    (stack2 : List (String × Nat × String)) (hinv : ScanInv C st)
    (hun : ∀ ent ∈ st.blockNodes, idx ∉ ent.2)
    (hlt : idx < st.nodes.length)
    (hmintnd : st.minted.Nodup)
    (h1 : ¬ astGetTagName (st.nodes.getD idx default) = "")
    (h2 : astFlagStart (st.nodes.getD idx default) = false)
    (h3 : astFlagEnd (st.nodes.getD idx default) = true)
    (hpop : blockAssociator.popFrame st.blockStack
      (strDropChars (astGetTagName (st.nodes.getD idx default)) 3) = some (fr, stack2)) :
    ScanInv C (blockAssociator.stepNode supply st idx) := by
  obtain ⟨hIK, hIP, hIE, hISK, hISD, hIC, hIM2⟩ := hinv
  obtain ⟨hfrt, hperm⟩ := popFrame_perm _ _ _ _ hpop
  have hfrmem : fr ∈ st.blockStack := hperm.mem_iff.mpr (List.mem_cons_self _ _)
  obtain ⟨v, hg⟩ := hISK fr hfrmem
  have hentmem := mapGetKey_mem_kv _ _ _ hg
  have hidxv : idx ∉ v := hun _ hentmem
  rcases hIE _ hentmem with ⟨s, conts, hm, ho⟩ | ⟨s, conts, e, hm, hc⟩
  · obtain ⟨hsC, hsBlockId0, hcs, hnodup, t, hframe0⟩ := ho
    have hmv : v = s :: conts := hm
    have hsBlockId : (st.nodes.getD s default).blockId = some fr.2.2 := hsBlockId0
    have hframe : (t, s, fr.2.2) ∈ st.blockStack := hframe0
    have hfreq : fr = (t, s, fr.2.2) := List.inj_on_of_nodup_map hISD hfrmem hframe rfl
    have hfs : fr.2.1 = s := by rw [hfreq]
    have hbidperm : ((st.blockStack.map (fun fr2 => fr2.2.2))).Perm
        (fr.2.2 :: stack2.map (fun fr2 => fr2.2.2)) := by
      have hh := hperm.map (fun fr2 => fr2.2.2)
      simpa using hh
    have hnd2 : (fr.2.2 :: stack2.map (fun fr2 => fr2.2.2)).Nodup :=
      hbidperm.nodup_iff.mp hISD
    have hknotin : fr.2.2 ∉ stack2.map (fun fr2 => fr2.2.2) := (List.nodup_cons.mp hnd2).1
    have hstack2ne : ∀ fr2 ∈ stack2, fr2.2.2 ≠ fr.2.2 := by
      intro fr2 hf2 hkeq
      exact hknotin (hkeq ▸ List.mem_map_of_mem _ hf2)
    have hstack2sub : ∀ x ∈ stack2, x ∈ st.blockStack :=
      fun x hx => hperm.mem_iff.mpr (List.mem_cons_of_mem _ hx)
    have hstack2back : ∀ x ∈ st.blockStack, x.2.2 ≠ fr.2.2 → x ∈ stack2 := by
      intro x hx hne
      rcases List.mem_cons.mp (hperm.mem_iff.mp hx) with heq | hin
      · exact absurd (congrArg (fun y => y.2.2) heq) hne
      · exact hin
    have hkeysnd : (st.blockNodes.map (fun ent => ent.1)).Nodup := by
      rw [hIK]; exact hmintnd
    have hpush := mapPushMember_eq_set st.blockNodes fr.2.2 idx v hg
    have hsmemv : s ∈ v := by rw [hmv]; exact List.mem_cons_self _ _
    have hidxnes : idx ≠ s := fun hq => hidxv (hq ▸ hsmemv)
    have hnewnodup : (s :: conts ++ [idx]).Nodup := by
      refine List.nodup_append.mpr ⟨hnodup, List.nodup_singleton _, ?_⟩
      intro a ha hb
      rw [List.mem_singleton] at hb
      subst hb
      exact hidxv (by rw [hmv]; exact ha)
    rw [stepNode_eq_end_pop supply st idx fr stack2 h1 h2 h3 hpop, hpush]
    have hc2blockId : ((st.nodes.set idx
        { st.nodes.getD idx default with
            blockId := some fr.2.2
            matchingBlockId := some fr.2.2
            parseSuccess := some true }).getD s default).blockId = some fr.2.2 := by
      rw [getD_set_ne _ _ _ _ hidxnes]
      exact hsBlockId
    have hc5 : astFlagStart (C.getD idx default) = false := by
      rw [← (flags_of_resetNode_eq _ _ (hIP idx)).1]
      exact h2
    have hc6 : astFlagEnd (C.getD idx default) = true := by
      rw [← (flags_of_resetNode_eq _ _ (hIP idx)).2.1]
      exact h3
    have hc7 : ((st.nodes.set idx
        { st.nodes.getD idx default with
            blockId := some fr.2.2
            matchingBlockId := some fr.2.2
            parseSuccess := some true }).getD idx default).matchingBlockId = some fr.2.2 := by
      rw [getD_set_self _ _ _ hlt]
    have hc8 : (s, idx, fr.2.2) ∈ st.matched ++ [(fr.2.1, idx, fr.2.2)] := by
      rw [hfs]
      exact List.mem_append_right _ (List.mem_singleton_self _)
    refine ⟨?_, ?_, ?_, ?_, ?_, ?_, ?_⟩
    · show (blockAssociator.mapSetKey _ _ _).map (fun ent => ent.1) = st.minted
      rw [mapSetKey_keys_of_present st.blockNodes fr.2.2 (v ++ [idx]) v hg, hIK]
    · intro i
      show blockAssociator.resetNode ((st.nodes.set idx _).getD i default) = _
      rw [getD_set_eq_ite]
      split
      · rename_i hcond
        rw [← hcond.1]
        exact hIP idx
      · exact hIP i
    · intro ent2 hent2
      have hent2m : ent2 ∈ blockAssociator.mapSetKey st.blockNodes fr.2.2 (v ++ [idx]) := hent2
      by_cases hkey : ent2.1 = fr.2.2
      · have hent2eq := mem_mapSetKey_key_eq _ _ _ hkeysnd ent2 hent2m hkey
        rw [hent2eq]
        refine Or.inr ⟨s, conts, idx, by rw [hmv], hsC, hc2blockId, hcs, hnewnodup,
          hc5, hc6, hc7, hc8, hstack2ne⟩
      · have hent2old := mem_mapSetKey_elim _ _ _ ent2 hent2m hkey
        rcases hIE ent2 hent2old with ⟨s2, conts2, hm2, ho2⟩ | ⟨s2, conts2, e2, hm2, hcc2⟩
        · have hs2mem : s2 ∈ ent2.2 := by rw [hm2]; exact List.mem_cons_self _ _
          refine Or.inl ⟨s2, conts2, hm2, openEntry_mono C st _ _ s2 conts2 ho2 ?_ ?_⟩
          · show ((st.nodes.set idx _).getD s2 default).blockId = _
            rw [getD_set_ne _ _ _ _ (fun hq => hun ent2 hent2old (by rw [hq]; exact hs2mem))]
          · intro t2 hf2
            exact hstack2back (t2, s2, ent2.1) hf2 hkey
        · have hs2mem : s2 ∈ ent2.2 := by
            rw [hm2]; exact List.mem_append_left _ (List.mem_cons_self _ _)
          have he2mem : e2 ∈ ent2.2 := by
            rw [hm2]; exact List.mem_append_right _ (List.mem_singleton_self _)
          refine Or.inr ⟨s2, conts2, e2, hm2,
            closedEntry_mono C st _ _ s2 conts2 e2 hcc2 ?_ ?_ ?_ ?_⟩
          · show ((st.nodes.set idx _).getD s2 default).blockId = _
            rw [getD_set_ne _ _ _ _ (fun hq => hun ent2 hent2old (by rw [hq]; exact hs2mem))]
          · show ((st.nodes.set idx _).getD e2 default).matchingBlockId = _
            rw [getD_set_ne _ _ _ _ (fun hq => hun ent2 hent2old (by rw [hq]; exact he2mem))]
          · intro p hp
            exact List.mem_append_left _ hp
          · intro fr2 hfr2
            exact Or.inl (hstack2sub fr2 hfr2)
    · intro fr2 hfr2
      have hfr2m : fr2 ∈ stack2 := hfr2
      obtain ⟨v2, hg2⟩ := hISK fr2 (hstack2sub fr2 hfr2m)
      refine ⟨v2, ?_⟩
      show blockAssociator.mapGetKey (blockAssociator.mapSetKey _ _ _) _ = _
      rw [mapSetKey_get_ne _ _ _ _ (hstack2ne fr2 hfr2m)]
      exact hg2
    · exact (List.nodup_cons.mp hnd2).2
    · intro p hp
      have hpm : p ∈ st.matched ++ [(fr.2.1, idx, fr.2.2)] := hp
      rcases List.mem_append.mp hpm with hold | hnew
      · obtain ⟨conts2, hg2, hcc2⟩ := hIC p hold
        have hpkne : p.2.2 ≠ fr.2.2 := by
          obtain ⟨_, _, _, _, _, _, _, _, hnofr2⟩ := hcc2
          exact Ne.symm (hnofr2 fr hfrmem)
        have hpentmem := mapGetKey_mem_kv _ _ _ hg2
        have hpsmem : p.1 ∈ p.1 :: conts2 ++ [p.2.1] :=
          List.mem_append_left _ (List.mem_cons_self _ _)
        have hpemem : p.2.1 ∈ p.1 :: conts2 ++ [p.2.1] :=
          List.mem_append_right _ (List.mem_singleton_self _)
        refine ⟨conts2, ?_, closedEntry_mono C st _ _ p.1 conts2 p.2.1 hcc2 ?_ ?_ ?_ ?_⟩
        · show blockAssociator.mapGetKey (blockAssociator.mapSetKey _ _ _) _ = _
          rw [mapSetKey_get_ne _ _ _ _ hpkne]
          exact hg2
        · show ((st.nodes.set idx _).getD p.1 default).blockId = _
          rw [getD_set_ne _ _ _ _ (fun hq => hun _ hpentmem (by rw [hq]; exact hpsmem))]
        · show ((st.nodes.set idx _).getD p.2.1 default).matchingBlockId = _
          rw [getD_set_ne _ _ _ _ (fun hq => hun _ hpentmem (by rw [hq]; exact hpemem))]
        · intro q hq
          exact List.mem_append_left _ hq
        · intro fr2 hfr2
          exact Or.inl (hstack2sub fr2 hfr2)
      · rw [List.mem_singleton.mp hnew]
        rw [hfs]
        refine ⟨conts, ?_, hsC, hc2blockId, hcs, hnewnodup, hc5, hc6, hc7,
          List.mem_append_right _ (List.mem_singleton_self _), hstack2ne⟩
        show blockAssociator.mapGetKey (blockAssociator.mapSetKey _ _ _) _ = _
        rw [mapSetKey_get_self, hmv]
    · intro ent1 h1m ent2 h2m hne m hm1
      have h1m2 : ent1 ∈ blockAssociator.mapSetKey st.blockNodes fr.2.2 (v ++ [idx]) := h1m
      have h2m2 : ent2 ∈ blockAssociator.mapSetKey st.blockNodes fr.2.2 (v ++ [idx]) := h2m
      by_cases hk1 : ent1.1 = fr.2.2
      · have he1 := mem_mapSetKey_key_eq _ _ _ hkeysnd ent1 h1m2 hk1
        by_cases hk2 : ent2.1 = fr.2.2
        · exact absurd (by rw [hk1, hk2]) hne
        · have he2old := mem_mapSetKey_elim _ _ _ ent2 h2m2 hk2
          rw [he1] at hm1
          rcases List.mem_append.mp hm1 with hmv | hmi
          · exact hIM2 _ hentmem ent2 he2old (fun hq => hk2 hq.symm) m hmv
          · rw [List.mem_singleton.mp hmi]
            exact hun ent2 he2old
      · have he1old := mem_mapSetKey_elim _ _ _ ent1 h1m2 hk1
        by_cases hk2 : ent2.1 = fr.2.2
        · have he2 := mem_mapSetKey_key_eq _ _ _ hkeysnd ent2 h2m2 hk2
          rw [he2]
          intro hm2
          rcases List.mem_append.mp hm2 with hmv | hmi
          · exact hIM2 ent1 he1old _ hentmem hk1 m hm1 hmv
          · exact hun ent1 he1old (by rw [← List.mem_singleton.mp hmi]; exact hm1)
        · exact hIM2 ent1 he1old ent2 (mem_mapSetKey_elim _ _ _ ent2 h2m2 hk2) hne m hm1
  · obtain ⟨_, _, _, _, _, _, _, _, hnofr⟩ := hc
    exact absurd rfl (hnofr fr hfrmem)

end GitStuffServer
namespace GitStuffServer

/-- A scan step routing a continuation into its open block preserves the
invariant. -/
theorem scanInv_cont (supply : Nat → String) (C : List LiquidNode)
    (st : blockAssociator.AState) (idx : Nat) (ct : String)
    (fr : String × Nat × String) (hinv : ScanInv C st)
    (hun : ∀ ent ∈ st.blockNodes, idx ∉ ent.2)
    (hlt : idx < st.nodes.length)
    (hmintnd : st.minted.Nodup)
    (h1 : ¬ astGetTagName (st.nodes.getD idx default) = "")
    (h2 : astFlagStart (st.nodes.getD idx default) = false)
    (h3 : astFlagEnd (st.nodes.getD idx default) = false)
    (h4 : astFlagCont (st.nodes.getD idx default) = true)
    (hfc : blockAssociator.findCompatibleBlockType
      (astGetTagName (st.nodes.getD idx default)) = some ct)
    (hff : blockAssociator.findFrame st.blockStack ct = some fr) :
    ScanInv C (blockAssociator.stepNode supply st idx) := by
  obtain ⟨hIK, hIP, hIE, hISK, hISD, hIC, hIM2⟩ := hinv
  have hfrmem : fr ∈ st.blockStack := findFrame_mem _ _ _ hff
  obtain ⟨v, hg⟩ := hISK fr hfrmem
  have hentmem := mapGetKey_mem_kv _ _ _ hg
  have hidxv : idx ∉ v := hun _ hentmem
  rcases hIE _ hentmem with ⟨s, conts, hm, ho⟩ | ⟨s, conts, e, hm, hc⟩
  · obtain ⟨hsC, hsBlockId0, hcs, hnodup, t, hframe0⟩ := ho
    have hmv : v = s :: conts := hm
    have hsBlockId : (st.nodes.getD s default).blockId = some fr.2.2 := hsBlockId0
    have hframe : (t, s, fr.2.2) ∈ st.blockStack := hframe0
    have hkeysnd : (st.blockNodes.map (fun ent => ent.1)).Nodup := by
      rw [hIK]; exact hmintnd
    have hpush := mapPushMember_eq_set st.blockNodes fr.2.2 idx v hg
    have hsmemv : s ∈ v := by rw [hmv]; exact List.mem_cons_self _ _
    have hidxnes : idx ≠ s := fun hq => hidxv (hq ▸ hsmemv)
    obtain ⟨hsnotin, hcontsnd⟩ := List.nodup_cons.mp hnodup
    have hidxnconts : idx ∉ conts := fun hq =>
      hidxv (by rw [hmv]; exact List.mem_cons_of_mem _ hq)
    have hnewnodup : (s :: (conts ++ [idx])).Nodup := by
      refine List.nodup_cons.mpr ⟨?_, ?_⟩
      · intro hq
        rcases List.mem_append.mp hq with hq1 | hq2
        · exact hsnotin hq1
        · exact hidxnes (List.mem_singleton.mp hq2).symm
      · refine List.nodup_append.mpr ⟨hcontsnd, List.nodup_singleton _, ?_⟩
        intro a ha hb
        rw [List.mem_singleton] at hb
        subst hb
        exact hidxnconts ha
    have hcs2 : ContsShape C (conts ++ [idx]) := by
      intro c hcm
      rcases List.mem_append.mp hcm with hc1 | hc2
      · exact hcs c hc1
      · rw [List.mem_singleton.mp hc2]
        refine ⟨?_, ?_, ?_⟩
        · rw [← (flags_of_resetNode_eq _ _ (hIP idx)).1]
          exact h2
        · rw [← (flags_of_resetNode_eq _ _ (hIP idx)).2.1]
          exact h3
        · rw [← (flags_of_resetNode_eq _ _ (hIP idx)).2.2]
          exact h4
    rw [stepNode_eq_cont_found supply st idx ct fr h1 h2 h3 h4 hfc hff, hpush]
    have hc2blockId : ((st.nodes.set idx
        { st.nodes.getD idx default with
            blockId := some fr.2.2
            matchingBlockId := some fr.2.2
            parseSuccess := some true }).getD s default).blockId = some fr.2.2 := by
      rw [getD_set_ne _ _ _ _ hidxnes]
      exact hsBlockId
    refine ⟨?_, ?_, ?_, ?_, hISD, ?_, ?_⟩
    · show (blockAssociator.mapSetKey _ _ _).map (fun ent => ent.1) = st.minted
      rw [mapSetKey_keys_of_present st.blockNodes fr.2.2 (v ++ [idx]) v hg, hIK]
    · intro i
      show blockAssociator.resetNode ((st.nodes.set idx _).getD i default) = _
      rw [getD_set_eq_ite]
      split
      · rename_i hcond
        rw [← hcond.1]
        exact hIP idx
      · exact hIP i
    · intro ent2 hent2
      have hent2m : ent2 ∈ blockAssociator.mapSetKey st.blockNodes fr.2.2 (v ++ [idx]) := hent2
      by_cases hkey : ent2.1 = fr.2.2
      · have hent2eq := mem_mapSetKey_key_eq _ _ _ hkeysnd ent2 hent2m hkey
        rw [hent2eq]
        refine Or.inl ⟨s, conts ++ [idx], by rw [hmv]; exact List.cons_append _ _ _,
          hsC, hc2blockId, hcs2, hnewnodup, t, hframe⟩
      · have hent2old := mem_mapSetKey_elim _ _ _ ent2 hent2m hkey
        rcases hIE ent2 hent2old with ⟨s2, conts2, hm2, ho2⟩ | ⟨s2, conts2, e2, hm2, hcc2⟩
        · have hs2mem : s2 ∈ ent2.2 := by rw [hm2]; exact List.mem_cons_self _ _
          refine Or.inl ⟨s2, conts2, hm2, openEntry_mono C st _ _ s2 conts2 ho2 ?_ ?_⟩
          · show ((st.nodes.set idx _).getD s2 default).blockId = _
            rw [getD_set_ne _ _ _ _ (fun hq => hun ent2 hent2old (by rw [hq]; exact hs2mem))]
          · intro t2 hf2
            exact hf2
        · have hs2mem : s2 ∈ ent2.2 := by
            rw [hm2]; exact List.mem_append_left _ (List.mem_cons_self _ _)
          have he2mem : e2 ∈ ent2.2 := by
            rw [hm2]; exact List.mem_append_right _ (List.mem_singleton_self _)
          refine Or.inr ⟨s2, conts2, e2, hm2,
            closedEntry_mono C st _ _ s2 conts2 e2 hcc2 ?_ ?_ ?_ ?_⟩
          · show ((st.nodes.set idx _).getD s2 default).blockId = _
            rw [getD_set_ne _ _ _ _ (fun hq => hun ent2 hent2old (by rw [hq]; exact hs2mem))]
          · show ((st.nodes.set idx _).getD e2 default).matchingBlockId = _
            rw [getD_set_ne _ _ _ _ (fun hq => hun ent2 hent2old (by rw [hq]; exact he2mem))]
          · intro p hp
            exact hp
          · intro fr2 hfr2
            exact Or.inl hfr2
    · intro fr2 hfr2
      have hfr2m : fr2 ∈ st.blockStack := hfr2
      by_cases hkey : fr2.2.2 = fr.2.2
      · refine ⟨v ++ [idx], ?_⟩
        show blockAssociator.mapGetKey (blockAssociator.mapSetKey _ _ _) _ = _
        rw [hkey]
        exact mapSetKey_get_self _ _ _
      · obtain ⟨v2, hg2⟩ := hISK fr2 hfr2m
        refine ⟨v2, ?_⟩
        show blockAssociator.mapGetKey (blockAssociator.mapSetKey _ _ _) _ = _
        rw [mapSetKey_get_ne _ _ _ _ hkey]
        exact hg2
    · intro p hp
      have hpm : p ∈ st.matched := hp
      obtain ⟨conts2, hg2, hcc2⟩ := hIC p hpm
      have hpkne : p.2.2 ≠ fr.2.2 := by
        obtain ⟨_, _, _, _, _, _, _, _, hnofr2⟩ := hcc2
        exact Ne.symm (hnofr2 fr hfrmem)
      have hpentmem := mapGetKey_mem_kv _ _ _ hg2
      have hpsmem : p.1 ∈ p.1 :: conts2 ++ [p.2.1] :=
        List.mem_append_left _ (List.mem_cons_self _ _)
      have hpemem : p.2.1 ∈ p.1 :: conts2 ++ [p.2.1] :=
        List.mem_append_right _ (List.mem_singleton_self _)
      refine ⟨conts2, ?_, closedEntry_mono C st _ _ p.1 conts2 p.2.1 hcc2 ?_ ?_ ?_ ?_⟩
      · show blockAssociator.mapGetKey (blockAssociator.mapSetKey _ _ _) _ = _
        rw [mapSetKey_get_ne _ _ _ _ hpkne]
        exact hg2
      · show ((st.nodes.set idx _).getD p.1 default).blockId = _
        rw [getD_set_ne _ _ _ _ (fun hq => hun _ hpentmem (by rw [hq]; exact hpsmem))]
      · show ((st.nodes.set idx _).getD p.2.1 default).matchingBlockId = _
        rw [getD_set_ne _ _ _ _ (fun hq => hun _ hpentmem (by rw [hq]; exact hpemem))]
      · intro q hq
        exact hq
      · intro fr2 hfr2
        exact Or.inl hfr2
    · intro ent1 h1m ent2 h2m hne m hm1
      have h1m2 : ent1 ∈ blockAssociator.mapSetKey st.blockNodes fr.2.2 (v ++ [idx]) := h1m
      have h2m2 : ent2 ∈ blockAssociator.mapSetKey st.blockNodes fr.2.2 (v ++ [idx]) := h2m
      by_cases hk1 : ent1.1 = fr.2.2
      · have he1 := mem_mapSetKey_key_eq _ _ _ hkeysnd ent1 h1m2 hk1
        by_cases hk2 : ent2.1 = fr.2.2
        · exact absurd (by rw [hk1, hk2]) hne
        · have he2old := mem_mapSetKey_elim _ _ _ ent2 h2m2 hk2
          rw [he1] at hm1
          rcases List.mem_append.mp hm1 with hmv2 | hmi
          · exact hIM2 _ hentmem ent2 he2old (fun hq => hk2 hq.symm) m hmv2
          · rw [List.mem_singleton.mp hmi]
            exact hun ent2 he2old
      · have he1old := mem_mapSetKey_elim _ _ _ ent1 h1m2 hk1
        by_cases hk2 : ent2.1 = fr.2.2
        · have he2 := mem_mapSetKey_key_eq _ _ _ hkeysnd ent2 h2m2 hk2
          rw [he2]
          intro hm2
          rcases List.mem_append.mp hm2 with hmv2 | hmi
          · exact hIM2 ent1 he1old _ hentmem hk1 m hm1 hmv2
          · exact hun ent1 he1old (by rw [← List.mem_singleton.mp hmi]; exact hm1)
        · exact hIM2 ent1 he1old ent2 (mem_mapSetKey_elim _ _ _ ent2 h2m2 hk2) hne m hm1
  · obtain ⟨_, _, _, _, _, _, _, _, hnofr⟩ := hc
    exact absurd rfl (hnofr fr hfrmem)

end GitStuffServer
namespace GitStuffServer

/-- One scan step preserves the invariant, given fresh minting. -/
theorem scanInv_step (supply : Nat → String) (C : List LiquidNode)
    (st : blockAssociator.AState) (idx : Nat) (hinv : ScanInv C st)
    (hun : ∀ ent ∈ st.blockNodes, idx ∉ ent.2)
    (hlt : idx < st.nodes.length)
    (hmintnd : st.minted.Nodup)
    (hstepnd : (blockAssociator.stepNode supply st idx).minted.Nodup) :
    ScanInv C (blockAssociator.stepNode supply st idx) := by
  by_cases h1 : astGetTagName (st.nodes.getD idx default) = ""
  · rw [stepNode_eq_skip1 supply st idx h1]
    exact hinv
  · by_cases h2 : astFlagStart (st.nodes.getD idx default) = true
    · rw [stepNode_eq_open supply st idx h1 h2] at hstepnd
      have hstepnd2 : (st.minted ++
          [astGetTagName (st.nodes.getD idx default) ++ "-" ++ supply st.counter]).Nodup :=
        hstepnd
      have hfresh : (astGetTagName (st.nodes.getD idx default) ++ "-" ++ supply st.counter) ∉
          st.minted := by
        intro hmem
        exact (List.nodup_append.mp hstepnd2).2.2 hmem (List.mem_singleton_self _)
      exact scanInv_open supply C st idx hinv hun hlt h1 h2 hfresh
    · simp only [Bool.not_eq_true] at h2
      by_cases h3 : astFlagEnd (st.nodes.getD idx default) = true
      · cases hpop : blockAssociator.popFrame st.blockStack
            (strDropChars (astGetTagName (st.nodes.getD idx default)) 3) with
        | some pr =>
          exact scanInv_close supply C st idx pr.1 pr.2 hinv hun hlt hmintnd h1 h2 h3
            (by rw [hpop])
        | none =>
          rw [stepNode_eq_end_orphan supply st idx h1 h2 h3 hpop]
          exact scanInv_set_only C st idx _ ⟨hinv.1, hinv.2.1, hinv.2.2.1, hinv.2.2.2.1,
            hinv.2.2.2.2.1, hinv.2.2.2.2.2.1, hinv.2.2.2.2.2.2⟩ hun rfl
      · simp only [Bool.not_eq_true] at h3
        by_cases h4 : astFlagCont (st.nodes.getD idx default) = true
        · cases hfc : blockAssociator.findCompatibleBlockType
              (astGetTagName (st.nodes.getD idx default)) with
          | some ct =>
            cases hff : blockAssociator.findFrame st.blockStack ct with
            | some fr =>
              exact scanInv_cont supply C st idx ct fr hinv hun hlt hmintnd h1 h2 h3 h4 hfc hff
            | none =>
              rw [stepNode_eq_cont_nofr supply st idx ct h1 h2 h3 h4 hfc hff]
              exact scanInv_set_only C st idx _ hinv hun rfl
          | none =>
            rw [stepNode_eq_cont_unknown supply st idx h1 h2 h3 h4 hfc]
            exact scanInv_set_only C st idx _ hinv hun rfl
        · simp only [Bool.not_eq_true] at h4
          rw [stepNode_eq_skip2 supply st idx h1 h2 h3 h4]
          exact hinv

/-- The association scan preserves the invariant along its whole run. -/
theorem scanInv_fold (supply : Nat → String) (C : List LiquidNode) :
    ∀ (l : List Nat) (st : blockAssociator.AState), l.Nodup →
      (∀ j ∈ l, j < st.nodes.length) →
      (∀ j ∈ l, ∀ ent ∈ st.blockNodes, j ∉ ent.2) →
      ((l.foldl (blockAssociator.stepNode supply) st).minted.Nodup) →
      ScanInv C st →
      ScanInv C (l.foldl (blockAssociator.stepNode supply) st) := by
  intro l
  induction l with
  | nil =>
    intro st _ _ _ _ hinv
    exact hinv
  | cons j rest ih =>
    intro st hnd hb hun hfin hinv
    rw [List.foldl_cons] at hfin ⊢
    obtain ⟨hjrest, hndr⟩ := List.nodup_cons.mp hnd
    have hgrows := stepFold_minted_grows supply rest (blockAssociator.stepNode supply st j)
    have hstep_minted : (blockAssociator.stepNode supply st j).minted.Nodup :=
      hfin.sublist hgrows.sublist
    have hst_minted : st.minted.Nodup :=
      hstep_minted.sublist (stepNode_minted_grows supply st j).sublist
    have hinv2 := scanInv_step supply C st j hinv
      (fun ent hent => hun j (List.mem_cons_self _ _) ent hent)
      (hb j (List.mem_cons_self _ _)) hst_minted hstep_minted
    apply ih (blockAssociator.stepNode supply st j) hndr ?_ ?_ hfin hinv2
    · intro j2 hj2
      rw [stepNode_nodes_length]
      exact hb j2 (List.mem_cons_of_mem _ hj2)
    · intro j2 hj2 ent hent hmem
      rcases stepNode_entries_mem supply st j ent hent j2 hmem with ⟨ent0, hent0, hmem0⟩ | heq
      · exact hun j2 (List.mem_cons_of_mem _ hj2) ent0 hent0 hmem0
      · exact hjrest (heq ▸ hj2)

end GitStuffServer
namespace GitStuffServer

/-- C3.  For every matched block-start and block-end pair the associator
records, provided the minted identifiers of the run are distinct, as the
time-and-random identifiers of the source are, and no classified node
carries both the block-start and block-end flags: the start node carries
the pair identifier as its blockId, the end node carries it as its
matchingBlockId, the end node points back at exactly the start node, and
the start node lists its continuation nodes followed by the end node,
every listed continuation pointing back at exactly the start node. -/
theorem associator_matched_pair_links (supply : Nat → String) (counter0 : Nat)
    (ns : List LiquidNode)
    (hfresh : (blockAssociator.associateBlockTags supply counter0 ns).minted.Nodup)
    (hflags : ∀ i ∈ blockAssociator.validIndices ns,
      ¬(astFlagStart ((blockAssociator.abtClassified ns).getD i default) = true ∧
        astFlagEnd ((blockAssociator.abtClassified ns).getD i default) = true))
    (s e : Nat) (bid : String)
    (hmem : (s, e, bid) ∈ (blockAssociator.associateBlockTags supply counter0 ns).matched) :
    ((blockAssociator.associateBlockTags supply counter0 ns).nodes.getD s default).blockId =
      some bid ∧
    ((blockAssociator.associateBlockTags supply counter0 ns).nodes.getD e default).matchingBlockId =
      some bid ∧
    ((blockAssociator.associateBlockTags supply counter0 ns).nodes.getD e default).relatedBlockNodes =
      some [s] ∧
    (∃ rel,
      ((blockAssociator.associateBlockTags supply counter0 ns).nodes.getD s default).relatedBlockNodes =
        some rel ∧ e ∈ rel ∧
      ∀ c ∈ rel, c ≠ e →
        ((blockAssociator.associateBlockTags supply counter0 ns).nodes.getD c default).relatedBlockNodes =
          some [s]) := by
  by_cases hempty : blockAssociator.validIndices ns = []
  · exfalso
    unfold blockAssociator.associateBlockTags at hmem
    rw [if_pos hempty] at hmem
    have hmem2 : (s, e, bid) ∈ ([] : List (Nat × Nat × String)) := hmem
    cases hmem2
  · have hassoc_eq : blockAssociator.associateBlockTags supply counter0 ns =
        { nodes := blockAssociator.setupBlockRelationships
            (blockAssociator.markUnclosed
              (((blockAssociator.abtSorted ns).foldl (blockAssociator.stepNode supply)
                { nodes := blockAssociator.abtClassified ns, counter := counter0 }).nodes)
              (((blockAssociator.abtSorted ns).foldl (blockAssociator.stepNode supply)
                { nodes := blockAssociator.abtClassified ns, counter := counter0 }).blockStack))
            (((blockAssociator.abtSorted ns).foldl (blockAssociator.stepNode supply)
              { nodes := blockAssociator.abtClassified ns, counter := counter0 }).blockNodes)
          counter := ((blockAssociator.abtSorted ns).foldl (blockAssociator.stepNode supply)
            { nodes := blockAssociator.abtClassified ns, counter := counter0 }).counter
          minted := ((blockAssociator.abtSorted ns).foldl (blockAssociator.stepNode supply)
            { nodes := blockAssociator.abtClassified ns, counter := counter0 }).minted
          matched := ((blockAssociator.abtSorted ns).foldl (blockAssociator.stepNode supply)
            { nodes := blockAssociator.abtClassified ns, counter := counter0 }).matched } := by
      unfold blockAssociator.associateBlockTags
      rw [if_neg hempty]
    rw [hassoc_eq] at hmem hfresh ⊢
    set F := (blockAssociator.abtSorted ns).foldl (blockAssociator.stepNode supply)
      { nodes := blockAssociator.abtClassified ns, counter := counter0 } with hF
    have hmem2 : (s, e, bid) ∈ F.matched := hmem
    have hfresh2 : F.minted.Nodup := hfresh
    have hinv0 : ScanInv (blockAssociator.abtClassified ns)
        { nodes := blockAssociator.abtClassified ns, counter := counter0 } := by
      refine ⟨rfl, fun i => rfl, ?_, ?_, List.nodup_nil, ?_, ?_⟩
      · intro ent hent
        exact absurd hent (List.not_mem_nil ent)
      · intro fr hfr
        exact absurd hfr (List.not_mem_nil fr)
      · intro p hp
        exact absurd hp (List.not_mem_nil p)
      · intro ent1 h1m
        exact absurd h1m (List.not_mem_nil ent1)
    have hinv : ScanInv (blockAssociator.abtClassified ns) F := by
      exact scanInv_fold supply (blockAssociator.abtClassified ns) (blockAssociator.abtSorted ns)
        { nodes := blockAssociator.abtClassified ns, counter := counter0 }
        (abtSorted_nodup ns)
        (fun j hj => by
          show j < (blockAssociator.abtClassified ns).length
          rw [abtClassified_length]
          exact validIndices_lt ns j (mem_abtSorted ns j hj))
        (fun j hj ent hent => absurd hent (List.not_mem_nil ent))
        hfresh2 hinv0
    obtain ⟨conts, hg, hc⟩ := hinv.2.2.2.2.2.1 (s, e, bid) hmem2
    obtain ⟨hsC, hsBlockId, hcs, hnodup, _, heCend, heMatching, _, _⟩ := hc
    have hentmem := mapGetKey_mem_kv _ _ _ hg
    have hcontain := stepFold_idx_containment supply (blockAssociator.validIndices ns)
      (blockAssociator.abtSorted ns)
      { nodes := blockAssociator.abtClassified ns, counter := counter0 }
      (fun j hj => mem_abtSorted ns j hj)
      (fun fr hfr => absurd hfr (List.not_mem_nil fr))
      (fun ent hent => absurd hent (List.not_mem_nil ent))
    have hmemval : ∀ m ∈ s :: conts ++ [e], m ∈ blockAssociator.validIndices ns := by
      intro m hm2
      apply hcontain.2 (bid, s :: conts ++ [e]) ?_ m hm2
      exact hentmem
    have hsval := hmemval s (List.mem_append_left _ (List.mem_cons_self _ _))
    have hse : astFlagEnd ((blockAssociator.abtClassified ns).getD s default) = false := by
      cases hq : astFlagEnd ((blockAssociator.abtClassified ns).getD s default) with
      | false => rfl
      | true => exact absurd ⟨hsC, hq⟩ (hflags s hsval)
    have hmark_blockId : ∀ i,
        ((blockAssociator.markUnclosed F.nodes F.blockStack).getD i default).blockId =
          (F.nodes.getD i default).blockId := by
      intro i
      unfold blockAssociator.markUnclosed
      exact foldl_set_proj (fun n => n.blockId) _ (fun fr => fr.2.1)
        (by intro a b; right; exact ⟨_, rfl, rfl⟩) _ _ i
    have hmark_matching : ∀ i,
        ((blockAssociator.markUnclosed F.nodes F.blockStack).getD i default).matchingBlockId =
          (F.nodes.getD i default).matchingBlockId := by
      intro i
      unfold blockAssociator.markUnclosed
      exact foldl_set_proj (fun n => n.matchingBlockId) _ (fun fr => fr.2.1)
        (by intro a b; right; exact ⟨_, rfl, rfl⟩) _ _ i
    have hres : ∀ i, blockAssociator.resetNode
        ((blockAssociator.markUnclosed F.nodes F.blockStack).getD i default) =
        blockAssociator.resetNode ((blockAssociator.abtClassified ns).getD i default) := by
      intro i
      rw [markUnclosed_resetNode, hF, stepFold_resetNode]
    have hlen2 : (blockAssociator.markUnclosed F.nodes F.blockStack).length =
        (blockAssociator.abtClassified ns).length := by
      rw [markUnclosed_length, hF, stepFold_nodes_length]
    have hkeysnd : (F.blockNodes.map (fun ent => ent.1)).Nodup := by
      rw [hinv.1]
      exact hfresh2
    have hdisj : ∀ ent ∈ F.blockNodes, ent.2 = s :: conts ++ [e] ∨
        (∀ m ∈ ent.2, m ∉ s :: conts ++ [e]) := by
      intro ent hent
      by_cases hkey : ent.1 = bid
      · left
        have heq := List.inj_on_of_nodup_map hkeysnd hent hentmem hkey
        rw [heq]
      · right
        exact hinv.2.2.2.2.2.2 ent hent _ hentmem hkey
    have hsetup := setup_main (blockAssociator.abtClassified ns) s conts e hsC hse
      (fun c hc2 => ⟨(hcs c hc2).2.1, (hcs c hc2).2.2⟩) heCend hnodup
      (fun m hm2 => by
        rw [abtClassified_length]
        exact validIndices_lt ns m (hmemval m hm2))
      F.blockNodes (blockAssociator.markUnclosed F.nodes F.blockStack)
      ⟨(bid, s :: conts ++ [e]), hentmem, rfl⟩ hdisj hres hlen2
    refine ⟨?_, ?_, ?_, ?_⟩
    · show ((blockAssociator.setupBlockRelationships
          (blockAssociator.markUnclosed F.nodes F.blockStack) F.blockNodes).getD s
          default).blockId = some bid
      rw [setup_proj (fun n => n.blockId) (fun n v => rfl) F.blockNodes _ s,
        hmark_blockId s]
      exact hsBlockId
    · show ((blockAssociator.setupBlockRelationships
          (blockAssociator.markUnclosed F.nodes F.blockStack) F.blockNodes).getD e
          default).matchingBlockId = some bid
      rw [setup_proj (fun n => n.matchingBlockId) (fun n v => rfl) F.blockNodes _ e,
        hmark_matching e]
      exact heMatching
    · exact hsetup.2.1
    · refine ⟨conts ++ [e], hsetup.1,
        List.mem_append_right _ (List.mem_singleton_self _), ?_⟩
      intro c hcm hcne
      rcases List.mem_append.mp hcm with hcc | hce
      · exact hsetup.2.2 c hcc
      · exact absurd (List.mem_singleton.mp hce) hcne

end GitStuffServer
namespace GitStuffServer

/-- Witness for the matched-pair theorem at the if-else-endif example:
its run mints distinct identifiers, classifies no node as both start and
end, and matches the pair of indices 0 and 2 under the identifier if-0,
so the theorem applies. -/
theorem associator_matched_pair_links_witness :
    ((blockAssociator.associateBlockTags natSupply 0 ifElseNodes).minted.Nodup ∧
      (∀ i ∈ blockAssociator.validIndices ifElseNodes,
        ¬(astFlagStart ((blockAssociator.abtClassified ifElseNodes).getD i default) = true ∧
          astFlagEnd ((blockAssociator.abtClassified ifElseNodes).getD i default) = true)) ∧
      (0, 2, "if-0") ∈ (blockAssociator.associateBlockTags natSupply 0 ifElseNodes).matched) ∧
    (((blockAssociator.associateBlockTags natSupply 0 ifElseNodes).nodes.getD 0 default).blockId =
        some "if-0" ∧
      ((blockAssociator.associateBlockTags natSupply 0 ifElseNodes).nodes.getD 2 default).matchingBlockId =
        some "if-0" ∧
      ((blockAssociator.associateBlockTags natSupply 0 ifElseNodes).nodes.getD 2 default).relatedBlockNodes =
        some [0] ∧
      (∃ rel,
        ((blockAssociator.associateBlockTags natSupply 0 ifElseNodes).nodes.getD 0 default).relatedBlockNodes =
          some rel ∧ 2 ∈ rel ∧
        ∀ c ∈ rel, c ≠ 2 →
          ((blockAssociator.associateBlockTags natSupply 0 ifElseNodes).nodes.getD c default).relatedBlockNodes =
            some [0])) :=
  ⟨⟨by decide, by decide, by decide⟩,
    associator_matched_pair_links natSupply 0 ifElseNodes (by decide) (by decide)
      0 2 "if-0" (by decide)⟩

end GitStuffServer

namespace GitStuffServer

/-- C3, counterexample to the unconditional reading.  When two minted
block identifiers collide, the blockNodes map entry of the first block
is overwritten by the second: on two nested if blocks under a colliding
supply the outer pair is recorded as matched, yet the related lists of
its start and end nodes are never populated. -/
theorem associator_matched_pair_links_counterexample :
    (0, 3, "if-X") ∈ (blockAssociator.associateBlockTags constSupply 0 nestedIfOut).matched ∧
    ¬(((blockAssociator.associateBlockTags constSupply 0 nestedIfOut).nodes.getD 3
        default).relatedBlockNodes = some [0]) ∧
    ¬(((blockAssociator.associateBlockTags constSupply 0 nestedIfOut).nodes.getD 0
        default).relatedBlockNodes = some [3]) := by
  refine ⟨by decide, by decide, by decide⟩

end GitStuffServer
